import Mathlib

/-!
# Barrier-synchronised bitonic sort (`sync-bitonic-sort.cpp`)

A shallow embedding of the partitioned bitonic sorting network, its range
computation, the command-line argument check and the reusable barrier, followed by
the theorems that settle the specification's statements about them.

Conventions of the embedding

* The element buffer `int64_t *data` of `size` elements is a `List Int` whose length is
  `size`; elements are only compared and exchanged, never computed with, so no
  arithmetic on them can overflow.
* `size_t` values are natural numbers.  The only `size_t` operation of the sort that can
  wrap is `merge_size <<= 1`; it is taken modulo `2 ^ 64`.  The products and sums of the
  range computation are bounded by `size` and cannot wrap.
* The threads of one round are run one after another, in thread order; rounds are
  separated by the barrier, so a round starts on the array the previous round left.
* The barrier is a transition system over interleavings: what a thread does while it
  holds the mutex is one step, and a thread blocked in `cv.wait` takes its next step
  when it finds the wait predicate true.  History variables count the arrivals.
* The C library (`atoi`, `std::sort`) is outside the program: `atoi` is a parameter, and
  the sorted reference of `bitonic_test` is `List.insertionSort (· ≤ ·)`.
* A thread's view of the loops (`worker`), the order in which the threads of a round run
  their loop bodies (`Interleaving`), and the validity of the array accesses
  (`compare_swap_checked`, where `none` is an access outside the array) are separate
  instrumented copies of the same loops; each is proved to agree with the plain one.
* The recursive functions `bitonic_merge` and `bitonic_sort_recursive` are run by one
  thread; an argument bounds the depth of the recursion, the barrier is threaded through
  the calls, and a call of `arrive_and_wait` that cannot complete a cycle does not return.
-/

namespace BitonicSort

/-! ## The sorting network -/

/-- Number of values of the 64-bit type `size_t`. -/
def SIZE_T_RANGE : Nat := 2 ^ 64

/-- The call `std::swap(data[i], data[k])`. -/
def swap (data : List Int) (i k : Nat) : List Int :=
  (data.set i (data.getD k 0)).set k (data.getD i 0)

/-- Body of the innermost loop of the worker (source lines 89-93), at index `i` of the
round `(merge_size, j)`:
`up = ((i / merge_size) % 2 == 0); k = i ^ j;`
`if (k < size && (i & j) == 0 && (data[i] > data[k]) == up) swap(data[i], data[k]);` -/
def compare_swap (size merge_size j : Nat) (data : List Int) (i : Nat) : List Int :=
  let up : Bool := decide ((i / merge_size) % 2 = 0)
  let k : Nat := i ^^^ j
  if k < size && (i &&& j) == 0 && (decide (data.getD i 0 > data.getD k 0) == up) then
    swap data i k
  else
    data

/-- The range `(start, end)` handed to thread `i` (source lines 72, 82, 83):
`start = i * (size / thread_count)` and
`end = (i == thread_count - 1) ? size : start + size / thread_count`. -/
def thread_range (size thread_count i : Nat) : Nat × Nat :=
  let elements_per_thread := size / thread_count
  let start := i * elements_per_thread
  let stop := if i = thread_count - 1 then size else start + elements_per_thread
  (start, stop)

/-- The ranges of all threads, in the order the launch loop creates them. -/
def thread_ranges (size thread_count : Nat) : List (Nat × Nat) :=
  (List.range thread_count).map (thread_range size thread_count)

/-- One thread's share of a round: `for (i = start; i < end; i++)` over the loop body. -/
def worker_round (size merge_size j : Nat) (data : List Int) (r : Nat × Nat) : List Int :=
  (List.range' r.1 (r.2 - r.1)).foldl (compare_swap size merge_size j) data

/-- One round `(merge_size, j)`: every thread processes its own range, then all meet
at the barrier. -/
def round (size thread_count merge_size j : Nat) (data : List Int) : List Int :=
  (thread_ranges size thread_count).foldl (worker_round size merge_size j) data

/-- The loop `for (j = merge_size >> 1; j > 0; j >>= 1)`, one round per iteration.  The
first argument bounds the number of iterations; the loop halves `j`, so `merge_size`
iterations are never used up. -/
def distance_loop (size thread_count merge_size : Nat) : Nat → Nat → List Int → List Int
  | 0, _, data => data
  | fuel + 1, j, data =>
    if 0 < j then
      distance_loop size thread_count merge_size fuel (j >>> 1)
        (round size thread_count merge_size j data)
    else
      data

/-- The loop `for (merge_size = 1; merge_size <= size; merge_size <<= 1)`.  The shift is
a `size_t` shift, so it wraps to `0` after `2 ^ 63`, and from then on the loop spins
without ever leaving; `none` is returned when the iteration bound `fuel` is used up. -/
def stage_loop (size thread_count : Nat) : Nat → Nat → List Int → Option (List Int)
  | 0, _, _ => none
  | fuel + 1, merge_size, data =>
    if merge_size ≤ size then
      stage_loop size thread_count fuel ((merge_size <<< 1) % SIZE_T_RANGE)
        (distance_loop size thread_count merge_size merge_size (merge_size >>> 1) data)
    else
      some data

/-- The function `parallel_bitonic_sort(data, size, thread_count)`.  With
`thread_count = 0` the first statement divides by zero, which yields no result. -/
def parallel_bitonic_sort (fuel : Nat) (data : List Int) (size thread_count : Nat) :
    Option (List Int) :=
  if thread_count = 0 then none else stage_loop size thread_count fuel 1 data

/-- The comparison loop of `bitonic_test` (source lines 185-190): the first index at
which `data` and `reference` differ, if there is one. -/
def first_mismatch (data reference : List Int) (size : Nat) : Option Nat :=
  (List.range size).find? fun i => data.getD i 0 != reference.getD i 0

/-! ## Predicates used to state and prove the properties of the network -/

/-- The array as a function of the index (`data[i]`). -/
def values (data : List Int) (i : Nat) : Int := data.getD i 0

/-- The values a round `(m, d)` leaves in an array of `size` elements, from the values
`a` it starts on: the lower index of a pair receives the minimum in an ascending block
and the maximum in a descending one, the upper index receives the other value. -/
def round_values (size m d : Nat) (a : Nat → Int) (i : Nat) : Int :=
  if (i / d) % 2 = 0 then
    if i + d < size then
      (if (i / m) % 2 = 0 then min (a i) (a (i + d)) else max (a i) (a (i + d)))
    else a i
  else
    if ((i - d) / m) % 2 = 0 then max (a (i - d)) (a i) else min (a (i - d)) (a i)

/-- Within the window `[s, s + n)` the indices satisfying `P` form an interval or the
complement of one. -/
def CyclicInterval (P : Nat → Prop) (s n : Nat) : Prop :=
  ∃ p q : Nat, (∀ i, s ≤ i → i < s + n → (P i ↔ (p ≤ i ∧ i < q))) ∨
    (∀ i, s ≤ i → i < s + n → (P i ↔ ¬ (p ≤ i ∧ i < q)))

/-- The values at `[s, s + n)` are bitonic: for every threshold, the indices whose value
exceeds it form an interval of the window or the complement of one. -/
def Bitonic (a : Nat → Int) (s n : Nat) : Prop :=
  ∀ t : Int, CyclicInterval (fun i => t < a i) s n

/-- Every aligned block of `m` indices that lies inside `[0, size)` is sorted:
non-decreasing when its block number is even, non-increasing when it is odd. -/
def BlockSorted (size m : Nat) (a : Nat → Int) : Prop :=
  ∀ x y, x / m = y / m → (x / m + 1) * m ≤ size → x < y →
    if (x / m) % 2 = 0 then a x ≤ a y else a y ≤ a x

/-- State of a merge of blocks of `m` indices when sub-blocks of `D` indices remain to be
merged: every sub-block is bitonic, and the sub-blocks of one block are already in the
order of the block's direction. -/
def BlockInv (size m D : Nat) (a : Nat → Int) : Prop :=
  (∀ i, (i / m + 1) * m ≤ size → Bitonic a (i / D * D) D) ∧
  (∀ x y, x / m = y / m → (x / m + 1) * m ≤ size → x / D < y / D →
    if (x / m) % 2 = 0 then a x ≤ a y else a y ≤ a x)

/-! ## Command-line arguments -/

/-- The constant `USAGE`. -/
def USAGE : String := "Program requires exactly two arguments, both positive integers.\n"

/-- The result of a call that may end the process: `terminated err status` when the
process was ended by `std::exit(status)` after writing `err` to `std::cerr`, and
`returned a` when the call returned with the values `a`. -/
inductive Outcome (α : Type) where
  | terminated (err : String) (status : Int) : Outcome α
  | returned (a : α) : Outcome α
  deriving DecidableEq

/-- The function `bad_usage()`: writes `USAGE` to `std::cerr` and calls `std::exit(1)`. -/
def bad_usage {α : Type} : Outcome α := Outcome.terminated USAGE 1

/-- The function `get_args(argc, argv, val_count, thread_count)`; on return the pair holds
`val_count` and `thread_count`.  The C library function `atoi` is a parameter. -/
def get_args (atoi : String → Int) (argc : Int) (argv : List String) : Outcome (Int × Int) :=
  if argc ≤ 2 then bad_usage
  else if argc ≥ 4 then bad_usage
  else
    let val_count := atoi (argv.getD 1 "")
    let thread_count := atoi (argv.getD 2 "")
    if val_count ≤ 0 ∨ thread_count ≤ 0 then bad_usage
    else Outcome.returned (val_count, thread_count)

/-! ## The barrier -/

/-- The data members of `class Barrier` (the mutex and the condition variable are
represented by the atomicity of the steps below).  `phase` is a `size_t`. -/
structure Barrier where
  expected_count : Int
  current_count : Int
  phase : Nat
  deriving DecidableEq

/-- The constructor `Barrier(expected)`. -/
def Barrier.create (expected : Int) : Barrier :=
  { expected_count := expected, current_count := 0, phase := 0 }

/-- Where a participant is with respect to `arrive_and_wait`: outside of it (`running`),
or blocked in `cv.wait` with the captured `my_phase`.  The field `arrival` is a history
variable, the number of calls of `arrive_and_wait` made before this one; the code does
not depend on it. -/
inductive Participant where
  | running : Participant
  | waiting (my_phase : Nat) (arrival : Nat) : Participant
  deriving DecidableEq

/-- A barrier with its participants.  The field `arrivals` is a history variable, the
number of calls of `arrive_and_wait` made so far. -/
structure BarrierSystem where
  barrier : Barrier
  threads : List Participant
  arrivals : Nat
  deriving DecidableEq

/-- A fresh barrier for `n` participants, all of them outside `arrive_and_wait`. -/
def BarrierSystem.start (n : Nat) : BarrierSystem :=
  { barrier := Barrier.create n, threads := List.replicate n Participant.running, arrivals := 0 }

/-- The predicate `phase != my_phase` of `cv.wait`. -/
def wait_predicate (b : Barrier) (my_phase : Nat) : Bool := b.phase != my_phase

/-- Thread `t` calls `arrive_and_wait` and runs it, under the mutex, up to its return or
up to the point where `cv.wait` blocks (source lines 22-31): the counter is incremented;
the arrival that makes it equal to `expected_count` resets it, advances the phase (a
`size_t` increment) and returns; any other arrival captures the phase and blocks. -/
def arrive (s : BarrierSystem) (t : Nat) : BarrierSystem :=
  let count := s.barrier.current_count + 1
  if count = s.barrier.expected_count then
    { barrier := { s.barrier with current_count := 0, phase := (s.barrier.phase + 1) % 2 ^ 64 },
      threads := s.threads,
      arrivals := s.arrivals + 1 }
  else
    { barrier := { s.barrier with current_count := count },
      threads := s.threads.set t (Participant.waiting s.barrier.phase s.arrivals),
      arrivals := s.arrivals + 1 }

/-- Thread `t`, blocked in `cv.wait`, finds its predicate true and returns from
`arrive_and_wait`. -/
def wake (s : BarrierSystem) (t : Nat) : BarrierSystem :=
  { s with threads := s.threads.set t Participant.running }

/-- The steps of the system: a thread outside `arrive_and_wait` calls it, or a blocked
thread whose wait predicate holds returns. -/
inductive BarrierStep : BarrierSystem → BarrierSystem → Prop where
  | arrive (s : BarrierSystem) (t : Nat) (h : s.threads[t]? = some Participant.running) :
      BarrierStep s (arrive s t)
  | wake (s : BarrierSystem) (t p k : Nat) (h : s.threads[t]? = some (Participant.waiting p k))
      (hp : wait_predicate s.barrier p = true) : BarrierStep s (wake s t)

/-- The states a barrier for `n` participants can reach. -/
inductive BarrierReachable (n : Nat) : BarrierSystem → Prop where
  | start : BarrierReachable n (BarrierSystem.start n)
  | step (s s' : BarrierSystem) (hs : BarrierReachable n s) (h : BarrierStep s s') :
      BarrierReachable n s'

/-- The thread is blocked on an arrival of cycle `c` (cycles of `n` arrivals). -/
def Participant.in_cycle (n c : Nat) : Participant → Bool
  | Participant.running => false
  | Participant.waiting _ k => k / n == c

/-- What holds in every state a barrier for `n` participants can reach. -/
structure BarrierInv (n : Nat) (s : BarrierSystem) : Prop where
  length_eq : s.threads.length = n
  expected_eq : s.barrier.expected_count = n
  count_eq : s.barrier.current_count = ((s.arrivals % n : Nat) : Int)
  phase_eq : s.barrier.phase = (s.arrivals / n) % 2 ^ 64
  blocked : ∀ t p k : Nat, s.threads[t]? = some (Participant.waiting p k) →
    p = (k / n) % 2 ^ 64 ∧ (k + 1) % n ≠ 0 ∧ k < s.arrivals ∧ s.arrivals / n ≤ k / n + 1
  current : s.threads.countP (Participant.in_cycle n (s.arrivals / n)) = s.arrivals % n

/-- The state of a barrier for four participants after the threads `0`, `1` and `2` have
arrived, one after the other. -/
def three_of_four_arrived : BarrierSystem :=
  arrive (arrive (arrive (BarrierSystem.start 4) 0) 1) 2

/-! ## The program `barrier_test` -/

/-- The points of `barrier_test_helper` at which a thread can be: about to print its letter
(line 144), about to make the first call of `arrive_and_wait` (line 145), blocked in it,
at the conditional output of the line end (lines 146-148), about to make the second call
(line 149), blocked in it, or past the loop. -/
inductive TestPoint where
  | letter : TestPoint
  | first : TestPoint
  | first_blocked : TestPoint
  | newline : TestPoint
  | second : TestPoint
  | second_blocked : TestPoint
  | finished : TestPoint
  deriving DecidableEq

/-- A thread of `barrier_test`: its program point and its loop counter `i`. -/
structure TestThread where
  point : TestPoint
  i : Nat
  deriving DecidableEq

/-- The barrier of `barrier_test`, its threads, and the characters the threads have written
to `std::cout` so far. -/
structure TestSystem where
  bar : BarrierSystem
  procs : List TestThread
  output : List Char

/-- The character `(char)('A' + thread_id)`; the conversion to `char` keeps the low eight
bits. -/
def thread_letter (thread_id : Nat) : Char := Char.ofNat (('A'.toNat + thread_id) % 256)

/-- Where a thread is after the second call of iteration `i` has returned: at the head of
iteration `i + 1`, or past the loop. -/
def next_iteration (phase_count i : Nat) : TestThread :=
  if i + 1 < phase_count then { point := TestPoint.letter, i := i + 1 }
  else { point := TestPoint.finished, i := i + 1 }

/-- The threads of `barrier_test` right after they have been created. -/
def TestSystem.start (thread_count phase_count : Nat) : TestSystem :=
  { bar := BarrierSystem.start thread_count,
    procs := List.replicate thread_count
      (if 0 < phase_count then { point := TestPoint.letter, i := 0 }
        else { point := TestPoint.finished, i := 0 }),
    output := [] }

/-- Thread `t` calls `arrive_and_wait`: it goes on to `returned_at` when the call returns at
once, and to `blocked_at` when the call blocks. -/
def call_barrier (s : TestSystem) (t : Nat) (blocked_at returned_at : TestThread) : TestSystem :=
  { s with
    bar := arrive s.bar t,
    procs := s.procs.set t
      (if (arrive s.bar t).threads[t]? = some Participant.running then returned_at
        else blocked_at) }

/-- Thread `t` returns from the call of `arrive_and_wait` it was blocked in. -/
def leave_barrier (s : TestSystem) (t : Nat) (returned_at : TestThread) : TestSystem :=
  { s with bar := wake s.bar t, procs := s.procs.set t returned_at }

/-- The steps of the threads of `barrier_test` (`sleep_for` does not change the state). -/
inductive TestStep (phase_count : Nat) : TestSystem → TestSystem → Prop where
  | print_letter (s : TestSystem) (t i : Nat)
      (h : s.procs[t]? = some { point := TestPoint.letter, i := i }) :
      TestStep phase_count s
        { s with
          output := s.output ++ [thread_letter t],
          procs := s.procs.set t { point := TestPoint.first, i := i } }
  | first_call (s : TestSystem) (t i : Nat)
      (h : s.procs[t]? = some { point := TestPoint.first, i := i }) :
      TestStep phase_count s
        (call_barrier s t { point := TestPoint.first_blocked, i := i }
          { point := TestPoint.newline, i := i })
  | first_return (s : TestSystem) (t i p k : Nat)
      (h : s.procs[t]? = some { point := TestPoint.first_blocked, i := i })
      (hw : s.bar.threads[t]? = some (Participant.waiting p k))
      (hp : wait_predicate s.bar.barrier p = true) :
      TestStep phase_count s (leave_barrier s t { point := TestPoint.newline, i := i })
  | print_newline (s : TestSystem) (t i : Nat)
      (h : s.procs[t]? = some { point := TestPoint.newline, i := i }) :
      TestStep phase_count s
        { s with
          output := if t = 0 then s.output ++ ['\n'] else s.output,
          procs := s.procs.set t { point := TestPoint.second, i := i } }
  | second_call (s : TestSystem) (t i : Nat)
      (h : s.procs[t]? = some { point := TestPoint.second, i := i }) :
      TestStep phase_count s
        (call_barrier s t { point := TestPoint.second_blocked, i := i }
          (next_iteration phase_count i))
  | second_return (s : TestSystem) (t i p k : Nat)
      (h : s.procs[t]? = some { point := TestPoint.second_blocked, i := i })
      (hw : s.bar.threads[t]? = some (Participant.waiting p k))
      (hp : wait_predicate s.bar.barrier p = true) :
      TestStep phase_count s (leave_barrier s t (next_iteration phase_count i))

/-- The states `barrier_test` can reach with `thread_count` threads and `phase_count`
iterations. -/
inductive TestReachable (thread_count phase_count : Nat) : TestSystem → Prop where
  | start : TestReachable thread_count phase_count (TestSystem.start thread_count phase_count)
  | step (s s' : TestSystem) (hs : TestReachable thread_count phase_count s)
      (h : TestStep phase_count s s') : TestReachable thread_count phase_count s'

/-- The number of calls of `arrive_and_wait` a thread has made. -/
def TestThread.calls (th : TestThread) : Nat :=
  match th.point with
  | TestPoint.letter => 2 * th.i
  | TestPoint.first => 2 * th.i
  | TestPoint.first_blocked => 2 * th.i + 1
  | TestPoint.newline => 2 * th.i + 1
  | TestPoint.second => 2 * th.i + 1
  | TestPoint.second_blocked => 2 * th.i + 2
  | TestPoint.finished => 2 * th.i

/-- The thread is blocked in `arrive_and_wait`. -/
def TestThread.is_blocked (th : TestThread) : Bool :=
  match th.point with
  | TestPoint.first_blocked => true
  | TestPoint.second_blocked => true
  | _ => false

/-- The number of letters a thread has printed. -/
def TestThread.printed (th : TestThread) : Nat :=
  match th.point with
  | TestPoint.letter => th.i
  | TestPoint.finished => th.i
  | _ => th.i + 1

/-- The number of times a thread has passed the output of the line end. -/
def TestThread.lines_ended (th : TestThread) : Nat :=
  match th.point with
  | TestPoint.second => th.i + 1
  | TestPoint.second_blocked => th.i + 1
  | _ => th.i

/-- The loop counter is in the range of the loop. -/
def TestThread.in_loop (phase_count : Nat) (th : TestThread) : Prop :=
  if th.point = TestPoint.finished then th.i = phase_count else th.i < phase_count

/-- The output consists of the complete lines `lines`, each ended by a line end, and of
the letters of the threads `ts` on the line that is being written. -/
def output_of (lines : List (List Char)) (ts : List Nat) : List Char :=
  (lines.map fun l => l ++ ['\n']).flatten ++ ts.map thread_letter

/-- The output so far is a sequence of complete lines, each of which holds the letter of
every thread once, followed by the letters of the threads that have printed on the line
that is being written. -/
def OutputInv (n : Nat) (procs : List TestThread) (output : List Char) : Prop :=
  ∃ (lines : List (List Char)) (ts : List Nat),
    output = output_of lines ts ∧
    (∀ l, l ∈ lines → l.Perm ((List.range n).map thread_letter)) ∧
    ts.Nodup ∧ (∀ t, t ∈ ts → t < n) ∧
    (∀ (t : Nat) (th : TestThread), procs[t]? = some th →
      (t ∈ ts ↔ th.printed = lines.length + 1)) ∧
    (∀ th : TestThread, procs[0]? = some th → th.lines_ended = lines.length)

/-- What holds in every state `barrier_test` can reach. -/
structure TestInv (n phase_count : Nat) (s : TestSystem) : Prop where
  bar_inv : BarrierInv n s.bar
  length_eq : s.procs.length = n
  threads_ok : ∀ (t : Nat) (th : TestThread) (pa : Participant),
    s.procs[t]? = some th → s.bar.threads[t]? = some pa →
      th.in_loop phase_count ∧
      (th.is_blocked = false → pa = Participant.running ∧ th.calls = s.bar.arrivals / n) ∧
      (th.is_blocked = true → ∃ p k, pa = Participant.waiting p k ∧ k / n + 1 = th.calls)
  output_ok : OutputInv n s.procs s.output

/-! ## The critical section of the barrier on its own -/

/-- What the critical section of `arrive_and_wait` (source lines 23-28) does to the data
members of the barrier: the counter is incremented, and the arrival that makes it equal to
`expected_count` resets it and advances the phase. -/
def critical_section (b : Barrier) : Barrier :=
  let count := b.current_count + 1
  if count = b.expected_count then
    { b with current_count := 0, phase := (b.phase + 1) % 2 ^ 64 }
  else
    { b with current_count := count }

/-- The state of a barrier for two participants after thread `0` has arrived, thread `1`
has arrived and returned, and thread `1` has arrived again. -/
def second_call_before_return : BarrierSystem :=
  arrive (arrive (arrive (BarrierSystem.start 2) 0) 1) 1

/-! ## One worker, with the record of its rounds -/

/-- The distance loop as one worker runs it on its own range `r` (source lines 87-96):
the state is the array together with the record of the calls of `arrive_and_wait` made
so far, each entered with the `(merge_size, j)` of the round it ends. -/
def worker_distance_loop (size merge_size : Nat) (r : Nat × Nat) :
    Nat → Nat → List Int × List (Nat × Nat) → List Int × List (Nat × Nat)
  | 0, _, st => st
  | fuel + 1, j, st =>
    if 0 < j then
      worker_distance_loop size merge_size r fuel (j >>> 1)
        (worker_round size merge_size j st.1 r, st.2 ++ [(merge_size, j)])
    else
      st

/-- The stage loop as one worker runs it on its own range (source lines 86-97). -/
def worker_stage_loop (size : Nat) (r : Nat × Nat) :
    Nat → Nat → List Int × List (Nat × Nat) → Option (List Int × List (Nat × Nat))
  | 0, _, _ => none
  | fuel + 1, merge_size, st =>
    if merge_size ≤ size then
      worker_stage_loop size r fuel ((merge_size <<< 1) % SIZE_T_RANGE)
        (worker_distance_loop size merge_size r merge_size (merge_size >>> 1) st)
    else
      some st

/-- The body of a worker thread (the lambda of source lines 81-98) run on the array
`data` with the range `r`: the array it leaves and the rounds it went through. -/
def worker (fuel : Nat) (data : List Int) (size : Nat) (r : Nat × Nat) :
    Option (List Int × List (Nat × Nat)) :=
  worker_stage_loop size r fuel 1 (data, [])

/-- The distances `2 ^ (f - 1), ..., 2, 1` of the stage with merge size `2 ^ f`, in the
words of the specification: `mergeSize / 2, mergeSize / 4, ..., 1`. -/
def stage_distances (f : Nat) : List Nat := (List.range f).reverse.map fun e => 2 ^ e

/-- The rounds of the stage with merge size `2 ^ f`. -/
def stage_rounds (f : Nat) : List (Nat × Nat) :=
  (stage_distances f).map fun d => (2 ^ f, d)

/-- The round sequence in the words of the specification: merge sizes `1, 2, 4, ...`
while they are at most `size`, each with its distances. -/
def round_sequence (size : Nat) : List (Nat × Nat) :=
  if size = 0 then [] else (List.range (Nat.log 2 size + 1)).flatMap stage_rounds

/-! ## Rounds run in an arbitrary interleaving of the threads -/

/-- The loop iterations each thread has to run in a round, thread by thread: the
indices `start, start + 1, ..., end - 1` of its range. -/
def thread_queues (size thread_count : Nat) : List (List Nat) :=
  (thread_ranges size thread_count).map fun r => List.range' r.1 (r.2 - r.1)

/-- The orders in which the threads of one round can run their loop iterations: at each
point some thread that still has iterations left runs its next one. -/
inductive Interleaving : List (List Nat) → List Nat → Prop where
  | done (queues : List (List Nat)) : (∀ q ∈ queues, q = []) → Interleaving queues []
  | step (queues : List (List Nat)) (t i : Nat) (rest sched : List Nat) :
      queues[t]? = some (i :: rest) → Interleaving (queues.set t rest) sched →
      Interleaving queues (i :: sched)

/-- One round in which the loop bodies are run in the order `sched`. -/
def scheduled_round (size merge_size j : Nat) (data : List Int) (sched : List Nat) : List Int :=
  sched.foldl (compare_swap size merge_size j) data

/-- The distance loop, the round `(merge_size, j)` being run in the order
`order merge_size j`. -/
def scheduled_distance_loop (size : Nat) (order : Nat → Nat → List Nat) (merge_size : Nat) :
    Nat → Nat → List Int → List Int
  | 0, _, data => data
  | fuel + 1, j, data =>
    if 0 < j then
      scheduled_distance_loop size order merge_size fuel (j >>> 1)
        (scheduled_round size merge_size j data (order merge_size j))
    else
      data

/-- The stage loop with the rounds run in the orders given by `order`. -/
def scheduled_stage_loop (size : Nat) (order : Nat → Nat → List Nat) :
    Nat → Nat → List Int → Option (List Int)
  | 0, _, _ => none
  | fuel + 1, merge_size, data =>
    if merge_size ≤ size then
      scheduled_stage_loop size order fuel ((merge_size <<< 1) % SIZE_T_RANGE)
        (scheduled_distance_loop size order merge_size merge_size (merge_size >>> 1) data)
    else
      some data

/-- The function `parallel_bitonic_sort` with the rounds run in the orders given by
`order`. -/
def scheduled_bitonic_sort (order : Nat → Nat → List Nat) (fuel : Nat) (data : List Int)
    (size thread_count : Nat) : Option (List Int) :=
  if thread_count = 0 then none else scheduled_stage_loop size order fuel 1 data

/-! ## The condition of the loop body -/

/-- The condition of the `if` statement of the loop body at index `i`:
`k < size && (i & j) == 0 && (data[i] > data[k]) == up`. -/
def swap_condition (size merge_size j : Nat) (data : List Int) (i : Nat) : Bool :=
  let up : Bool := decide ((i / merge_size) % 2 = 0)
  let k : Nat := i ^^^ j
  k < size && (i &&& j) == 0 && (decide (data.getD i 0 > data.getD k 0) == up)

/-- The part of the condition of the loop body that does not read the array:
`k < size && (i & j) == 0` with `k = i ^ j`. -/
def index_guard (size j i : Nat) : Bool :=
  let k : Nat := i ^^^ j
  decide (k < size) && ((i &&& j) == 0)

/-! ## The loops with checked array accesses -/

/-- The call `std::swap(data[i], data[k])` on an array of `data.length` elements, with
the accesses checked: `none` when one of them falls outside the array. -/
def swap_checked (data : List Int) (i k : Nat) : Option (List Int) :=
  if i < data.length ∧ k < data.length then some (swap data i k) else none

/-- The loop body with every array access checked.  The operator `&&` evaluates its
right operand only when the left one holds, so `data[i]` and `data[k]` are read only
after `k < size && (i & j) == 0` has been found true; `none` stands for an access
outside the array. -/
def compare_swap_checked (size merge_size j : Nat) (data : List Int) (i : Nat) :
    Option (List Int) :=
  let up : Bool := decide ((i / merge_size) % 2 = 0)
  let k : Nat := i ^^^ j
  if k < size && (i &&& j) == 0 then
    match data[i]?, data[k]? with
    | some a, some b => if decide (a > b) == up then swap_checked data i k else some data
    | _, _ => none
  else
    some data

/-- One thread's share of a round, with checked accesses. -/
def worker_round_checked (size merge_size j : Nat) (data : List Int) (r : Nat × Nat) :
    Option (List Int) :=
  (List.range' r.1 (r.2 - r.1)).foldlM (compare_swap_checked size merge_size j) data

/-- One round, with checked accesses. -/
def round_checked (size thread_count merge_size j : Nat) (data : List Int) :
    Option (List Int) :=
  (thread_ranges size thread_count).foldlM (worker_round_checked size merge_size j) data

/-- The distance loop, with checked accesses. -/
def distance_loop_checked (size thread_count merge_size : Nat) :
    Nat → Nat → List Int → Option (List Int)
  | 0, _, data => some data
  | fuel + 1, j, data =>
    if 0 < j then
      match round_checked size thread_count merge_size j data with
      | some data' => distance_loop_checked size thread_count merge_size fuel (j >>> 1) data'
      | none => none
    else
      some data

/-- The stage loop, with checked accesses: the outer `none` is the used-up iteration
bound, as in `stage_loop`, and `some none` is an access outside the array. -/
def stage_loop_checked (size thread_count : Nat) :
    Nat → Nat → List Int → Option (Option (List Int))
  | 0, _, _ => none
  | fuel + 1, merge_size, data =>
    if merge_size ≤ size then
      match distance_loop_checked size thread_count merge_size merge_size (merge_size >>> 1)
          data with
      | some data' =>
        stage_loop_checked size thread_count fuel ((merge_size <<< 1) % SIZE_T_RANGE) data'
      | none => some none
    else
      some (some data)

/-- The function `parallel_bitonic_sort` with checked accesses to `data`. -/
def parallel_bitonic_sort_checked (fuel : Nat) (data : List Int) (size thread_count : Nat) :
    Option (Option (List Int)) :=
  if thread_count = 0 then none else stage_loop_checked size thread_count fuel 1 data

/-! ## The stage loop with the record of the arrays -/

/-- The stage loop, keeping a record of the array at the end of every stage: the entry
`(merge_size, data)` is made when the distance loop of `merge_size` has completed. -/
def stage_loop_states (size thread_count : Nat) :
    Nat → Nat → List Int → Option (List (Nat × List Int))
  | 0, _, _ => none
  | fuel + 1, merge_size, data =>
    if merge_size ≤ size then
      (stage_loop_states size thread_count fuel ((merge_size <<< 1) % SIZE_T_RANGE)
        (distance_loop size thread_count merge_size merge_size (merge_size >>> 1) data)).map
        fun states =>
          (merge_size,
            distance_loop size thread_count merge_size merge_size (merge_size >>> 1) data)
            :: states
    else
      some []

/-! ## The recursive formulation -/

/-- The call `compare_exchange(data[i], data[k], dir)` (source lines 43-47):
`if ((a > b) == dir) std::swap(a, b);` with `a`, `b` bound to the two elements. -/
def compare_exchange (data : List Int) (i k : Nat) (dir : Bool) : List Int :=
  if decide (data.getD i 0 > data.getD k 0) == dir then swap data i k else data

/-- The loop of `bitonic_merge` (source lines 52-54):
`for (i = start; i < start + half; ++i) compare_exchange(data[i], data[i + half], dir);` -/
def merge_loop (data : List Int) (start half : Nat) (dir : Bool) : List Int :=
  (List.range' start half).foldl (fun d i => compare_exchange d i (i + half) dir) data

/-- A call of `arrive_and_wait` by a thread that is the only one to use the barrier.  If
its arrival is the one that completes the cycle, the call returns with the barrier
released; otherwise the thread would wait for a change of `phase` that no other thread
is there to make, and the call does not return (`none`). -/
def arrive_and_wait_alone (b : Barrier) : Option Barrier :=
  if b.current_count + 1 = b.expected_count then some (critical_section b) else none

/-- The function `bitonic_merge(data, size, start, end, dir, barrier)` (source lines
49-59), run by one thread.  The parameter `end` of the source, here `stop`, is the number
of elements of the segment that begins at `start`.  The indices `i + half` stay below
`start + end`, so inside the array no `size_t` sum wraps.  The first argument bounds the
depth of the recursion; `none` is returned when it is used up or when a call of
`arrive_and_wait` does not return. -/
def bitonic_merge :
    Nat → List Int → Nat → Nat → Nat → Bool → Barrier → Option (List Int × Barrier)
  | 0, _, _, _, _, _, _ => none
  | fuel + 1, data, size, start, stop, dir, barrier =>
    if stop > 1 then
      let half := stop / 2
      match bitonic_merge fuel (merge_loop data start half dir) size start half dir barrier with
      | none => none
      | some (data2, barrier2) =>
        match bitonic_merge fuel data2 size (start + half) half dir barrier2 with
        | none => none
        | some (data3, barrier3) => (arrive_and_wait_alone barrier3).map fun b => (data3, b)
    else
      (arrive_and_wait_alone barrier).map fun b => (data, b)

/-- The function `bitonic_sort_recursive(data, size, start, end, dir, barrier)` (source
lines 61-68), run by one thread. -/
def bitonic_sort_recursive :
    Nat → List Int → Nat → Nat → Nat → Bool → Barrier → Option (List Int × Barrier)
  | 0, _, _, _, _, _, _ => none
  | fuel + 1, data, size, start, stop, dir, barrier =>
    if stop > 1 then
      let half := stop / 2
      match bitonic_sort_recursive fuel data size start half (!dir) barrier with
      | none => none
      | some (data1, barrier1) =>
        match bitonic_sort_recursive fuel data1 size (start + half) half dir barrier1 with
        | none => none
        | some (data2, barrier2) => bitonic_merge fuel data2 size start stop dir barrier2
    else
      some (data, barrier)

/-! ## Bit operations against a power of two -/

theorem xor_one_eq (i : Nat) : i ^^^ 1 = if i % 2 = 0 then i + 1 else i - 1 := by
  have h1 : (1 : Nat) = Nat.bit true 0 := by simp [Nat.bit_val]
  have hi : i = Nat.bit (decide (i % 2 = 1)) (i / 2) := by
    rw [Nat.bit_val]
    rcases Nat.mod_two_eq_zero_or_one i with h | h <;> simp [h] <;> omega
  conv_lhs => rw [hi, h1, Nat.xor_bit, Nat.xor_zero, Nat.bit_val]
  rcases Nat.mod_two_eq_zero_or_one i with h | h <;> simp [h] <;> omega

/-- The partner index `i ^ j` for `j = 2 ^ e`: `i + j` when bit `e` of `i` is clear,
`i - j` when it is set. -/
theorem xor_two_pow (e : Nat) : ∀ i : Nat,
    i ^^^ 2 ^ e = if (i / 2 ^ e) % 2 = 0 then i + 2 ^ e else i - 2 ^ e := by
  induction e with
  | zero => intro i; simpa using xor_one_eq i
  | succ e ih =>
    intro i
    have hp : (2 : Nat) ^ (e + 1) = Nat.bit false (2 ^ e) := by
      rw [Nat.bit_val]; simp [pow_succ]; ring
    have hi : i = Nat.bit (decide (i % 2 = 1)) (i / 2) := by
      rw [Nat.bit_val]
      rcases Nat.mod_two_eq_zero_or_one i with h | h <;> simp [h] <;> omega
    have hd : i / 2 ^ (e + 1) = i / 2 / 2 ^ e := by
      rw [pow_succ, Nat.mul_comm, Nat.div_div_eq_div_mul]
    have hle : (i / 2 / 2 ^ e) % 2 = 1 → 2 ^ e ≤ i / 2 := by
      intro h
      by_contra hlt
      rw [Nat.div_eq_of_lt (by omega)] at h
      simp at h
    rw [hd]
    conv_lhs => rw [hi, hp, Nat.xor_bit, ih, Nat.bit_val]
    have h2 : (2:Nat) ^ (e+1) = 2 * 2 ^ e := by rw [pow_succ]; ring
    rcases Nat.mod_two_eq_zero_or_one (i / 2 / 2 ^ e) with h | h
    · rcases Nat.mod_two_eq_zero_or_one i with h' | h' <;> simp [h, h'] <;> omega
    · have := hle h
      rcases Nat.mod_two_eq_zero_or_one i with h' | h' <;> simp [h, h'] <;> omega

/-- The guard `(i & j) == 0` for `j = 2 ^ e` says that bit `e` of `i` is clear. -/
theorem and_two_pow_eq_zero (e i : Nat) : i &&& 2 ^ e = 0 ↔ (i / 2 ^ e) % 2 = 0 := by
  rw [Nat.and_two_pow, Nat.testBit_to_div_mod]
  have hp : 0 < 2 ^ e := Nat.two_pow_pos e
  rcases Nat.mod_two_eq_zero_or_one (i / 2 ^ e) with h | h <;> simp [h]

/-! ## Exchanging two elements -/

theorem length_swap (data : List Int) (i k : Nat) : (swap data i k).length = data.length := by
  simp [swap]

theorem getD_swap (data : List Int) (i k x : Nat) (hi : i < data.length) (hk : k < data.length) :
    (swap data i k).getD x 0
      = if x = k then data.getD i 0 else if x = i then data.getD k 0 else data.getD x 0 := by
  simp only [swap, List.getD_eq_getElem?_getD, List.getElem?_set, List.length_set]
  by_cases h1 : k = x
  · subst h1; simp [hk]
  · by_cases h2 : i = x
    · subst h2; simp [h1, hi, Ne.symm h1]
    · simp [h1, h2, Ne.symm h1, Ne.symm h2]

theorem swap_perm (data : List Int) (i k : Nat) (hi : i < data.length) (hk : k < data.length) :
    (swap data i k).Perm data := by
  rw [List.perm_iff_count]
  intro a
  unfold swap
  rw [List.count_set _ _ _ _ (by simpa using hk), List.count_set _ _ _ _ hi]
  simp only [List.getD_eq_getElem?_getD, List.getElem?_eq_getElem hi, List.getElem?_eq_getElem hk,
    Option.getD_some, List.getElem_set]
  have h1 := List.count_pos_iff.2 (List.getElem_mem hi)
  have h2 := List.count_pos_iff.2 (List.getElem_mem hk)
  by_cases hik : i = k
  · subst hik
    simp only [if_true]
    by_cases ha : data[i] = a
    · subst ha; simp
    · simp [ha]
  · simp only [hik, if_false]
    by_cases ha : data[i] = a <;> by_cases hb : data[k] = a
    · rw [ha] at h1; simp [ha, hb]; omega
    · rw [ha] at h1; simp [ha, hb]; omega
    · simp [ha, hb]
    · simp [ha, hb]


/-! ## One round, as a map on the values -/

theorem length_compare_swap (size m j : Nat) (data : List Int) (i : Nat) :
    (compare_swap size m j data i).length = data.length := by
  unfold compare_swap
  simp only []
  split
  · exact length_swap _ _ _
  · rfl

theorem getD_compare_swap (size m e : Nat) (data : List Int) (i x : Nat)
    (hlen : data.length = size) (hi : i < size) :
    (compare_swap size m (2 ^ e) data i).getD x 0 =
      if (i / 2 ^ e) % 2 = 0 ∧ i + 2 ^ e < size then
        if x = i then
          (if (i / m) % 2 = 0 then min (data.getD i 0) (data.getD (i + 2 ^ e) 0)
            else max (data.getD i 0) (data.getD (i + 2 ^ e) 0))
        else if x = i + 2 ^ e then
          (if (i / m) % 2 = 0 then max (data.getD i 0) (data.getD (i + 2 ^ e) 0)
            else min (data.getD i 0) (data.getD (i + 2 ^ e) 0))
        else data.getD x 0
      else data.getD x 0 := by
  have hp : 0 < 2 ^ e := Nat.two_pow_pos e
  unfold compare_swap
  simp only [xor_two_pow, Bool.and_eq_true, decide_eq_true_eq, beq_iff_eq, and_two_pow_eq_zero]
  by_cases hb : (i / 2 ^ e) % 2 = 0
  · simp only [hb, if_true, true_and]
    by_cases hk : i + 2 ^ e < size
    · simp only [hk, true_and, if_true]
      by_cases hup : (i / m) % 2 = 0
      · simp only [hup, decide_True, if_true]
        by_cases hgt : data.getD i 0 > data.getD (i + 2 ^ e) 0
        · simp only [hgt, decide_True, if_true]
          rw [getD_swap _ _ _ _ (by omega) (by omega)]
          rw [min_eq_right (le_of_lt hgt), max_eq_left (le_of_lt hgt)]
          split_ifs <;> first | rfl | omega
        · have hle : data.getD i 0 ≤ data.getD (i + 2 ^ e) 0 := not_lt.1 hgt
          simp only [hgt, decide_False, decide_True, if_false]
          rw [min_eq_left hle, max_eq_right hle]
          split_ifs <;> simp_all
      · simp only [hup, decide_False, if_false]
        by_cases hgt : data.getD i 0 > data.getD (i + 2 ^ e) 0
        · simp only [hgt, decide_True, if_false]
          rw [min_eq_right (le_of_lt hgt), max_eq_left (le_of_lt hgt)]
          split_ifs <;> simp_all
        · have hle : data.getD i 0 ≤ data.getD (i + 2 ^ e) 0 := not_lt.1 hgt
          simp only [hgt, decide_False, if_true]
          rw [getD_swap _ _ _ _ (by omega) (by omega)]
          rw [min_eq_left hle, max_eq_right hle]
          split_ifs <;> first | rfl | omega
    · simp [hk]
  · simp [hb]

theorem two_pow_div_facts (e : Nat) :
    (∀ x, (x + 2 ^ e) / 2 ^ e = x / 2 ^ e + 1) ∧
    (∀ x, (x / 2 ^ e) % 2 = 1 → 2 ^ e ≤ x ∧ (x - 2 ^ e) / 2 ^ e + 1 = x / 2 ^ e) := by
  have hp : 0 < 2 ^ e := Nat.two_pow_pos e
  refine ⟨fun x => Nat.add_div_right x hp, fun x hx => ?_⟩
  have hle : 2 ^ e ≤ x := by
    by_contra hlt
    rw [Nat.div_eq_of_lt (by omega)] at hx
    simp at hx
  refine ⟨hle, ?_⟩
  have := Nat.add_div_right (x - 2 ^ e) hp
  rw [Nat.sub_add_cancel hle] at this
  omega

/-- State of the array after the indices `0 .. n - 1` of a round have been processed:
the pairs whose lower index is below `n` hold their final values, all other positions
are untouched. -/
theorem foldl_compare_swap_range (size m e : Nat) (data : List Int) (hlen : data.length = size) :
    ∀ n, n ≤ size →
      ((List.range n).foldl (compare_swap size m (2 ^ e)) data).length = size ∧
      ∀ x, x < size →
        ((List.range n).foldl (compare_swap size m (2 ^ e)) data).getD x 0 =
          if (if (x / 2 ^ e) % 2 = 0 then x else x - 2 ^ e) < n then
            round_values size m (2 ^ e) (fun i => data.getD i 0) x
          else data.getD x 0 := by
  have hp : 0 < 2 ^ e := Nat.two_pow_pos e
  obtain ⟨hd1, hd2⟩ := two_pow_div_facts e
  intro n
  induction n with
  | zero => intro _; simp [hlen]
  | succ n ih =>
    intro hn
    obtain ⟨ihlen, ihval⟩ := ih (by omega)
    rw [List.range_succ, List.foldl_append]
    simp only [List.foldl_cons, List.foldl_nil]
    refine ⟨by rw [length_compare_swap, ihlen], fun x hx => ?_⟩
    rw [getD_compare_swap size m e _ n x ihlen (by omega)]
    have hmod : ∀ y, (y / 2 ^ e) % 2 = 0 ∨ (y / 2 ^ e) % 2 = 1 := fun y =>
      Nat.mod_two_eq_zero_or_one _
    by_cases hA : (n / 2 ^ e) % 2 = 0 ∧ n + 2 ^ e < size
    · obtain ⟨hA1, hA2⟩ := hA
      have hnd : ¬ (((n + 2 ^ e) / 2 ^ e) % 2 = 0) := by rw [hd1]; omega
      have hsub : n + 2 ^ e - 2 ^ e = n := by omega
      have hLn : ((List.range n).foldl (compare_swap size m (2 ^ e)) data).getD n 0
          = data.getD n 0 := by
        rw [ihval n (by omega)]; simp [hA1]
      have hLnd : ((List.range n).foldl (compare_swap size m (2 ^ e)) data).getD (n + 2 ^ e) 0
          = data.getD (n + 2 ^ e) 0 := by
        rw [ihval _ hA2, if_neg hnd, hsub, if_neg (lt_irrefl n)]
      simp only [hA1, hA2, and_self, if_true, hLn, hLnd]
      by_cases hx1 : x = n
      · subst hx1
        simp [round_values, hA1, hA2]
      · by_cases hx2 : x = n + 2 ^ e
        · subst hx2
          simp only [round_values, if_neg hnd, hsub, Nat.lt_add_one, if_true, if_neg hx1]
        · simp only [hx1, hx2, if_false]
          rw [ihval x hx]
          have hne : (if (x / 2 ^ e) % 2 = 0 then x else x - 2 ^ e) ≠ n := by
            rcases hmod x with h | h
            · simp [h, hx1]
            · have := hd2 x h
              simp only [h]; simp; omega
          by_cases hlt : (if (x / 2 ^ e) % 2 = 0 then x else x - 2 ^ e) < n
          · rw [if_pos hlt, if_pos (by omega)]
          · rw [if_neg hlt, if_neg (by omega)]
    · rw [if_neg hA, ihval x hx]
      by_cases hlt : (if (x / 2 ^ e) % 2 = 0 then x else x - 2 ^ e) < n
      · rw [if_pos hlt, if_pos (by omega)]
      · rw [if_neg hlt]
        by_cases heq : (if (x / 2 ^ e) % 2 = 0 then x else x - 2 ^ e) = n
        · rw [if_pos (by omega)]
          rcases hmod x with h | h
          · simp only [h, if_true] at heq
            subst heq
            have : ¬ (x + 2 ^ e < size) := fun h' => hA ⟨h, h'⟩
            simp [round_values, h, this]
          · exfalso
            have := hd2 x h
            simp only [h] at heq
            simp at heq
            apply hA
            have hxn : x = n + 2 ^ e := by omega
            subst hxn
            rw [hd1] at h
            exact ⟨by omega, hx⟩
        · rw [if_neg (by omega)]

/-! ## The partition does not change a round -/

theorem foldl_range_append {β : Type} (f : β → Nat → β) (b : β) (s n : Nat) :
    (List.range' s n).foldl f ((List.range s).foldl f b) = (List.range (s + n)).foldl f b := by
  rw [← List.foldl_append, List.range_eq_range', List.range_eq_range']
  have := List.range'_append 0 s n 1
  simp only [Nat.zero_add, Nat.one_mul] at this
  rw [this, Nat.add_comm]

/-- The threads before the last one process, together, the indices below
`n * (size / thread_count)`. -/
theorem foldl_worker_round_prefix (size tc m j : Nat) (data : List Int) :
    ∀ n, n ≤ tc - 1 →
      ((List.range n).map (thread_range size tc)).foldl (worker_round size m j) data
        = (List.range (n * (size / tc))).foldl (compare_swap size m j) data := by
  intro n
  induction n with
  | zero => intro _; simp
  | succ n ih =>
    intro hn
    rw [List.range_succ, List.map_append, List.foldl_append, ih (by omega)]
    simp only [List.map_cons, List.map_nil, List.foldl_cons, List.foldl_nil]
    have hne : n ≠ tc - 1 := by omega
    simp only [worker_round, thread_range, if_neg hne, Nat.add_sub_cancel_left]
    rw [foldl_range_append]
    congr 2
    ring

/-- With at least one thread, a round processes every index `0 .. size - 1` once, in
increasing order. -/
theorem round_eq_foldl_range (size tc m j : Nat) (data : List Int) (htc : 0 < tc) :
    round size tc m j data = (List.range size).foldl (compare_swap size m j) data := by
  obtain ⟨t, rfl⟩ : ∃ t, tc = t + 1 := ⟨tc - 1, by omega⟩
  unfold round thread_ranges
  rw [List.range_succ, List.map_append, List.foldl_append,
    foldl_worker_round_prefix size (t + 1) m j data t (by omega)]
  simp only [List.map_cons, List.map_nil, List.foldl_cons, List.foldl_nil]
  simp only [worker_round, thread_range, Nat.add_sub_cancel, if_true]
  rw [foldl_range_append]
  congr 2
  have : t * (size / (t + 1)) ≤ size := by
    calc t * (size / (t + 1)) ≤ (t + 1) * (size / (t + 1)) := Nat.mul_le_mul_right _ (by omega)
      _ ≤ size := Nat.mul_div_le size (t + 1)
  omega

/-! ## Half-cleaner on threshold sets -/

theorem cyclicInterval_congr {P Q : Nat → Prop} {s n : Nat}
    (h : ∀ i, s ≤ i → i < s + n → (P i ↔ Q i)) (hP : CyclicInterval P s n) :
    CyclicInterval Q s n := by
  obtain ⟨p, q, hpq | hpq⟩ := hP
  · exact ⟨p, q, Or.inl fun i h1 h2 => (h i h1 h2).symm.trans (hpq i h1 h2)⟩
  · exact ⟨p, q, Or.inr fun i h1 h2 => (h i h1 h2).symm.trans (hpq i h1 h2)⟩

theorem cyclicInterval_not {P : Nat → Prop} {s n : Nat} (hP : CyclicInterval P s n) :
    CyclicInterval (fun i => ¬ P i) s n := by
  obtain ⟨p, q, hpq | hpq⟩ := hP
  · exact ⟨p, q, Or.inr fun i h1 h2 => not_congr (hpq i h1 h2)⟩
  · refine ⟨p, q, Or.inl fun i h1 h2 => ?_⟩
    beta_reduce
    rw [hpq i h1 h2, Classical.not_not]

/-- The bounds of the interval can be taken inside the window. -/
theorem cyclicInterval_clip {P : Nat → Prop} {s n : Nat} (hP : CyclicInterval P s n) :
    ∃ p q : Nat, s ≤ p ∧ p ≤ q ∧ q ≤ s + n ∧
      ((∀ i, s ≤ i → i < s + n → (P i ↔ (p ≤ i ∧ i < q))) ∨
        (∀ i, s ≤ i → i < s + n → (P i ↔ ¬ (p ≤ i ∧ i < q)))) := by
  obtain ⟨p, q, hpq⟩ := hP
  refine ⟨min (max p s) (s + n), max (min (max p s) (s + n)) (min q (s + n)),
    by omega, by omega, by omega, ?_⟩
  rcases hpq with hpq | hpq
  · left; intro i h1 h2; rw [hpq i h1 h2]; omega
  · right; intro i h1 h2; rw [hpq i h1 h2]; omega

/-- Half-cleaner, lower half: the indices where `P` holds at both ends of a pair. -/
theorem cyclicInterval_both_low {P : Nat → Prop} {s d : Nat}
    (hP : CyclicInterval P s (2 * d)) : CyclicInterval (fun i => P i ∧ P (i + d)) s d := by
  obtain ⟨p, q, hsp, hpq, hq, h | h⟩ := cyclicInterval_clip hP
  · refine ⟨p, q - d, Or.inl fun i h1 h2 => ?_⟩
    beta_reduce
    rw [h i h1 (by omega), h (i + d) (by omega) (by omega)]; omega
  · by_cases c1 : p + d ≤ q
    · refine ⟨p - d, q, Or.inr fun i h1 h2 => ?_⟩
      beta_reduce
      rw [h i h1 (by omega), h (i + d) (by omega) (by omega)]; omega
    · by_cases c2 : s + d ≤ p
      · refine ⟨p - d, q - d, Or.inr fun i h1 h2 => ?_⟩
        beta_reduce
        rw [h i h1 (by omega), h (i + d) (by omega) (by omega)]; omega
      · by_cases c3 : q ≤ s + d
        · refine ⟨p, q, Or.inr fun i h1 h2 => ?_⟩
          beta_reduce
          rw [h i h1 (by omega), h (i + d) (by omega) (by omega)]; omega
        · refine ⟨q - d, p, Or.inl fun i h1 h2 => ?_⟩
          beta_reduce
          rw [h i h1 (by omega), h (i + d) (by omega) (by omega)]; omega

/-- Half-cleaner, upper half: the indices where `P` holds at one end of a pair. -/
theorem cyclicInterval_either_high {P : Nat → Prop} {s d : Nat}
    (hP : CyclicInterval P s (2 * d)) :
    CyclicInterval (fun j => P (j - d) ∨ P j) (s + d) d := by
  obtain ⟨p, q, hsp, hpq, hq, h | h⟩ := cyclicInterval_clip hP
  · by_cases c1 : p + d ≤ q
    · refine ⟨p, q + d, Or.inl fun j h1 h2 => ?_⟩
      beta_reduce
      rw [h j (by omega) (by omega), h (j - d) (by omega) (by omega)]; omega
    · by_cases c2 : q ≤ s + d
      · refine ⟨p + d, q + d, Or.inl fun j h1 h2 => ?_⟩
        beta_reduce
        rw [h j (by omega) (by omega), h (j - d) (by omega) (by omega)]; omega
      · by_cases c3 : s + d ≤ p
        · refine ⟨p, q, Or.inl fun j h1 h2 => ?_⟩
          beta_reduce
          rw [h j (by omega) (by omega), h (j - d) (by omega) (by omega)]; omega
        · refine ⟨q, p + d, Or.inr fun j h1 h2 => ?_⟩
          beta_reduce
          rw [h j (by omega) (by omega), h (j - d) (by omega) (by omega)]; omega
  · refine ⟨p + d, q, Or.inr fun j h1 h2 => ?_⟩
    beta_reduce
    rw [h j (by omega) (by omega), h (j - d) (by omega) (by omega)]; omega

/-- Half-cleaner, order: when `P` holds at both ends of one pair, it holds at an end of
every pair. -/
theorem cyclicInterval_both_imp_either {P : Nat → Prop} {s d : Nat}
    (hP : CyclicInterval P s (2 * d)) (i j : Nat) (hi1 : s ≤ i) (hi2 : i < s + d)
    (hj1 : s + d ≤ j) (hj2 : j < s + 2 * d) (hb : P i ∧ P (i + d)) : P (j - d) ∨ P j := by
  obtain ⟨p, q, hsp, hpq, hq, h | h⟩ := cyclicInterval_clip hP
  · rw [h i hi1 (by omega), h (i + d) (by omega) (by omega)] at hb
    rw [h j (by omega) (by omega), h (j - d) (by omega) (by omega)]; omega
  · rw [h i hi1 (by omega), h (i + d) (by omega) (by omega)] at hb
    rw [h j (by omega) (by omega), h (j - d) (by omega) (by omega)]; omega


theorem cyclicInterval_either_low {P : Nat → Prop} {s d : Nat}
    (hP : CyclicInterval P s (2 * d)) : CyclicInterval (fun i => P i ∨ P (i + d)) s d := by
  refine cyclicInterval_congr ?_ (cyclicInterval_not (cyclicInterval_both_low (cyclicInterval_not hP)))
  intro i _ _
  beta_reduce
  rw [not_and_or, Classical.not_not, Classical.not_not]

theorem cyclicInterval_both_high {P : Nat → Prop} {s d : Nat}
    (hP : CyclicInterval P s (2 * d)) :
    CyclicInterval (fun j => P (j - d) ∧ P j) (s + d) d := by
  refine cyclicInterval_congr ?_
    (cyclicInterval_not (cyclicInterval_either_high (cyclicInterval_not hP)))
  intro i _ _
  beta_reduce
  rw [not_or, Classical.not_not, Classical.not_not]

theorem cyclicInterval_both_high_imp_either_low {P : Nat → Prop} {s d : Nat}
    (hP : CyclicInterval P s (2 * d)) (i j : Nat) (hi1 : s ≤ i) (hi2 : i < s + d)
    (hj1 : s + d ≤ j) (hj2 : j < s + 2 * d) (hb : P (j - d) ∧ P j) : P i ∨ P (i + d) := by
  by_contra hcon
  rw [not_or] at hcon
  rcases cyclicInterval_both_imp_either (cyclicInterval_not hP) i j hi1 hi2 hj1 hj2 hcon with h | h
  · exact h hb.1
  · exact h hb.2

theorem div_two_pow_succ (e i : Nat) : i / 2 ^ (e + 1) = i / 2 ^ e / 2 := by
  rw [pow_succ, Nat.div_div_eq_div_mul]

theorem same_block_of_same_half (e f : Nat) (hef : e < f) (i j : Nat)
    (h : i / 2 ^ e / 2 = j / 2 ^ e / 2) : i / 2 ^ f = j / 2 ^ f := by
  have hm : 2 ^ f = 2 ^ (e + 1) * 2 ^ (f - (e + 1)) := by
    rw [← pow_add]; congr 1; omega
  rw [← div_two_pow_succ, ← div_two_pow_succ] at h
  rw [hm, ← Nat.div_div_eq_div_mul, ← Nat.div_div_eq_div_mul, h]

theorem lt_block_end (m i : Nat) (hm : 0 < m) : i < (i / m + 1) * m := by
  have := Nat.lt_mul_div_succ i hm
  rwa [Nat.mul_comm] at this

theorem div_eq_of_mem_block (d c j : Nat) (h1 : c * d ≤ j) (h2 : j < c * d + d) :
    j / d = c := by
  apply Nat.div_eq_of_lt_le h1
  rw [Nat.succ_mul]; exact h2

theorem block_bounds (d i : Nat) (hd : 0 < d) : i / d * d ≤ i ∧ i < i / d * d + d :=
  ⟨Nat.div_mul_le_self i d, Nat.lt_div_mul_add hd⟩

theorem round_values_low (size m d : Nat) (a : Nat → Int) (j : Nat)
    (h1 : (j / d) % 2 = 0) (h2 : j + d < size) :
    round_values size m d a j =
      if (j / m) % 2 = 0 then min (a j) (a (j + d)) else max (a j) (a (j + d)) := by
  simp only [round_values, h1, h2, if_true]

theorem round_values_high (size m d : Nat) (a : Nat → Int) (j : Nat)
    (h1 : ¬ ((j / d) % 2 = 0)) :
    round_values size m d a j =
      if ((j - d) / m) % 2 = 0 then max (a (j - d)) (a j) else min (a (j - d)) (a j) := by
  simp only [round_values, h1, if_false]

/-! ## One round of a merge -/

/-- A round turns bitonic blocks of `2 * d` indices into bitonic blocks of `d` indices. -/
theorem round_values_bitonic (size e f : Nat) (hef : e < f) (a : Nat → Int)
    (h1 : ∀ i, (i / 2 ^ f + 1) * 2 ^ f ≤ size →
      Bitonic a (i / 2 ^ (e + 1) * 2 ^ (e + 1)) (2 ^ (e + 1))) :
    ∀ i, (i / 2 ^ f + 1) * 2 ^ f ≤ size →
      Bitonic (round_values size (2 ^ f) (2 ^ e) a) (i / 2 ^ e * 2 ^ e) (2 ^ e) := by
  intro i hi t
  have hd : 0 < 2 ^ e := Nat.two_pow_pos e
  have hm : 0 < 2 ^ f := Nat.two_pow_pos f
  obtain ⟨hd1, hd2⟩ := two_pow_div_facts e
  have hB := h1 i hi t
  have h2d : 2 ^ (e + 1) = 2 * 2 ^ e := by rw [pow_succ, Nat.mul_comm]
  rw [div_two_pow_succ, h2d] at hB
  -- every index of the same block of `2 * d` indices lies in the array
  have hin : ∀ j, j / 2 ^ e / 2 = i / 2 ^ e / 2 → j < size ∧ j / 2 ^ f = i / 2 ^ f := by
    intro j hj
    have hjm := same_block_of_same_half e f hef j i hj
    have := lt_block_end (2 ^ f) j hm
    rw [hjm] at this
    exact ⟨by omega, hjm⟩
  by_cases hpar : (i / 2 ^ e) % 2 = 0
  · have hstart : i / 2 ^ e / 2 * (2 * 2 ^ e) = i / 2 ^ e * 2 ^ e := by
      have hc : i / 2 ^ e = 2 * (i / 2 ^ e / 2) := by omega
      conv_rhs => rw [hc]
      ring
    rw [hstart] at hB
    have key : ∀ j, i / 2 ^ e * 2 ^ e ≤ j → j < i / 2 ^ e * 2 ^ e + 2 ^ e →
        round_values size (2 ^ f) (2 ^ e) a j =
          if (i / 2 ^ f) % 2 = 0 then min (a j) (a (j + 2 ^ e)) else max (a j) (a (j + 2 ^ e)) := by
      intro j hj1 hj2
      have hjd := div_eq_of_mem_block _ _ _ hj1 hj2
      have hj' := hin (j + 2 ^ e) (by rw [hd1, hjd]; omega)
      have hj'' := hin j (by rw [hjd])
      rw [round_values_low size _ _ a j (by rw [hjd]; exact hpar) hj'.1, hj''.2]
    by_cases hup : (i / 2 ^ f) % 2 = 0
    · refine cyclicInterval_congr ?_ (cyclicInterval_both_low hB)
      intro j hj1 hj2
      beta_reduce
      rw [key j hj1 hj2, if_pos hup, lt_min_iff]
    · refine cyclicInterval_congr ?_ (cyclicInterval_either_low hB)
      intro j hj1 hj2
      beta_reduce
      rw [key j hj1 hj2, if_neg hup, lt_max_iff]
  · have hstart : i / 2 ^ e / 2 * (2 * 2 ^ e) + 2 ^ e = i / 2 ^ e * 2 ^ e := by
      have hc : i / 2 ^ e = 2 * (i / 2 ^ e / 2) + 1 := by omega
      conv_rhs => rw [hc]
      ring
    have key : ∀ j, i / 2 ^ e * 2 ^ e ≤ j → j < i / 2 ^ e * 2 ^ e + 2 ^ e →
        round_values size (2 ^ f) (2 ^ e) a j =
          if (i / 2 ^ f) % 2 = 0 then max (a (j - 2 ^ e)) (a j) else min (a (j - 2 ^ e)) (a j) := by
      intro j hj1 hj2
      have hjd := div_eq_of_mem_block _ _ _ hj1 hj2
      have hodd : (j / 2 ^ e) % 2 = 1 := by rw [hjd]; omega
      have hsub := hd2 j hodd
      have hj' := hin (j - 2 ^ e) (by omega)
      rw [round_values_high size _ _ a j (by omega), hj'.2]
    rw [← hstart]
    by_cases hup : (i / 2 ^ f) % 2 = 0
    · refine cyclicInterval_congr ?_ (cyclicInterval_either_high hB)
      intro j hj1 hj2
      beta_reduce
      rw [key j (by omega) (by omega), if_pos hup, lt_max_iff]
    · refine cyclicInterval_congr ?_ (cyclicInterval_both_high hB)
      intro j hj1 hj2
      beta_reduce
      rw [key j (by omega) (by omega), if_neg hup, lt_min_iff]

/-- In a block that lies inside the array, a round leaves at every index the minimum or
the maximum of the values of its pair, and both indices of a pair lie in the same block
of `2 * d` indices. -/
theorem round_values_pair (size e f : Nat) (hef : e < f) (a : Nat → Int) (z : Nat)
    (hz : (z / 2 ^ f + 1) * 2 ^ f ≤ size) :
    ∃ pz, pz / 2 ^ e / 2 = z / 2 ^ e / 2 ∧ pz / 2 ^ f = z / 2 ^ f ∧
      (round_values size (2 ^ f) (2 ^ e) a z = min (a z) (a pz) ∨
        round_values size (2 ^ f) (2 ^ e) a z = max (a z) (a pz)) := by
  have hm : 0 < 2 ^ f := Nat.two_pow_pos f
  obtain ⟨hd1, hd2⟩ := two_pow_div_facts e
  by_cases hpar : (z / 2 ^ e) % 2 = 0
  · have hh : (z + 2 ^ e) / 2 ^ e / 2 = z / 2 ^ e / 2 := by rw [hd1]; omega
    have hzm := same_block_of_same_half e f hef _ _ hh
    have hlt := lt_block_end (2 ^ f) (z + 2 ^ e) hm
    rw [hzm] at hlt
    refine ⟨z + 2 ^ e, hh, hzm, ?_⟩
    rw [round_values_low size _ _ a z hpar (by omega)]
    split_ifs
    · exact Or.inl rfl
    · exact Or.inr rfl
  · have hodd : (z / 2 ^ e) % 2 = 1 := by omega
    have hsub := hd2 z hodd
    have hh : (z - 2 ^ e) / 2 ^ e / 2 = z / 2 ^ e / 2 := by omega
    have hzm := same_block_of_same_half e f hef _ _ hh
    refine ⟨z - 2 ^ e, hh, hzm, ?_⟩
    rw [round_values_high size _ _ a z hpar]
    split_ifs
    · exact Or.inr (max_comm _ _)
    · exact Or.inl (min_comm _ _)

/-- A round keeps the blocks of `2 * d` indices of a block in order, and puts the two
halves of each in order. -/
theorem round_values_order (size e f : Nat) (hef : e < f) (a : Nat → Int)
    (hinv : BlockInv size (2 ^ f) (2 ^ (e + 1)) a) :
    ∀ x y, x / 2 ^ f = y / 2 ^ f → (x / 2 ^ f + 1) * 2 ^ f ≤ size → x / 2 ^ e < y / 2 ^ e →
      if (x / 2 ^ f) % 2 = 0 then
        round_values size (2 ^ f) (2 ^ e) a x ≤ round_values size (2 ^ f) (2 ^ e) a y
      else round_values size (2 ^ f) (2 ^ e) a y ≤ round_values size (2 ^ f) (2 ^ e) a x := by
  intro x y hxy hc hlt
  have hd : 0 < 2 ^ e := Nat.two_pow_pos e
  have hm : 0 < 2 ^ f := Nat.two_pow_pos f
  obtain ⟨hd1, hd2⟩ := two_pow_div_facts e
  have h2d : 2 ^ (e + 1) = 2 * 2 ^ e := by rw [pow_succ, Nat.mul_comm]
  by_cases hh : x / 2 ^ e / 2 < y / 2 ^ e / 2
  · obtain ⟨px, hpx1, hpx2, hpx⟩ := round_values_pair size e f hef a x hc
    obtain ⟨py, hpy1, hpy2, hpy⟩ := round_values_pair size e f hef a y (by rw [← hxy]; exact hc)
    have old : ∀ u v, u / 2 ^ e / 2 = x / 2 ^ e / 2 → u / 2 ^ f = x / 2 ^ f →
        v / 2 ^ e / 2 = y / 2 ^ e / 2 → v / 2 ^ f = y / 2 ^ f →
        if (x / 2 ^ f) % 2 = 0 then a u ≤ a v else a v ≤ a u := by
      intro u v hu1 hu2 hv1 hv2
      have := hinv.2 u v (by rw [hu2, hv2, hxy]) (by rw [hu2]; exact hc)
        (by rw [div_two_pow_succ, div_two_pow_succ, hu1, hv1]; exact hh)
      rwa [hu2] at this
    have o1 := old x y rfl rfl rfl rfl
    have o2 := old x py rfl rfl hpy1 hpy2
    have o3 := old px y hpx1 hpx2 rfl rfl
    have o4 := old px py hpx1 hpx2 hpy1 hpy2
    by_cases hup : (x / 2 ^ f) % 2 = 0
    · simp only [hup, if_true] at o1 o2 o3 o4 ⊢
      rcases hpx with hpx | hpx <;> rcases hpy with hpy | hpy <;> rw [hpx, hpy] <;>
        simp only [le_min_iff, min_le_iff, le_max_iff, max_le_iff] <;> tauto
    · simp only [hup, if_false] at o1 o2 o3 o4 ⊢
      rcases hpx with hpx | hpx <;> rcases hpy with hpy | hpy <;> rw [hpx, hpy] <;>
        simp only [le_min_iff, min_le_iff, le_max_iff, max_le_iff] <;> tauto
  · have hxe : (x / 2 ^ e) % 2 = 0 := by omega
    have hye : y / 2 ^ e = x / 2 ^ e + 1 := by omega
    have hB := hinv.1 x hc
    have hstart : x / 2 ^ e / 2 * (2 * 2 ^ e) = x / 2 ^ e * 2 ^ e := by
      have hcx : x / 2 ^ e = 2 * (x / 2 ^ e / 2) := by omega
      conv_rhs => rw [hcx]
      ring
    rw [div_two_pow_succ, h2d, hstart] at hB
    obtain ⟨hx1, hx2⟩ := block_bounds (2 ^ e) x hd
    obtain ⟨hy1, hy2⟩ := block_bounds (2 ^ e) y hd
    have hyb : y / 2 ^ e * 2 ^ e = x / 2 ^ e * 2 ^ e + 2 ^ e := by rw [hye]; ring
    rw [hyb] at hy1 hy2
    have hysub := hd2 y (by omega)
    have hxd : (x + 2 ^ e) / 2 ^ e / 2 = x / 2 ^ e / 2 := by rw [hd1]; omega
    have hxdm := same_block_of_same_half e f hef _ _ hxd
    have hxlt := lt_block_end (2 ^ f) (x + 2 ^ e) hm
    rw [hxdm] at hxlt
    have hyd : (y - 2 ^ e) / 2 ^ e / 2 = x / 2 ^ e / 2 := by omega
    have hydm := same_block_of_same_half e f hef _ _ hyd
    rw [round_values_low size _ _ a x hxe (by omega),
      round_values_high size _ _ a y (by omega), hydm]
    by_cases hup : (x / 2 ^ f) % 2 = 0
    · simp only [hup, if_true]
      apply le_of_forall_lt
      intro t ht
      rw [lt_min_iff] at ht
      rw [lt_max_iff]
      exact cyclicInterval_both_imp_either (hB t) x y hx1 hx2 (by omega) (by omega) ht
    · simp only [hup, if_false]
      apply le_of_forall_lt
      intro t ht
      rw [lt_min_iff] at ht
      rw [lt_max_iff]
      exact cyclicInterval_both_high_imp_either_low (hB t) x y hx1 hx2 (by omega) (by omega) ht

/-! ## From one stage to the next -/

theorem same_block_of_le (g f : Nat) (hgf : g ≤ f) (i j : Nat)
    (h : i / 2 ^ g = j / 2 ^ g) : i / 2 ^ f = j / 2 ^ f := by
  have hm : 2 ^ f = 2 ^ g * 2 ^ (f - g) := by
    rw [← pow_add]; congr 1; omega
  rw [hm, ← Nat.div_div_eq_div_mul, ← Nat.div_div_eq_div_mul, h]

/-- A predicate that is closed upwards on a window holds exactly from some index on. -/
theorem exists_up_threshold (P : Nat → Prop) (s : Nat) : ∀ n,
    (∀ x y, s ≤ x → x < y → y < s + n → P x → P y) →
    ∃ p, s ≤ p ∧ p ≤ s + n ∧ ∀ j, s ≤ j → j < s + n → (P j ↔ p ≤ j) := by
  intro n
  induction n with
  | zero => intro _; exact ⟨s, le_refl _, le_refl _, fun j h1 h2 => by omega⟩
  | succ n ih =>
    intro h
    obtain ⟨p, hp1, hp2, hp⟩ := ih fun x y hx hxy hy => h x y hx hxy (by omega)
    by_cases hlt : p < s + n
    · refine ⟨p, hp1, by omega, fun j hj1 hj2 => ?_⟩
      by_cases hj : j < s + n
      · exact hp j hj1 hj
      · have hje : j = s + n := by omega
        have hPp : P p := (hp p hp1 hlt).2 (le_refl _)
        exact ⟨fun _ => by omega, fun _ => h p j hp1 (by omega) hj2 hPp⟩
    · have hpe : p = s + n := by omega
      by_cases hP : P (s + n)
      · refine ⟨s + n, by omega, by omega, fun j hj1 hj2 => ?_⟩
        by_cases hj : j < s + n
        · rw [hp j hj1 hj]; omega
        · have hje : j = s + n := by omega
          rw [hje]; exact ⟨fun _ => le_refl _, fun _ => hP⟩
      · refine ⟨s + n + 1, by omega, by omega, fun j hj1 hj2 => ?_⟩
        by_cases hj : j < s + n
        · rw [hp j hj1 hj]; omega
        · have hje : j = s + n := by omega
          rw [hje]; exact ⟨fun h' => absurd h' hP, fun h' => by omega⟩

/-- A predicate that is closed downwards on a window holds exactly up to some index. -/
theorem exists_down_threshold (P : Nat → Prop) (s : Nat) : ∀ n,
    (∀ x y, s ≤ x → x < y → y < s + n → P y → P x) →
    ∃ q, s ≤ q ∧ q ≤ s + n ∧ ∀ j, s ≤ j → j < s + n → (P j ↔ j < q) := by
  intro n
  induction n with
  | zero => intro _; exact ⟨s, le_refl _, le_refl _, fun j h1 h2 => by omega⟩
  | succ n ih =>
    intro h
    obtain ⟨q, hq1, hq2, hq⟩ := ih fun x y hx hxy hy => h x y hx hxy (by omega)
    by_cases hP : P (s + n)
    · refine ⟨s + n + 1, by omega, by omega, fun j hj1 hj2 => ?_⟩
      by_cases hj : j < s + n
      · exact ⟨fun _ => by omega, fun _ => h j (s + n) hj1 hj (by omega) hP⟩
      · have hje : j = s + n := by omega
        rw [hje]; exact ⟨fun _ => by omega, fun _ => hP⟩
    · refine ⟨q, hq1, by omega, fun j hj1 hj2 => ?_⟩
      by_cases hj : j < s + n
      · exact hq j hj1 hj
      · have hje : j = s + n := by omega
        rw [hje]; exact ⟨fun h' => absurd h' hP, fun h' => by omega⟩

/-- After the stage of blocks of `m` indices, the blocks of `2 * m` indices are bitonic:
the state in which the next stage starts. -/
theorem blockInv_of_blockSorted (size f : Nat) (a : Nat → Int)
    (h : BlockSorted size (2 ^ f) a) : BlockInv size (2 ^ (f + 1)) (2 ^ (f + 1)) a := by
  have hm : 0 < 2 ^ f := Nat.two_pow_pos f
  have h2m : 2 ^ (f + 1) = 2 * 2 ^ f := by rw [pow_succ, Nat.mul_comm]
  refine ⟨fun i hi t => ?_, fun x y hxy _ hlt => by omega⟩
  rw [h2m] at hi ⊢
  have hS : i / (2 * 2 ^ f) * (2 * 2 ^ f) = 2 * (i / (2 * 2 ^ f)) * 2 ^ f := by ring
  have hE : (i / (2 * 2 ^ f) + 1) * (2 * 2 ^ f)
      = 2 * (i / (2 * 2 ^ f)) * 2 ^ f + 2 ^ f + 2 ^ f := by ring
  have hS1 : (2 * (i / (2 * 2 ^ f)) + 1) * 2 ^ f = 2 * (i / (2 * 2 ^ f)) * 2 ^ f + 2 ^ f := by
    ring
  have hS2 : (2 * (i / (2 * 2 ^ f)) + 1 + 1) * 2 ^ f
      = 2 * (i / (2 * 2 ^ f)) * 2 ^ f + 2 ^ f + 2 ^ f := by ring
  rw [hS]
  rw [hE] at hi
  generalize i / (2 * 2 ^ f) = B at *
  -- the lower half is non-decreasing, the upper half non-increasing
  obtain ⟨p, hp1, hp2, hp⟩ := exists_up_threshold (fun j => t < a j) (2 * B * 2 ^ f) (2 ^ f)
    (by
      intro x y hx hxy hy hPx
      have hxb := div_eq_of_mem_block (2 ^ f) (2 * B) x hx (by omega)
      have hyb := div_eq_of_mem_block (2 ^ f) (2 * B) y (by omega) hy
      have := h x y (by rw [hxb, hyb]) (by rw [hxb]; omega) hxy
      rw [hxb, if_pos (by omega)] at this
      exact lt_of_lt_of_le hPx this)
  obtain ⟨q, hq1, hq2, hq⟩ :=
    exists_down_threshold (fun j => t < a j) (2 * B * 2 ^ f + 2 ^ f) (2 ^ f)
    (by
      intro x y hx hxy hy hPy
      have hxb := div_eq_of_mem_block (2 ^ f) (2 * B + 1) x (by omega) (by omega)
      have hyb := div_eq_of_mem_block (2 ^ f) (2 * B + 1) y (by omega) (by omega)
      have := h x y (by rw [hxb, hyb]) (by rw [hxb]; omega) hxy
      rw [hxb, if_neg (by omega)] at this
      exact lt_of_lt_of_le hPy this)
  refine ⟨p, q, Or.inl fun j hj1 hj2 => ?_⟩
  by_cases hj : j < 2 * B * 2 ^ f + 2 ^ f
  · have := hp j hj1 hj
    beta_reduce at this ⊢
    rw [this]; omega
  · have := hq j (by omega) (by omega)
    beta_reduce at this ⊢
    rw [this]; omega

/-- When sub-blocks of one index remain, the blocks are sorted. -/
theorem blockSorted_of_blockInv (size m : Nat) (a : Nat → Int) (h : BlockInv size m 1 a) :
    BlockSorted size m a := by
  intro x y hxy hc hlt
  exact h.2 x y hxy hc (by simpa using hlt)

theorem blockSorted_one (size : Nat) (a : Nat → Int) : BlockSorted size 1 a := by
  intro x y hxy _ hlt
  simp at hxy
  omega

/-- The block predicates only look at positions inside the array. -/
theorem blockInv_congr (size g f : Nat) (hgf : g ≤ f) (a b : Nat → Int)
    (hab : ∀ x, x < size → a x = b x) (h : BlockInv size (2 ^ f) (2 ^ g) a) :
    BlockInv size (2 ^ f) (2 ^ g) b := by
  have hm : 0 < 2 ^ f := Nat.two_pow_pos f
  have hin : ∀ x, (x / 2 ^ f + 1) * 2 ^ f ≤ size → x < size := fun x hx =>
    lt_of_lt_of_le (lt_block_end (2 ^ f) x hm) hx
  refine ⟨fun i hi t => ?_, fun x y hxy hc hlt => ?_⟩
  · refine cyclicInterval_congr ?_ (h.1 i hi t)
    intro j hj1 hj2
    have hjb := div_eq_of_mem_block (2 ^ g) (i / 2 ^ g) j hj1 hj2
    have hjm := same_block_of_le g f hgf j i hjb
    rw [hab j (hin j (by rw [hjm]; exact hi))]
  · have := h.2 x y hxy hc hlt
    rwa [hab x (hin x hc), hab y (hin y (by rw [← hxy]; exact hc))] at this

theorem blockSorted_congr (size m : Nat) (hm : 0 < m) (a b : Nat → Int)
    (hab : ∀ x, x < size → a x = b x) (h : BlockSorted size m a) : BlockSorted size m b := by
  have hin : ∀ x, (x / m + 1) * m ≤ size → x < size := fun x hx =>
    lt_of_lt_of_le (lt_block_end m x hm) hx
  intro x y hxy hc hlt
  have := h x y hxy hc hlt
  rwa [hab x (hin x hc), hab y (hin y (by rw [← hxy]; exact hc))] at this

/-- One round of the merge, on the block predicate. -/
theorem blockInv_round_values (size e f : Nat) (hef : e < f) (a : Nat → Int)
    (h : BlockInv size (2 ^ f) (2 ^ (e + 1)) a) :
    BlockInv size (2 ^ f) (2 ^ e) (round_values size (2 ^ f) (2 ^ e) a) :=
  ⟨round_values_bitonic size e f hef a h.1, round_values_order size e f hef a h⟩


/-! ## The loops of the sort -/

/-- A round on the array is `round_values` on its values. -/
theorem values_round (size tc m e : Nat) (data : List Int) (htc : 0 < tc)
    (hlen : data.length = size) :
    (round size tc m (2 ^ e) data).length = size ∧
      ∀ x, x < size →
        values (round size tc m (2 ^ e) data) x = round_values size m (2 ^ e) (values data) x := by
  rw [round_eq_foldl_range size tc m _ data htc]
  obtain ⟨h1, h2⟩ := foldl_compare_swap_range size m e data hlen size (le_refl _)
  refine ⟨h1, fun x hx => ?_⟩
  have hlow : (if (x / 2 ^ e) % 2 = 0 then x else x - 2 ^ e) < size := by
    split_ifs
    · exact hx
    · exact lt_of_le_of_lt (Nat.sub_le _ _) hx
  unfold values
  rw [h2 x hx, if_pos hlow]

theorem compare_swap_perm (size m j : Nat) (data : List Int) (i : Nat)
    (hlen : data.length = size) (hi : i < size) :
    (compare_swap size m j data i).Perm data := by
  unfold compare_swap
  simp only []
  split
  · rename_i h
    simp only [Bool.and_eq_true, decide_eq_true_eq] at h
    exact swap_perm data i _ (by omega) (by omega)
  · exact List.Perm.refl _

theorem foldl_compare_swap_perm (size m j : Nat) (l : List Nat) (hl : ∀ i ∈ l, i < size) :
    ∀ data : List Int, data.length = size →
      (l.foldl (compare_swap size m j) data).Perm data ∧
        (l.foldl (compare_swap size m j) data).length = size := by
  induction l with
  | nil => intro data h; exact ⟨List.Perm.refl _, h⟩
  | cons i l ih =>
    intro data hlen
    simp only [List.foldl_cons]
    have hp := compare_swap_perm size m j data i hlen (hl i (List.mem_cons_self _ _))
    have hlen' : (compare_swap size m j data i).length = size := by
      rw [length_compare_swap, hlen]
    obtain ⟨h1, h2⟩ := ih (fun k hk => hl k (List.mem_cons_of_mem _ hk)) _ hlen'
    exact ⟨h1.trans hp, h2⟩

/-- A round permutes the array, whatever the round's parameters. -/
theorem round_perm (size tc m j : Nat) (data : List Int) (htc : 0 < tc)
    (hlen : data.length = size) :
    (round size tc m j data).Perm data ∧ (round size tc m j data).length = size := by
  rw [round_eq_foldl_range size tc m j data htc]
  exact foldl_compare_swap_perm size m j _ (fun i hi => List.mem_range.1 hi) data hlen

theorem distance_loop_perm (size tc m : Nat) (htc : 0 < tc) : ∀ (fuel j : Nat) (data : List Int),
    data.length = size →
      (distance_loop size tc m fuel j data).Perm data ∧
        (distance_loop size tc m fuel j data).length = size := by
  intro fuel
  induction fuel with
  | zero => intro j data h; exact ⟨List.Perm.refl _, h⟩
  | succ fuel ih =>
    intro j data hlen
    unfold distance_loop
    split_ifs with hj
    · obtain ⟨hp, hl⟩ := round_perm size tc m j data htc hlen
      obtain ⟨h1, h2⟩ := ih (j >>> 1) _ hl
      exact ⟨h1.trans hp, h2⟩
    · exact ⟨List.Perm.refl _, hlen⟩

/-- Whenever the stage loop returns, it returns a permutation of the array it got. -/
theorem stage_loop_perm (size tc : Nat) (htc : 0 < tc) : ∀ (fuel m : Nat) (data out : List Int),
    data.length = size → stage_loop size tc fuel m data = some out →
      out.Perm data ∧ out.length = size := by
  intro fuel
  induction fuel with
  | zero => intro m data out _ h; simp [stage_loop] at h
  | succ fuel ih =>
    intro m data out hlen h
    unfold stage_loop at h
    split_ifs at h with hm
    · obtain ⟨hp, hl⟩ := distance_loop_perm size tc m htc m (m >>> 1) data hlen
      obtain ⟨h1, h2⟩ := ih _ _ out hl h
      exact ⟨h1.trans hp, h2⟩
    · simp only [Option.some.injEq] at h
      subst h
      exact ⟨List.Perm.refl _, hlen⟩

theorem distance_loop_zero (size tc m fuel : Nat) (data : List Int) :
    distance_loop size tc m fuel 0 data = data := by
  cases fuel <;> simp [distance_loop]

/-- The rounds of one stage, from distance `2 ^ e` down to `1`, finish the merge. -/
theorem distance_loop_blockInv (size tc f : Nat) (htc : 0 < tc) :
    ∀ (e fuel : Nat) (data : List Int), e < f → e < fuel → data.length = size →
      BlockInv size (2 ^ f) (2 ^ (e + 1)) (values data) →
      (distance_loop size tc (2 ^ f) fuel (2 ^ e) data).length = size ∧
        BlockInv size (2 ^ f) 1 (values (distance_loop size tc (2 ^ f) fuel (2 ^ e) data)) := by
  intro e
  induction e with
  | zero =>
    intro fuel data hef hfuel hlen hinv
    obtain ⟨fuel, rfl⟩ : ∃ k, fuel = k + 1 := ⟨fuel - 1, by omega⟩
    obtain ⟨hl, hv⟩ := values_round size tc (2 ^ f) 0 data htc hlen
    have hstep := blockInv_congr size 0 f (Nat.zero_le _) _ _ (fun x hx => (hv x hx).symm)
      (blockInv_round_values size 0 f hef _ hinv)
    unfold distance_loop
    simp only [pow_zero, Nat.lt_one_iff, Nat.zero_lt_one, if_true] at hstep hl ⊢
    have h0 : 1 >>> 1 = 0 := rfl
    rw [h0, distance_loop_zero]
    exact ⟨hl, hstep⟩
  | succ e ih =>
    intro fuel data hef hfuel hlen hinv
    obtain ⟨fuel, rfl⟩ : ∃ k, fuel = k + 1 := ⟨fuel - 1, by omega⟩
    obtain ⟨hl, hv⟩ := values_round size tc (2 ^ f) (e + 1) data htc hlen
    have hstep := blockInv_congr size (e + 1) f (by omega) _ _ (fun x hx => (hv x hx).symm)
      (blockInv_round_values size (e + 1) f hef _ hinv)
    unfold distance_loop
    have hpos : 0 < 2 ^ (e + 1) := Nat.two_pow_pos _
    have hshift : 2 ^ (e + 1) >>> 1 = 2 ^ e := by
      rw [Nat.shiftRight_eq_div_pow, pow_succ]; simp
    rw [if_pos hpos, hshift]
    exact ih fuel _ (by omega) (by omega) hl hstep

/-- One whole stage sorts the blocks of `2 ^ f` indices, given sorted blocks of half
the length. -/
theorem stage_blockSorted (size tc f : Nat) (htc : 0 < tc) (data : List Int)
    (hlen : data.length = size)
    (hpre : ∀ f0, f = f0 + 1 → BlockSorted size (2 ^ f0) (values data)) :
    (distance_loop size tc (2 ^ f) (2 ^ f) (2 ^ f >>> 1) data).length = size ∧
      BlockSorted size (2 ^ f)
        (values (distance_loop size tc (2 ^ f) (2 ^ f) (2 ^ f >>> 1) data)) := by
  cases f with
  | zero =>
    have h0 : 2 ^ 0 >>> 1 = 0 := rfl
    rw [h0, distance_loop_zero]
    exact ⟨hlen, by simpa using blockSorted_one size (values data)⟩
  | succ f0 =>
    have hshift : 2 ^ (f0 + 1) >>> 1 = 2 ^ f0 := by
      rw [Nat.shiftRight_eq_div_pow, pow_succ]; simp
    rw [hshift]
    have hfuel : f0 < 2 ^ (f0 + 1) :=
      lt_trans (Nat.lt_succ_self f0) (Nat.lt_two_pow (f0 + 1))
    obtain ⟨h1, h2⟩ := distance_loop_blockInv size tc (f0 + 1) htc f0 (2 ^ (f0 + 1)) data
      (Nat.lt_succ_self f0) hfuel hlen (blockInv_of_blockSorted size f0 _ (hpre f0 rfl))
    exact ⟨h1, blockSorted_of_blockInv size _ _ h2⟩

/-- The stage loop, started at `merge_size = 2 ^ f` on sorted blocks of `2 ^ (f - 1)`
indices, returns after `g + 1 - f` further stages with sorted blocks of `2 ^ g` indices,
where `2 ^ g` is the largest power of two that is at most `size`. -/
theorem stage_loop_blockSorted (size tc g : Nat) (htc : 0 < tc) (hg : 2 ^ g ≤ size)
    (hg1 : size < 2 ^ (g + 1)) (h63 : size < 2 ^ 63) :
    ∀ (k f fuel : Nat) (data : List Int), f + k = g + 1 → k < fuel → data.length = size →
      (∀ f0, f = f0 + 1 → BlockSorted size (2 ^ f0) (values data)) →
      ∃ out, stage_loop size tc fuel (2 ^ f) data = some out ∧ out.length = size ∧
        BlockSorted size (2 ^ g) (values out) := by
  intro k
  induction k with
  | zero =>
    intro f fuel data hf hfuel hlen hpre
    obtain ⟨fuel, rfl⟩ : ∃ n, fuel = n + 1 := ⟨fuel - 1, by omega⟩
    have hfg : f = g + 1 := by omega
    subst hfg
    unfold stage_loop
    rw [if_neg (by omega)]
    exact ⟨data, rfl, hlen, hpre g rfl⟩
  | succ k ih =>
    intro f fuel data hf hfuel hlen hpre
    obtain ⟨fuel, rfl⟩ : ∃ n, fuel = n + 1 := ⟨fuel - 1, by omega⟩
    have hfg : f ≤ g := by omega
    have hle : 2 ^ f ≤ size := le_trans (Nat.pow_le_pow_right (by norm_num) hfg) hg
    obtain ⟨h1, h2⟩ := stage_blockSorted size tc f htc data hlen hpre
    have hnext : (2 ^ f <<< 1) % SIZE_T_RANGE = 2 ^ (f + 1) := by
      have : 2 ^ f <<< 1 = 2 ^ (f + 1) := by
        rw [Nat.shiftLeft_eq, pow_one, pow_succ]
      rw [this]
      apply Nat.mod_eq_of_lt
      unfold SIZE_T_RANGE
      have : 2 ^ (f + 1) = 2 * 2 ^ f := by rw [pow_succ, Nat.mul_comm]
      omega
    unfold stage_loop
    rw [if_pos hle, hnext]
    exact ih (f + 1) fuel _ (by omega) (by omega) h1
      (fun f0 hf0 => by
        have : f0 = f := by omega
        subst this
        exact h2)


/-! ## The result of the sort -/

theorem sorted_take_of_values (l : List Int) (n : Nat) (hn : n ≤ l.length)
    (h : ∀ x y, x < y → y < n → values l x ≤ values l y) : (l.take n).Sorted (· ≤ ·) := by
  unfold List.Sorted
  rw [List.pairwise_iff_getElem]
  intro i j hi hj hij
  simp only [List.length_take] at hi hj
  have := h i j hij (by omega)
  unfold values at this
  rw [List.getD_eq_getElem _ _ (by omega), List.getD_eq_getElem _ _ (by omega)] at this
  simpa [List.getElem_take] using this

/-- The first block of a block-sorted array is non-decreasing. -/
theorem blockSorted_first (size m : Nat) (a : Nat → Int) (hm : m ≤ size)
    (h : BlockSorted size m a) : ∀ x y, x < y → y < m → a x ≤ a y := by
  intro x y hxy hy
  have hx0 : x / m = 0 := Nat.div_eq_of_lt (by omega)
  have hy0 : y / m = 0 := Nat.div_eq_of_lt hy
  have := h x y (by rw [hx0, hy0]) (by rw [hx0]; simpa using hm) hxy
  rwa [hx0, if_pos (by rfl)] at this

/-- The sort returns, and what it returns is a permutation of its input whose blocks of
`2 ^ g` indices are sorted, `2 ^ g` being the largest power of two that is at most
`size`. -/
theorem parallel_bitonic_sort_blockSorted (fuel : Nat) (data : List Int) (size tc g : Nat)
    (htc : 0 < tc) (hg : 2 ^ g ≤ size) (hg1 : size < 2 ^ (g + 1)) (h63 : size < 2 ^ 63)
    (hlen : data.length = size) (hfuel : 64 ≤ fuel) :
    ∃ out, parallel_bitonic_sort fuel data size tc = some out ∧ out.length = size ∧
      out.Perm data ∧ BlockSorted size (2 ^ g) (values out) := by
  have hg63 : g < 63 := (Nat.pow_lt_pow_iff_right (by norm_num)).1 (lt_of_le_of_lt hg h63)
  obtain ⟨out, h1, h2, h3⟩ := stage_loop_blockSorted size tc g htc hg hg1 h63 (g + 1) 0 fuel
    data (by omega) (by omega) hlen (fun f0 hf0 => by omega)
  refine ⟨out, ?_, h2, (stage_loop_perm size tc htc fuel _ data out hlen h1).1, h3⟩
  unfold parallel_bitonic_sort
  rw [if_neg (by omega)]
  exact h1

/-- On a power-of-two size the sort returns the ascending sort of its input. -/
theorem parallel_bitonic_sort_pow_two (fuel : Nat) (data : List Int) (size tc g : Nat)
    (htc : 0 < tc) (hsize : size = 2 ^ g) (h63 : size < 2 ^ 63)
    (hlen : data.length = size) (hfuel : 64 ≤ fuel) :
    parallel_bitonic_sort fuel data size tc = some (data.insertionSort (· ≤ ·)) := by
  have hg1 : size < 2 ^ (g + 1) := by rw [hsize, pow_succ]; have := Nat.two_pow_pos g; omega
  obtain ⟨out, h1, h2, h3, h4⟩ := parallel_bitonic_sort_blockSorted fuel data size tc g htc
    (le_of_eq hsize.symm) hg1 h63 hlen hfuel
  have hs : out.Sorted (· ≤ ·) := by
    have := sorted_take_of_values out size (le_of_eq h2.symm)
      (by
        have := blockSorted_first size (2 ^ g) (values out) (le_of_eq hsize.symm) h4
        rwa [← hsize] at this)
    rwa [← h2, List.take_length] at this
  rw [h1]
  congr 1
  exact List.eq_of_perm_of_sorted (h3.trans (List.perm_insertionSort _ data).symm) hs
    (List.sorted_insertionSort _ data)

/-! ## Independence of the number of threads -/

theorem round_thread_count (size tc m j : Nat) (data : List Int) (htc : 0 < tc) :
    round size tc m j data = round size 1 m j data := by
  rw [round_eq_foldl_range size tc m j data htc,
    round_eq_foldl_range size 1 m j data Nat.one_pos]

theorem distance_loop_thread_count (size tc m : Nat) (htc : 0 < tc) :
    ∀ (fuel j : Nat) (data : List Int),
      distance_loop size tc m fuel j data = distance_loop size 1 m fuel j data := by
  intro fuel
  induction fuel with
  | zero => intro j data; rfl
  | succ fuel ih =>
    intro j data
    unfold distance_loop
    rw [round_thread_count size tc m j data htc, ih]

theorem stage_loop_thread_count (size tc : Nat) (htc : 0 < tc) :
    ∀ (fuel m : Nat) (data : List Int),
      stage_loop size tc fuel m data = stage_loop size 1 fuel m data := by
  intro fuel
  induction fuel with
  | zero => intro m data; rfl
  | succ fuel ih =>
    intro m data
    unfold stage_loop
    rw [distance_loop_thread_count size tc m htc, ih]

theorem parallel_bitonic_sort_thread_count (fuel : Nat) (data : List Int) (size tc : Nat)
    (htc : 0 < tc) :
    parallel_bitonic_sort fuel data size tc = parallel_bitonic_sort fuel data size 1 := by
  unfold parallel_bitonic_sort
  rw [if_neg (by omega), if_neg (by omega), stage_loop_thread_count size tc htc]


/-! ## Properties of the values that every round keeps -/

/-- A round of a stage `2 ^ f ≤ 2 ^ g` leaves, at every index below `2 ^ g`, a value that
was at an index below `2 ^ g` before. -/
theorem round_values_prefix (size e f g : Nat) (hef : e < f) (hfg : f ≤ g)
    (hg : 2 ^ g ≤ size) (S : Int → Prop) (a : Nat → Int) (h : ∀ x, x < 2 ^ g → S (a x)) :
    ∀ x, x < 2 ^ g → S (round_values size (2 ^ f) (2 ^ e) a x) := by
  intro x hx
  have hm : 0 < 2 ^ f := Nat.two_pow_pos f
  have hgf : 2 ^ g = 2 ^ (g - f) * 2 ^ f := by rw [← pow_add]; congr 1; omega
  have hblock : (x / 2 ^ f + 1) * 2 ^ f ≤ 2 ^ g := by
    have : x / 2 ^ f < 2 ^ (g - f) := by
      rw [Nat.div_lt_iff_lt_mul hm, ← hgf]; exact hx
    calc (x / 2 ^ f + 1) * 2 ^ f ≤ 2 ^ (g - f) * 2 ^ f := Nat.mul_le_mul_right _ this
      _ = 2 ^ g := hgf.symm
  obtain ⟨pz, _, hpz, hval⟩ := round_values_pair size e f hef a x (le_trans hblock hg)
  have hpzlt : pz < 2 ^ g := by
    have := lt_block_end (2 ^ f) pz hm
    rw [hpz] at this
    omega
  rcases hval with hval | hval <;> rw [hval]
  · rcases min_choice (a x) (a pz) with hc | hc <;> rw [hc]
    · exact h x hx
    · exact h pz hpzlt
  · rcases max_choice (a x) (a pz) with hc | hc <;> rw [hc]
    · exact h x hx
    · exact h pz hpzlt

/-- A property of the values that every round of a stage keeps is kept by the rounds of the
stage, run from any distance `2 ^ e` downwards. -/
theorem distance_loop_invariant (size tc f : Nat) (htc : 0 < tc) (I : (Nat → Int) → Prop)
    (hcongr : ∀ a b : Nat → Int, (∀ x, x < size → a x = b x) → I a → I b)
    (hround : ∀ e, e < f → ∀ a, I a → I (round_values size (2 ^ f) (2 ^ e) a)) :
    ∀ (fuel e : Nat) (data : List Int), e < f → data.length = size → I (values data) →
      I (values (distance_loop size tc (2 ^ f) fuel (2 ^ e) data)) := by
  intro fuel
  induction fuel with
  | zero => intro e data _ _ h; exact h
  | succ fuel ih =>
    intro e data hef hlen h
    obtain ⟨hl, hv⟩ := values_round size tc (2 ^ f) e data htc hlen
    have hstep := hcongr _ _ (fun x hx => (hv x hx).symm) (hround e hef _ h)
    unfold distance_loop
    rw [if_pos (Nat.two_pow_pos e)]
    cases e with
    | zero =>
      have h0 : 2 ^ 0 >>> 1 = 0 := rfl
      rw [h0, distance_loop_zero]
      exact hstep
    | succ e =>
      have hshift : 2 ^ (e + 1) >>> 1 = 2 ^ e := by
        rw [Nat.shiftRight_eq_div_pow, pow_succ]; simp
      rw [hshift]
      exact ih e _ (by omega) hl hstep

/-- A property of the values that every round keeps is kept by the whole stage loop. -/
theorem stage_loop_invariant (size tc g : Nat) (htc : 0 < tc) (hg1 : size < 2 ^ (g + 1))
    (h63 : size < 2 ^ 63) (I : (Nat → Int) → Prop)
    (hcongr : ∀ a b : Nat → Int, (∀ x, x < size → a x = b x) → I a → I b)
    (hround : ∀ e f, e < f → f ≤ g → ∀ a, I a → I (round_values size (2 ^ f) (2 ^ e) a)) :
    ∀ (fuel f : Nat) (data out : List Int), data.length = size →
      stage_loop size tc fuel (2 ^ f) data = some out → I (values data) → I (values out) := by
  intro fuel
  induction fuel with
  | zero => intro f data out _ h; simp [stage_loop] at h
  | succ fuel ih =>
    intro f data out hlen h hI
    unfold stage_loop at h
    split_ifs at h with hle
    · have hfg : f ≤ g := by
        have : 2 ^ f < 2 ^ (g + 1) := lt_of_le_of_lt hle hg1
        have := (Nat.pow_lt_pow_iff_right (by norm_num)).1 this
        omega
      have hnext : (2 ^ f <<< 1) % SIZE_T_RANGE = 2 ^ (f + 1) := by
        have : 2 ^ f <<< 1 = 2 ^ (f + 1) := by
          rw [Nat.shiftLeft_eq, pow_one, pow_succ]
        rw [this]
        apply Nat.mod_eq_of_lt
        unfold SIZE_T_RANGE
        have : 2 ^ (f + 1) = 2 * 2 ^ f := by rw [pow_succ, Nat.mul_comm]
        omega
      rw [hnext] at h
      have hl := (distance_loop_perm size tc (2 ^ f) htc (2 ^ f) (2 ^ f >>> 1) data hlen).2
      refine ih (f + 1) _ out hl h ?_
      cases f with
      | zero =>
        have h0 : 2 ^ 0 >>> 1 = 0 := rfl
        rw [h0, distance_loop_zero]
        exact hI
      | succ f0 =>
        have hshift : 2 ^ (f0 + 1) >>> 1 = 2 ^ f0 := by
          rw [Nat.shiftRight_eq_div_pow, pow_succ]; simp
        rw [hshift]
        exact distance_loop_invariant size tc (f0 + 1) htc I hcongr
          (fun e he a ha => hround e (f0 + 1) he hfg a ha) _ f0 data (Nat.lt_succ_self _) hlen hI
    · simp only [Option.some.injEq] at h
      subst h
      exact hI

/-- The values at the indices below `2 ^ g` after the sort are values that were at indices
below `2 ^ g` before it, `2 ^ g` being the largest power of two that is at most `size`. -/
theorem parallel_bitonic_sort_prefix (fuel : Nat) (data out : List Int) (size tc g : Nat)
    (htc : 0 < tc) (hg : 2 ^ g ≤ size) (hg1 : size < 2 ^ (g + 1)) (h63 : size < 2 ^ 63)
    (hlen : data.length = size) (S : Int → Prop) (h : ∀ x, x < 2 ^ g → S (values data x))
    (hout : parallel_bitonic_sort fuel data size tc = some out) :
    ∀ x, x < 2 ^ g → S (values out x) := by
  unfold parallel_bitonic_sort at hout
  rw [if_neg (by omega)] at hout
  have hout' : stage_loop size tc fuel (2 ^ 0) data = some out := hout
  exact stage_loop_invariant size tc g htc hg1 h63 (fun a => ∀ x, x < 2 ^ g → S (a x))
    (fun a b hab ha x hx => by rw [← hab x (by omega)]; exact ha x hx)
    (fun e f hef hfg a ha => round_values_prefix size e f g hef hfg hg S a ha)
    fuel 0 data out hlen hout' h


/-! ## The iteration bounds of the loops -/

/-- The bound on the iterations of the distance loop is never used up: any two bounds
that exceed the binary length of `j` give the same result. -/
theorem distance_loop_fuel (size tc m : Nat) : ∀ (fuel fuel' j : Nat) (data : List Int),
    j < 2 ^ fuel → j < 2 ^ fuel' →
      distance_loop size tc m fuel j data = distance_loop size tc m fuel' j data := by
  intro fuel
  induction fuel with
  | zero =>
    intro fuel' j data h _
    have hj : j = 0 := by simpa using h
    subst hj
    rw [distance_loop_zero, distance_loop_zero]
  | succ fuel ih =>
    intro fuel' j data h h'
    cases fuel' with
    | zero =>
      have hj : j = 0 := by simpa using h'
      subst hj
      rw [distance_loop_zero, distance_loop_zero]
    | succ fuel' =>
      unfold distance_loop
      split_ifs with hj
      · have hhalf : j >>> 1 = j / 2 := by rw [Nat.shiftRight_eq_div_pow, pow_one]
        rw [hhalf]
        rw [pow_succ] at h h'
        exact ih fuel' (j / 2) _ (by omega) (by omega)
      · rfl

/-- In the stage loop the bound `merge_size` of the distance loop is large enough. -/
theorem distance_loop_bound (size tc m fuel : Nat) (data : List Int) (h : m ≤ fuel) :
    distance_loop size tc m fuel (m >>> 1) data = distance_loop size tc m m (m >>> 1) data := by
  have hhalf : m >>> 1 = m / 2 := by rw [Nat.shiftRight_eq_div_pow, pow_one]
  have h1 : m / 2 < 2 ^ m := lt_of_le_of_lt (Nat.div_le_self m 2) (Nat.lt_two_pow m)
  have h2 : m / 2 < 2 ^ fuel :=
    lt_of_lt_of_le h1 (Nat.pow_le_pow_right (by norm_num) h)
  rw [hhalf]
  exact distance_loop_fuel size tc m fuel m (m / 2) data h2 h1

/-- A result of the stage loop does not depend on the iteration bound: a larger bound
gives the same result. -/
theorem stage_loop_fuel (size tc : Nat) : ∀ (fuel m : Nat) (data out : List Int),
    stage_loop size tc fuel m data = some out →
      stage_loop size tc (fuel + 1) m data = some out := by
  intro fuel
  induction fuel with
  | zero => intro m data out h; simp [stage_loop] at h
  | succ fuel ih =>
    intro m data out h
    unfold stage_loop at h ⊢
    split_ifs at h ⊢ with hm
    · exact ih _ _ out h
    · exact h

theorem stage_loop_zero (size tc : Nat) : ∀ (fuel : Nat) (data : List Int),
    stage_loop size tc fuel 0 data = none := by
  intro fuel
  induction fuel with
  | zero => intro data; rfl
  | succ fuel ih =>
    intro data
    unfold stage_loop
    rw [if_pos (Nat.zero_le _)]
    exact ih _

/-- For `size ≥ 2 ^ 63` the shift `merge_size <<= 1` wraps to `0` and the stage loop never
returns, whatever the iteration bound. -/
theorem stage_loop_wraps (size tc : Nat) (h63 : 2 ^ 63 ≤ size) :
    ∀ (k f fuel : Nat) (data : List Int), f + k = 63 →
      stage_loop size tc fuel (2 ^ f) data = none := by
  intro k
  induction k with
  | zero =>
    intro f fuel data hf
    have hf63 : f = 63 := by omega
    subst hf63
    cases fuel with
    | zero => rfl
    | succ fuel =>
      unfold stage_loop
      rw [if_pos h63]
      have : (2 ^ 63 <<< 1) % SIZE_T_RANGE = 0 := by decide
      rw [this]
      exact stage_loop_zero size tc fuel _
  | succ k ih =>
    intro f fuel data hf
    cases fuel with
    | zero => rfl
    | succ fuel =>
      have hle : 2 ^ f ≤ size :=
        le_trans (Nat.pow_le_pow_right (by norm_num) (by omega)) h63
      have hnext : (2 ^ f <<< 1) % SIZE_T_RANGE = 2 ^ (f + 1) := by
        have h1 : 2 ^ f <<< 1 = 2 ^ (f + 1) := by
          rw [Nat.shiftLeft_eq, pow_one, pow_succ]
        rw [h1]
        apply Nat.mod_eq_of_lt
        unfold SIZE_T_RANGE
        exact Nat.pow_lt_pow_right (by norm_num) (by omega)
      unfold stage_loop
      rw [if_pos hle, hnext]
      exact ih (f + 1) fuel _ (by omega)

/-- The sort of an array of `2 ^ 63` or more elements does not return. -/
theorem parallel_bitonic_sort_wraps (fuel : Nat) (data : List Int) (size tc : Nat)
    (h63 : 2 ^ 63 ≤ size) : parallel_bitonic_sort fuel data size tc = none := by
  unfold parallel_bitonic_sort
  split_ifs
  · rfl
  · exact stage_loop_wraps size tc h63 63 0 fuel data (by norm_num)

/-! ## Claims about the result of the sort -/

/-- Claim C1. For every power-of-two `size` (below `2 ^ 63`, as every array of 64-bit
integers is), every array of `size` integers and every `thread_count` in `[1, size]`,
`parallel_bitonic_sort` returns a non-decreasing permutation of the input, which is the
ascending sort of the input; in particular `[5,3,8,1,6,2,7,4]` with two threads yields
`[1,2,3,4,5,6,7,8]`. -/
theorem parallel_bitonic_sort_sorts (g : Nat) (data : List Int) (size thread_count fuel : Nat)
    (hsize : size = 2 ^ g) (h63 : size < 2 ^ 63) (hlen : data.length = size)
    (h1 : 1 ≤ thread_count) (_h2 : thread_count ≤ size) (hfuel : 64 ≤ fuel) :
    (∃ out, parallel_bitonic_sort fuel data size thread_count = some out ∧
      out.Sorted (· ≤ ·) ∧ out.Perm data ∧ out = data.insertionSort (· ≤ ·)) ∧
    parallel_bitonic_sort fuel [5, 3, 8, 1, 6, 2, 7, 4] 8 2 = some [1, 2, 3, 4, 5, 6, 7, 8] := by
  constructor
  · exact ⟨_, parallel_bitonic_sort_pow_two fuel data size thread_count g h1 hsize h63 hlen hfuel,
      List.sorted_insertionSort _ data, List.perm_insertionSort _ data, rfl⟩
  · rw [parallel_bitonic_sort_pow_two fuel [5, 3, 8, 1, 6, 2, 7, 4] 8 2 3 (by norm_num)
      (by norm_num) (by norm_num) rfl hfuel]
    decide

theorem parallel_bitonic_sort_sorts_witness :
    (8 = 2 ^ 3 ∧ 8 < 2 ^ 63 ∧ ([5, 3, 8, 1, 6, 2, 7, 4] : List Int).length = 8 ∧ 1 ≤ 2 ∧
      2 ≤ 8 ∧ 64 ≤ 64) ∧
    ((∃ out, parallel_bitonic_sort 64 [5, 3, 8, 1, 6, 2, 7, 4] 8 2 = some out ∧
      out.Sorted (· ≤ ·) ∧ out.Perm [5, 3, 8, 1, 6, 2, 7, 4] ∧
      out = List.insertionSort (· ≤ ·) [5, 3, 8, 1, 6, 2, 7, 4]) ∧
    parallel_bitonic_sort 64 [5, 3, 8, 1, 6, 2, 7, 4] 8 2 = some [1, 2, 3, 4, 5, 6, 7, 8]) :=
  ⟨⟨by norm_num, by norm_num, rfl, by norm_num, by norm_num, le_refl _⟩,
    parallel_bitonic_sort_sorts 3 [5, 3, 8, 1, 6, 2, 7, 4] 8 2 64 (by norm_num) (by norm_num)
      rfl (by norm_num) (by norm_num) (le_refl _)⟩

/-- Claim C2. For every power-of-two `size` and every input, the call
`parallel_bitonic_sort(data, size, 1)` leaves `data` equal, index by index, to the
ascending-sorted copy of the input, so that the comparison loop of `bitonic_test` finds
no mismatch. -/
theorem single_thread_matches_reference (g : Nat) (data : List Int) (size fuel : Nat)
    (hsize : size = 2 ^ g) (h63 : size < 2 ^ 63) (hlen : data.length = size)
    (hfuel : 64 ≤ fuel) :
    ∃ out, parallel_bitonic_sort fuel data size 1 = some out ∧ out.length = size ∧
      (∀ i, i < size → out.getD i 0 = (data.insertionSort (· ≤ ·)).getD i 0) ∧
      out = data.insertionSort (· ≤ ·) ∧
      first_mismatch out (data.insertionSort (· ≤ ·)) size = none := by
  refine ⟨_, parallel_bitonic_sort_pow_two fuel data size 1 g Nat.one_pos hsize h63 hlen hfuel,
    by rw [List.length_insertionSort, hlen], fun i _ => rfl, rfl, ?_⟩
  unfold first_mismatch
  rw [List.find?_eq_none]
  intro i _
  simp

theorem single_thread_matches_reference_witness :
    (4 = 2 ^ 2 ∧ 4 < 2 ^ 63 ∧ ([3, -1, 2, 0] : List Int).length = 4 ∧ 64 ≤ 64) ∧
    ∃ out, parallel_bitonic_sort 64 [3, -1, 2, 0] 4 1 = some out ∧ out.length = 4 ∧
      (∀ i, i < 4 → out.getD i 0 = (List.insertionSort (· ≤ ·) [3, -1, 2, 0]).getD i 0) ∧
      out = List.insertionSort (· ≤ ·) [3, -1, 2, 0] ∧
      first_mismatch out (List.insertionSort (· ≤ ·) [3, -1, 2, 0]) 4 = none :=
  ⟨⟨by norm_num, by norm_num, rfl, le_refl _⟩,
    single_thread_matches_reference 2 [3, -1, 2, 0] 4 64 (by norm_num) (by norm_num) rfl
      (le_refl _)⟩

/-- Claim C3, as stated, fails: on the three-element array `[1, 2, 0]` with one thread
the sort returns `[1, 2, 0]`, which is not non-decreasing. -/
theorem not_sorted_size_three :
    parallel_bitonic_sort 64 [1, 2, 0] 3 1 = some [1, 2, 0] ∧
      ¬ List.Sorted (· ≤ ·) ([1, 2, 0] : List Int) := by
  constructor
  · decide!
  · decide

/-- Claim C3, amended. For every positive `size` (below `2 ^ 63`), every array of `size`
integers and every `thread_count` in `[1, size]`, the first `2 ^ g` elements of the array
after `parallel_bitonic_sort` are non-decreasing, where `2 ^ g` is the largest power of two
that is at most `size`; when `size` is a power of two, the whole array is non-decreasing. -/
theorem parallel_bitonic_sort_sorted_prefix (g : Nat) (data : List Int)
    (size thread_count fuel : Nat) (hg : 2 ^ g ≤ size) (hg1 : size < 2 ^ (g + 1))
    (h63 : size < 2 ^ 63) (hlen : data.length = size) (h1 : 1 ≤ thread_count)
    (_h2 : thread_count ≤ size) (hfuel : 64 ≤ fuel) :
    ∃ out, parallel_bitonic_sort fuel data size thread_count = some out ∧
      (out.take (2 ^ g)).Sorted (· ≤ ·) ∧ (size = 2 ^ g → out.Sorted (· ≤ ·)) := by
  obtain ⟨out, ho, hl, _, hb⟩ := parallel_bitonic_sort_blockSorted fuel data size thread_count g
    h1 hg hg1 h63 hlen hfuel
  have hs : (out.take (2 ^ g)).Sorted (· ≤ ·) :=
    sorted_take_of_values out (2 ^ g) (by omega)
      (blockSorted_first size (2 ^ g) (values out) hg hb)
  refine ⟨out, ho, hs, fun he => ?_⟩
  rwa [← he, ← hl, List.take_length] at hs

theorem parallel_bitonic_sort_sorted_prefix_witness :
    (2 ^ 1 ≤ 3 ∧ 3 < 2 ^ (1 + 1) ∧ 3 < 2 ^ 63 ∧ ([1, 2, 0] : List Int).length = 3 ∧ 1 ≤ 1 ∧
      1 ≤ 3 ∧ 64 ≤ 64) ∧
    ∃ out, parallel_bitonic_sort 64 [1, 2, 0] 3 1 = some out ∧
      (out.take (2 ^ 1)).Sorted (· ≤ ·) ∧ (3 = 2 ^ 1 → out.Sorted (· ≤ ·)) :=
  ⟨⟨by norm_num, by norm_num, by norm_num, rfl, le_refl _, by norm_num, le_refl _⟩,
    parallel_bitonic_sort_sorted_prefix 1 [1, 2, 0] 3 1 64 (by norm_num) (by norm_num)
      (by norm_num) rfl (le_refl _) (by norm_num) (le_refl _)⟩

/-- Claim C4. For every input of positive `size` (below `2 ^ 63`, power of two or not)
and every `thread_count ≥ 1`, the array after `parallel_bitonic_sort` is a permutation of
the input: it has the same length and the same multiset of values. -/
theorem parallel_bitonic_sort_perm (data : List Int) (size thread_count fuel : Nat)
    (hpos : 0 < size) (h63 : size < 2 ^ 63) (hlen : data.length = size)
    (h1 : 1 ≤ thread_count) (hfuel : 64 ≤ fuel) :
    ∃ out, parallel_bitonic_sort fuel data size thread_count = some out ∧
      out.Perm data ∧ out.length = data.length ∧ (out : Multiset Int) = (data : Multiset Int) := by
  obtain ⟨out, ho, hl, hp, _⟩ := parallel_bitonic_sort_blockSorted fuel data size thread_count
    (Nat.log 2 size) h1 (Nat.pow_log_le_self 2 (by omega))
    (Nat.lt_pow_succ_log_self (by norm_num) size) h63 hlen hfuel
  exact ⟨out, ho, hp, by rw [hl, hlen], Quotient.sound hp⟩

theorem parallel_bitonic_sort_perm_witness :
    (0 < 3 ∧ 3 < 2 ^ 63 ∧ ([7, -2, 7] : List Int).length = 3 ∧ 1 ≤ 5 ∧ 64 ≤ 64) ∧
    ∃ out, parallel_bitonic_sort 64 [7, -2, 7] 3 5 = some out ∧
      out.Perm [7, -2, 7] ∧ out.length = ([7, -2, 7] : List Int).length ∧
      (out : Multiset Int) = (([7, -2, 7] : List Int) : Multiset Int) :=
  ⟨⟨by norm_num, by norm_num, rfl, by norm_num, le_refl _⟩,
    parallel_bitonic_sort_perm [7, -2, 7] 3 5 64 (by norm_num) (by norm_num) rfl
      (by norm_num) (le_refl _)⟩

/-- Claim C5, as stated, fails: with `size = 100` and seven threads, on the array of 99
ones followed by a zero the sort returns an array that is not non-decreasing (the zero
never leaves the indices `64 .. 99`, and the indices `0 .. 63` keep holding ones). -/
theorem not_sorted_size_100 :
    ∃ out, parallel_bitonic_sort 64 (List.replicate 99 1 ++ [0]) 100 7 = some out ∧
      ¬ out.Sorted (· ≤ ·) := by
  obtain ⟨out, ho, hl, hp, _⟩ := parallel_bitonic_sort_blockSorted 64
    (List.replicate 99 1 ++ [0]) 100 7 6 (by norm_num) (by norm_num) (by norm_num)
    (by norm_num) (by simp) (le_refl _)
  refine ⟨out, ho, fun hs => ?_⟩
  have hpre := parallel_bitonic_sort_prefix 64 (List.replicate 99 1 ++ [0]) out 100 7 6
    (by norm_num) (by norm_num) (by norm_num) (by norm_num) (by simp) (fun v => v = 1)
    (by
      intro x hx
      have hx' : x < 99 := lt_trans hx (by norm_num)
      unfold values
      rw [List.getD_eq_getElem?_getD,
        List.getElem?_append_left (by rw [List.length_replicate]; exact hx'),
        List.getElem?_replicate, if_pos hx']
      rfl)
    ho
  have h0 : (0 : Int) ∈ out := hp.symm.subset (by simp)
  obtain ⟨y, hy, hy0⟩ := List.getElem_of_mem h0
  have h1 : out[0] = 1 := by
    have := hpre 0 (by norm_num)
    rwa [values, List.getD_eq_getElem _ _ (by omega)] at this
  have hy64 : 0 < y := by
    rcases Nat.eq_zero_or_pos y with h | h
    · subst h; omega
    · exact h
  have := (List.pairwise_iff_getElem.1 hs) 0 y (by omega) hy hy64
  omega

/-- Claim C5, amended. For `size = 100` and seven threads, for every input array of 100
integers, the array after `parallel_bitonic_sort` is a permutation of the input and its
first 64 elements are in non-decreasing order. -/
theorem size_100_seven_threads (data : List Int) (fuel : Nat) (hlen : data.length = 100)
    (hfuel : 64 ≤ fuel) :
    ∃ out, parallel_bitonic_sort fuel data 100 7 = some out ∧ out.Perm data ∧
      (out.take 64).Sorted (· ≤ ·) := by
  obtain ⟨out, ho, hl, hp, hb⟩ := parallel_bitonic_sort_blockSorted fuel data 100 7 6
    (by norm_num) (by norm_num) (by norm_num) (by norm_num) hlen hfuel
  exact ⟨out, ho, hp, sorted_take_of_values out (2 ^ 6) (by omega)
    (blockSorted_first 100 (2 ^ 6) (values out) (by norm_num) hb)⟩

theorem size_100_seven_threads_witness :
    ((List.replicate 99 (1 : Int) ++ [0]).length = 100 ∧ 64 ≤ 64) ∧
    ∃ out, parallel_bitonic_sort 64 (List.replicate 99 1 ++ [0]) 100 7 = some out ∧
      out.Perm (List.replicate 99 1 ++ [0]) ∧ (out.take 64).Sorted (· ≤ ·) :=
  ⟨⟨by simp, le_refl _⟩, size_100_seven_threads (List.replicate 99 1 ++ [0]) 64 (by simp)
    (le_refl _)⟩

/-! ## Claims about the ranges of the threads -/

theorem thread_range_fst (size tc j : Nat) :
    (thread_range size tc j).1 = j * (size / tc) := rfl

theorem thread_range_snd_of_lt (size tc j : Nat) (hj : j + 1 < tc) :
    (thread_range size tc j).2 = j * (size / tc) + size / tc := by
  simp only [thread_range]
  rw [if_neg (by omega)]

theorem thread_range_snd_last (size tc : Nat) :
    (thread_range size tc (tc - 1)).2 = size := by
  simp only [thread_range, if_true]

theorem last_start_le (size tc : Nat) (htc : 1 ≤ tc) : (tc - 1) * (size / tc) ≤ size :=
  calc (tc - 1) * (size / tc) ≤ tc * (size / tc) := Nat.mul_le_mul_right _ (by omega)
    _ ≤ size := Nat.mul_div_le size tc

/-- The ranges of two different threads are in order: the earlier one ends where the later
one starts, or before. -/
theorem thread_range_ordered (size tc i j : Nat) (hij : i < j) (hj : j < tc) :
    (thread_range size tc i).2 ≤ (thread_range size tc j).1 := by
  rw [thread_range_snd_of_lt size tc i (by omega), thread_range_fst]
  calc i * (size / tc) + size / tc = (i + 1) * (size / tc) := by ring
    _ ≤ j * (size / tc) := Nat.mul_le_mul_right _ (by omega)

/-- Claim C6. For `size ≥ 1` and `thread_count ≥ 1` the ranges
`start_j = j * (size / thread_count)`, `end_j = start_j + size / thread_count` for
`j < thread_count - 1` and `end = size` for the last thread, satisfy `start_0 = 0`,
`end_j = start_(j+1)`, `start_j ≤ end_j` and `end_(thread_count-1) = size`; they are
pairwise disjoint and every index of `[0, size)` lies in exactly one of them. -/
theorem thread_ranges_partition (size thread_count : Nat) (_hsize : 1 ≤ size)
    (htc : 1 ≤ thread_count) :
    (∀ j, j < thread_count → (thread_range size thread_count j).1 = j * (size / thread_count)) ∧
    (∀ j, j + 1 < thread_count → (thread_range size thread_count j).2
        = (thread_range size thread_count j).1 + size / thread_count) ∧
    (thread_range size thread_count 0).1 = 0 ∧
    (∀ j, j + 1 < thread_count →
      (thread_range size thread_count j).2 = (thread_range size thread_count (j + 1)).1) ∧
    (∀ j, j < thread_count →
      (thread_range size thread_count j).1 ≤ (thread_range size thread_count j).2) ∧
    (thread_range size thread_count (thread_count - 1)).2 = size ∧
    (∀ i j x, i < thread_count → j < thread_count → i ≠ j →
      ¬ (((thread_range size thread_count i).1 ≤ x ∧ x < (thread_range size thread_count i).2) ∧
        ((thread_range size thread_count j).1 ≤ x ∧ x < (thread_range size thread_count j).2))) ∧
    (∀ x, x < size → ∃! j, j < thread_count ∧
      (thread_range size thread_count j).1 ≤ x ∧ x < (thread_range size thread_count j).2) := by
  have hdisj : ∀ i j x, i < thread_count → j < thread_count → i ≠ j →
      ¬ (((thread_range size thread_count i).1 ≤ x ∧ x < (thread_range size thread_count i).2) ∧
        ((thread_range size thread_count j).1 ≤ x ∧ x < (thread_range size thread_count j).2)) := by
    intro i j x hi hj hne ⟨⟨hi1, hi2⟩, ⟨hj1, hj2⟩⟩
    rcases Nat.lt_or_gt_of_ne hne with h | h
    · have := thread_range_ordered size thread_count i j h hj
      omega
    · have := thread_range_ordered size thread_count j i h hi
      omega
  refine ⟨fun j _ => rfl, fun j hj => ?_, by simp [thread_range], fun j hj => ?_, fun j hj => ?_,
    thread_range_snd_last size thread_count, hdisj, fun x hx => ?_⟩
  · rw [thread_range_snd_of_lt size thread_count j hj, thread_range_fst]
  · rw [thread_range_snd_of_lt size thread_count j hj, thread_range_fst]; ring
  · by_cases hlast : j + 1 < thread_count
    · rw [thread_range_snd_of_lt size thread_count j hlast, thread_range_fst]
      exact Nat.le_add_right _ _
    · have hj' : j = thread_count - 1 := by omega
      rw [hj', thread_range_snd_last, thread_range_fst]
      exact last_start_le size thread_count htc
  · have hex : ∃ j, j < thread_count ∧
        (thread_range size thread_count j).1 ≤ x ∧ x < (thread_range size thread_count j).2 := by
      by_cases hx' : x < (thread_count - 1) * (size / thread_count)
      · have hper : 0 < size / thread_count := by
          rcases Nat.eq_zero_or_pos (size / thread_count) with h | h
          · rw [h] at hx'; simp at hx'
          · exact h
        have hq : x / (size / thread_count) < thread_count - 1 := by
          rw [Nat.div_lt_iff_lt_mul hper]; exact hx'
        refine ⟨x / (size / thread_count), by omega, ?_, ?_⟩
        · rw [thread_range_fst]; exact Nat.div_mul_le_self x _
        · rw [thread_range_snd_of_lt size thread_count _ (by omega)]
          exact Nat.lt_div_mul_add hper
      · refine ⟨thread_count - 1, by omega, ?_, ?_⟩
        · rw [thread_range_fst]; omega
        · rw [thread_range_snd_last]; exact hx
    obtain ⟨j, hj, hj1, hj2⟩ := hex
    refine ⟨j, ⟨hj, hj1, hj2⟩, fun j' ⟨hj', hj'1, hj'2⟩ => ?_⟩
    by_contra hne
    exact hdisj j' j x hj' hj hne ⟨⟨hj'1, hj'2⟩, ⟨hj1, hj2⟩⟩

theorem thread_ranges_partition_witness :
    (1 ≤ 100 ∧ 1 ≤ 7) ∧
    ((∀ j, j < 7 → (thread_range 100 7 j).1 = j * (100 / 7)) ∧
    (∀ j, j + 1 < 7 → (thread_range 100 7 j).2 = (thread_range 100 7 j).1 + 100 / 7) ∧
    (thread_range 100 7 0).1 = 0 ∧
    (∀ j, j + 1 < 7 → (thread_range 100 7 j).2 = (thread_range 100 7 (j + 1)).1) ∧
    (∀ j, j < 7 → (thread_range 100 7 j).1 ≤ (thread_range 100 7 j).2) ∧
    (thread_range 100 7 (7 - 1)).2 = 100 ∧
    (∀ i j x, i < 7 → j < 7 → i ≠ j →
      ¬ (((thread_range 100 7 i).1 ≤ x ∧ x < (thread_range 100 7 i).2) ∧
        ((thread_range 100 7 j).1 ≤ x ∧ x < (thread_range 100 7 j).2))) ∧
    (∀ x, x < 100 → ∃! j, j < 7 ∧
      (thread_range 100 7 j).1 ≤ x ∧ x < (thread_range 100 7 j).2)) :=
  ⟨⟨by norm_num, by norm_num⟩, thread_ranges_partition 100 7 (by norm_num) (by norm_num)⟩

/-- Claim C7. For `size ≥ 1` and `thread_count ≥ 1`, every thread but the last gets a range
of exactly `size / thread_count` indices and the last thread gets
`size / thread_count + size % thread_count` indices, which is at most `thread_count - 1`
more than the others. -/
theorem thread_range_lengths (size thread_count : Nat) (_hsize : 1 ≤ size)
    (htc : 1 ≤ thread_count) :
    (∀ j, j + 1 < thread_count →
      (thread_range size thread_count j).2 - (thread_range size thread_count j).1
        = size / thread_count) ∧
    (thread_range size thread_count (thread_count - 1)).2
        - (thread_range size thread_count (thread_count - 1)).1
      = size / thread_count + size % thread_count ∧
    (size / thread_count + size % thread_count) - size / thread_count ≤ thread_count - 1 := by
  refine ⟨fun j hj => ?_, ?_, ?_⟩
  · rw [thread_range_snd_of_lt size thread_count j hj, thread_range_fst]
    exact Nat.add_sub_cancel_left _ _
  · rw [thread_range_snd_last, thread_range_fst]
    have h1 := Nat.div_add_mod size thread_count
    have h2 : (thread_count - 1) * (size / thread_count)
        = thread_count * (size / thread_count) - size / thread_count := Nat.sub_one_mul _ _
    have h3 : size / thread_count ≤ thread_count * (size / thread_count) :=
      Nat.le_mul_of_pos_left _ (by omega)
    generalize size / thread_count = per at *
    generalize size % thread_count = r at *
    omega
  · have := Nat.mod_lt size (show 0 < thread_count by omega)
    rw [Nat.add_sub_cancel_left]
    omega

theorem thread_range_lengths_witness :
    (1 ≤ 100 ∧ 1 ≤ 7) ∧
    ((∀ j, j + 1 < 7 → (thread_range 100 7 j).2 - (thread_range 100 7 j).1 = 100 / 7) ∧
    (thread_range 100 7 (7 - 1)).2 - (thread_range 100 7 (7 - 1)).1 = 100 / 7 + 100 % 7 ∧
    (100 / 7 + 100 % 7) - 100 / 7 ≤ 7 - 1) :=
  ⟨⟨by norm_num, by norm_num⟩, thread_range_lengths 100 7 (by norm_num) (by norm_num)⟩

/-- Claim C8. When `thread_count > size ≥ 1`, the per-thread length is `0`, every thread
but the last receives the empty range `[0, 0)`, the last thread receives `[0, size)`, and
the sort returns an array, the same one as with a single thread. -/
theorem more_threads_than_elements (data : List Int) (size thread_count fuel : Nat)
    (hsize : 1 ≤ size) (htc : size < thread_count) (h63 : size < 2 ^ 63)
    (hlen : data.length = size) (hfuel : 64 ≤ fuel) :
    size / thread_count = 0 ∧
    (∀ j, j + 1 < thread_count → thread_range size thread_count j = (0, 0)) ∧
    thread_range size thread_count (thread_count - 1) = (0, size) ∧
    (∃ out, parallel_bitonic_sort fuel data size thread_count = some out) ∧
    parallel_bitonic_sort fuel data size thread_count = parallel_bitonic_sort fuel data size 1 := by
  have hper : size / thread_count = 0 := Nat.div_eq_of_lt htc
  refine ⟨hper, fun j hj => ?_, ?_, ?_,
    parallel_bitonic_sort_thread_count fuel data size thread_count (by omega)⟩
  · simp only [thread_range, hper, Nat.mul_zero, Nat.add_zero]
    rw [if_neg (by omega)]
  · simp only [thread_range, hper, Nat.mul_zero, if_true]
  · obtain ⟨out, ho, _⟩ := parallel_bitonic_sort_blockSorted fuel data size thread_count
      (Nat.log 2 size) (by omega) (Nat.pow_log_le_self 2 (by omega))
      (Nat.lt_pow_succ_log_self (by norm_num) size) h63 hlen hfuel
    exact ⟨out, ho⟩

theorem more_threads_than_elements_witness :
    (1 ≤ 3 ∧ 3 < 7 ∧ 3 < 2 ^ 63 ∧ ([1, 2, 0] : List Int).length = 3 ∧ 64 ≤ 64) ∧
    ((3 / 7 = 0) ∧
    (∀ j, j + 1 < 7 → thread_range 3 7 j = (0, 0)) ∧
    thread_range 3 7 (7 - 1) = (0, 3) ∧
    (∃ out, parallel_bitonic_sort 64 [1, 2, 0] 3 7 = some out) ∧
    parallel_bitonic_sort 64 [1, 2, 0] 3 7 = parallel_bitonic_sort 64 [1, 2, 0] 3 1) :=
  ⟨⟨by norm_num, by norm_num, by norm_num, rfl, le_refl _⟩,
    more_threads_than_elements [1, 2, 0] 3 7 64 (by norm_num) (by norm_num) (by norm_num) rfl
      (le_refl _)⟩


/-! ## Claim about the command line -/

/-- Claim C9. `get_args` ends the process with the usage message and exit status 1 if and
only if `argc` is not `3` or one of the two parsed integers is `≤ 0`; otherwise it returns
with `val_count` and `thread_count` set to the two parsed values, both strictly positive;
it never ends the process in another way. -/
theorem get_args_spec (atoi : String → Int) (argc : Int) (argv : List String) :
    (get_args atoi argc argv = Outcome.terminated USAGE 1 ↔
      (argc ≠ 3 ∨ atoi (argv.getD 1 "") ≤ 0 ∨ atoi (argv.getD 2 "") ≤ 0)) ∧
    (¬ (argc ≠ 3 ∨ atoi (argv.getD 1 "") ≤ 0 ∨ atoi (argv.getD 2 "") ≤ 0) →
      get_args atoi argc argv
          = Outcome.returned (atoi (argv.getD 1 ""), atoi (argv.getD 2 "")) ∧
        0 < atoi (argv.getD 1 "") ∧ 0 < atoi (argv.getD 2 "")) ∧
    (∀ err status, get_args atoi argc argv = Outcome.terminated err status →
      err = USAGE ∧ status = 1) := by
  unfold get_args bad_usage
  simp only []
  by_cases h1 : argc ≤ 2
  · rw [if_pos h1]
    refine ⟨⟨fun _ => Or.inl (by omega), fun _ => rfl⟩, fun h => absurd (Or.inl (by omega)) h, ?_⟩
    intro err status h
    simp only [Outcome.terminated.injEq] at h
    exact ⟨h.1.symm, h.2.symm⟩
  · rw [if_neg h1]
    by_cases h2 : argc ≥ 4
    · rw [if_pos h2]
      refine ⟨⟨fun _ => Or.inl (by omega), fun _ => rfl⟩,
        fun h => absurd (Or.inl (by omega)) h, ?_⟩
      intro err status h
      simp only [Outcome.terminated.injEq] at h
      exact ⟨h.1.symm, h.2.symm⟩
    · rw [if_neg h2]
      have h3 : argc = 3 := by omega
      by_cases h4 : atoi (argv.getD 1 "") ≤ 0 ∨ atoi (argv.getD 2 "") ≤ 0
      · rw [if_pos h4]
        refine ⟨⟨fun _ => Or.inr h4, fun _ => rfl⟩, fun h => absurd (Or.inr h4) h, ?_⟩
        intro err status h
        simp only [Outcome.terminated.injEq] at h
        exact ⟨h.1.symm, h.2.symm⟩
      · rw [if_neg h4]
        refine ⟨⟨fun h => by simp at h, fun h => ?_⟩, fun _ => ⟨rfl, by omega, by omega⟩, ?_⟩
        · rcases h with h | h
          · exact absurd h3 h
          · exact absurd h h4
        · intro err status h
          simp at h

/-! ## Invariant of the barrier -/

theorem succ_div_mod (n a : Nat) (hn : 0 < n) :
    (a % n + 1 < n → (a + 1) / n = a / n ∧ (a + 1) % n = a % n + 1) ∧
    (a % n + 1 = n → (a + 1) / n = a / n + 1 ∧ (a + 1) % n = 0) := by
  have h := Nat.div_add_mod a n
  constructor
  · intro hlt
    rw [Nat.div_mod_unique hn]
    exact ⟨by omega, hlt⟩
  · intro heq
    rw [Nat.div_mod_unique hn]
    refine ⟨?_, hn⟩
    rw [Nat.mul_add, Nat.mul_one]
    omega

theorem barrierInv_start (n : Nat) : BarrierInv n (BarrierSystem.start n) := by
  refine ⟨by simp [BarrierSystem.start], rfl, by simp [BarrierSystem.start, Barrier.create],
    by simp [BarrierSystem.start, Barrier.create], ?_, ?_⟩
  · intro t p k h
    simp only [BarrierSystem.start, List.getElem?_replicate] at h
    split_ifs at h
    simp at h
  · simp only [BarrierSystem.start, Nat.zero_div, Nat.zero_mod]
    rw [List.countP_replicate]
    simp [Participant.in_cycle]

/-- When all but one of the entries of a list satisfy `p` and entry `t` does not, every
other entry does. -/
theorem all_others_of_countP {α : Type} (p : α → Bool) (l : List α) (x : α) (hx : p x = true)
    (t t' : Nat) (ht : t < l.length) (ht' : t' < l.length) (hne : t' ≠ t)
    (hcount : l.countP p + 1 = l.length) (hpt : p l[t] = false) : p l[t'] = true := by
  have hset : (l.set t x).countP p = (l.set t x).length := by
    rw [List.countP_set p l t x ht, List.length_set, hpt, hx]
    simp
    omega
  rw [List.countP_eq_length] at hset
  have hmem : l[t'] ∈ l.set t x := by
    have : (l.set t x)[t']? = some l[t'] := by
      rw [List.getElem?_set, if_neg (Ne.symm hne), List.getElem?_eq_getElem ht']
    exact List.mem_iff_getElem?.2 ⟨t', this⟩
  exact hset _ hmem

theorem barrierInv_arrive (n : Nat) (hn : 1 ≤ n) (s : BarrierSystem) (t : Nat)
    (hinv : BarrierInv n s) (ht : s.threads[t]? = some Participant.running) :
    BarrierInv n (arrive s t) := by
  obtain ⟨hlen, hexp, hcnt, hph, hblk, hcur⟩ := hinv
  have hmod : s.arrivals % n < n := Nat.mod_lt _ (by omega)
  obtain ⟨hsucc1, hsucc2⟩ := succ_div_mod n s.arrivals (by omega)
  have htlt : t < s.threads.length := by
    by_contra hge
    rw [List.getElem?_eq_none (by omega)] at ht
    simp at ht
  have htrun : s.threads[t] = Participant.running := by
    rw [List.getElem?_eq_getElem htlt] at ht
    exact Option.some.inj ht
  unfold arrive
  simp only []
  by_cases hrel : s.barrier.current_count + 1 = s.barrier.expected_count
  · -- the arrival that completes the cycle
    rw [if_pos hrel]
    have hr : s.arrivals % n + 1 = n := by
      rw [hcnt, hexp] at hrel
      exact_mod_cast hrel
    obtain ⟨hq, hm⟩ := hsucc2 hr
    have hall : ∀ t' p k : Nat, s.threads[t']? = some (Participant.waiting p k) →
        k / n = s.arrivals / n := by
      intro t' p k h
      have ht'lt : t' < s.threads.length := by
        by_contra hge
        rw [List.getElem?_eq_none (by omega)] at h
        simp at h
      have hne : t' ≠ t := by
        intro he
        rw [he, ht] at h
        simp at h
      have := all_others_of_countP (Participant.in_cycle n (s.arrivals / n)) s.threads
        (Participant.waiting 0 s.arrivals) (by simp [Participant.in_cycle]) t t' htlt ht'lt hne
        (by rw [hcur, hlen]; exact hr) (by rw [htrun]; rfl)
      rw [List.getElem?_eq_getElem ht'lt] at h
      rw [Option.some.inj h] at this
      simpa [Participant.in_cycle] using this
    refine ⟨hlen, hexp, ?_, ?_, ?_, ?_⟩
    · simp only [hm]; rfl
    · simp only [hq, hph]; omega
    · intro t' p k h
      obtain ⟨h1, h2, _, _⟩ := hblk t' p k h
      have := hall t' p k h
      simp only [hq]
      exact ⟨h1, h2, by omega, by omega⟩
    · simp only [hq, hm]
      rw [List.countP_eq_zero]
      intro a ha
      obtain ⟨t', ht'⟩ := List.mem_iff_getElem?.1 ha
      cases a with
      | running => simp [Participant.in_cycle]
      | waiting p k =>
        have := hall t' p k ht'
        simp [Participant.in_cycle, this]
  · -- any other arrival blocks
    rw [if_neg hrel]
    have hr : s.arrivals % n + 1 < n := by
      rw [hcnt, hexp] at hrel
      have : ¬ (s.arrivals % n + 1 = n) := fun h => hrel (by exact_mod_cast h)
      omega
    obtain ⟨hq, hm⟩ := hsucc1 hr
    refine ⟨by simp [hlen], hexp, ?_, ?_, ?_, ?_⟩
    · simp only [hm, hcnt]; push_cast; rfl
    · simp only [hq, hph]
    · intro t' p k h
      rw [List.getElem?_set] at h
      by_cases h1 : t = t'
      · rw [if_pos h1, if_pos htlt] at h
        simp only [Option.some.injEq, Participant.waiting.injEq] at h
        obtain ⟨rfl, rfl⟩ := h
        simp only [hq]
        exact ⟨hph, by omega, Nat.lt_succ_self _, by omega⟩
      · rw [if_neg h1] at h
        simp only [hq]
        obtain ⟨h2, h3, h4, h5⟩ := hblk t' p k h
        exact ⟨h2, h3, by omega, h5⟩
    · simp only [hq, hm]
      rw [List.countP_set _ _ _ _ htlt, htrun, hcur]
      simp [Participant.in_cycle]

theorem barrierInv_wake (n : Nat) (s : BarrierSystem) (t p k : Nat)
    (hinv : BarrierInv n s) (ht : s.threads[t]? = some (Participant.waiting p k))
    (hp : wait_predicate s.barrier p = true) : BarrierInv n (wake s t) := by
  obtain ⟨hlen, hexp, hcnt, hph, hblk, hcur⟩ := hinv
  have htlt : t < s.threads.length := by
    by_contra hge
    rw [List.getElem?_eq_none (by omega)] at ht
    simp at ht
  have htw : s.threads[t] = Participant.waiting p k := by
    rw [List.getElem?_eq_getElem htlt] at ht
    exact Option.some.inj ht
  have hstale : k / n ≠ s.arrivals / n := by
    intro he
    obtain ⟨h1, _⟩ := hblk t p k ht
    simp only [wait_predicate, bne_iff_ne, ne_eq] at hp
    exact hp (by rw [hph, h1, he])
  unfold wake
  refine ⟨by simp [hlen], hexp, hcnt, hph, ?_, ?_⟩
  · intro t' p' k' h
    rw [List.getElem?_set] at h
    by_cases h1 : t = t'
    · rw [if_pos h1, if_pos htlt] at h
      simp at h
    · rw [if_neg h1] at h
      exact hblk t' p' k' h
  · simp only []
    rw [List.countP_set _ _ _ _ htlt, htw, hcur]
    simp [Participant.in_cycle, hstale]

/-- Every reachable state of a barrier for `n ≥ 1` participants satisfies the invariant. -/
theorem barrierInv_of_reachable (n : Nat) (hn : 1 ≤ n) (s : BarrierSystem)
    (hs : BarrierReachable n s) : BarrierInv n s := by
  induction hs with
  | start => exact barrierInv_start n
  | step s s' _ hstep ih =>
    cases hstep with
    | arrive t h => exact barrierInv_arrive n hn s t ih h
    | wake t p k h hp => exact barrierInv_wake n s t p k ih h hp

/-- The two ways an arrival can go, in a state that satisfies the invariant: it completes
the cycle, and then every other participant is blocked on an arrival of this cycle, or it
blocks. -/
theorem arrive_cases (n : Nat) (hn : 1 ≤ n) (s : BarrierSystem) (t : Nat)
    (hinv : BarrierInv n s) (ht : s.threads[t]? = some Participant.running) :
    ((arrive s t).threads = s.threads ∧ (arrive s t).arrivals = s.arrivals + 1 ∧
      (s.arrivals + 1) / n = s.arrivals / n + 1 ∧
      ∀ t' : Nat, t' ≠ t → t' < n →
        ∃ p k, s.threads[t']? = some (Participant.waiting p k) ∧ k / n = s.arrivals / n) ∨
    ((arrive s t).threads = s.threads.set t (Participant.waiting s.barrier.phase s.arrivals) ∧
      (arrive s t).arrivals = s.arrivals + 1 ∧ (s.arrivals + 1) / n = s.arrivals / n) := by
  obtain ⟨hlen, hexp, hcnt, hph, hblk, hcur⟩ := hinv
  have hmod : s.arrivals % n < n := Nat.mod_lt _ (by omega)
  obtain ⟨hsucc1, hsucc2⟩ := succ_div_mod n s.arrivals (by omega)
  have htlt : t < s.threads.length := by
    by_contra hge
    rw [List.getElem?_eq_none (by omega)] at ht
    simp at ht
  have htrun : s.threads[t] = Participant.running := by
    rw [List.getElem?_eq_getElem htlt] at ht
    exact Option.some.inj ht
  unfold arrive
  simp only []
  by_cases hrel : s.barrier.current_count + 1 = s.barrier.expected_count
  · left
    rw [if_pos hrel]
    have hr : s.arrivals % n + 1 = n := by
      rw [hcnt, hexp] at hrel
      exact_mod_cast hrel
    refine ⟨rfl, rfl, (hsucc2 hr).1, fun t' hne ht' => ?_⟩
    have ht'lt : t' < s.threads.length := by omega
    have := all_others_of_countP (Participant.in_cycle n (s.arrivals / n)) s.threads
      (Participant.waiting 0 s.arrivals) (by simp [Participant.in_cycle]) t t' htlt ht'lt hne
      (by rw [hcur, hlen]; exact hr) (by rw [htrun]; rfl)
    rw [List.getElem?_eq_getElem ht'lt]
    cases hth : s.threads[t'] with
    | running => rw [hth] at this; simp [Participant.in_cycle] at this
    | waiting p k =>
      rw [hth] at this
      exact ⟨p, k, rfl, by simpa [Participant.in_cycle] using this⟩
  · right
    rw [if_neg hrel]
    have hr : s.arrivals % n + 1 < n := by
      rw [hcnt, hexp] at hrel
      have : ¬ (s.arrivals % n + 1 = n) := fun h => hrel (by exact_mod_cast h)
      omega
    exact ⟨rfl, rfl, (hsucc1 hr).1⟩


/-! ## Invariant of `barrier_test` -/

/-- A blocked participant whose wait predicate holds was blocked on an arrival of the
cycle before the current one. -/
theorem cycle_of_released (n : Nat) (s : BarrierSystem) (t p k : Nat) (hinv : BarrierInv n s)
    (ht : s.threads[t]? = some (Participant.waiting p k))
    (hp : wait_predicate s.barrier p = true) : s.arrivals / n = k / n + 1 := by
  obtain ⟨h1, _, h3, h4⟩ := hinv.blocked t p k ht
  simp only [wait_predicate, bne_iff_ne, ne_eq] at hp
  have hle : k / n ≤ s.arrivals / n := Nat.div_le_div_right (le_of_lt h3)
  have hne : k / n ≠ s.arrivals / n := fun he => hp (by rw [hinv.phase_eq, h1, he])
  omega

theorem lt_of_getElem?_eq_some {α : Type} (l : List α) (t : Nat) (a : α)
    (h : l[t]? = some a) : t < l.length := by
  by_contra hge
  rw [List.getElem?_eq_none (by omega)] at h
  simp at h

/-- Every thread of `barrier_test` has made as many calls as there are complete cycles, or
one more if it is blocked. -/
theorem calls_eq_cycle (n pc : Nat) (s : TestSystem) (hinv : TestInv n pc s) (t : Nat)
    (th : TestThread) (h : s.procs[t]? = some th) :
    th.in_loop pc ∧ (th.calls = s.bar.arrivals / n ∨
      (th.calls = s.bar.arrivals / n + 1 ∧ th.is_blocked = true)) := by
  have htn : t < n := by
    have := lt_of_getElem?_eq_some _ _ _ h
    rw [hinv.length_eq] at this
    exact this
  have htl : t < s.bar.threads.length := by rw [hinv.bar_inv.length_eq]; exact htn
  have hpa : s.bar.threads[t]? = some s.bar.threads[t] := List.getElem?_eq_getElem htl
  obtain ⟨h1, h2, h3⟩ := hinv.threads_ok t th _ h hpa
  refine ⟨h1, ?_⟩
  cases hb : th.is_blocked with
  | false => exact Or.inl (h2 hb).2
  | true =>
    obtain ⟨p, k, hpk, hk⟩ := h3 hb
    rw [hpk] at hpa
    obtain ⟨_, _, h5, h6⟩ := hinv.bar_inv.blocked t p k hpa
    have hle : k / n ≤ s.bar.arrivals / n := Nat.div_le_div_right (le_of_lt h5)
    clear h5
    generalize k / n = q at *
    generalize s.bar.arrivals / n = c at *
    have hcq : c = q ∨ c = q + 1 := by omega
    rcases hcq with h | h
    · exact Or.inr ⟨by omega, rfl⟩
    · exact Or.inl (by omega)

/-- While a thread is about to print its letter in iteration `i`, exactly `i` lines are
complete. -/
theorem lines_ended_of_letter (n pc : Nat) (s : TestSystem) (hinv : TestInv n pc s)
    (t i : Nat) (th0 : TestThread) (h : s.procs[t]? = some { point := TestPoint.letter, i := i })
    (h0 : s.procs[0]? = some th0) : th0.lines_ended = i := by
  obtain ⟨hl, hc⟩ := calls_eq_cycle n pc s hinv t _ h
  obtain ⟨hl0, hc0⟩ := calls_eq_cycle n pc s hinv 0 th0 h0
  obtain ⟨pt, i0⟩ := th0
  cases pt <;>
    simp [TestThread.calls, TestThread.is_blocked, TestThread.in_loop,
      TestThread.lines_ended] at hl hc hl0 hc0 ⊢ <;> omega

/-- While thread `0` is about to end line `i`, every thread has printed its letter of
iteration `i`, and no more. -/
theorem printed_of_newline (n pc : Nat) (s : TestSystem) (hinv : TestInv n pc s)
    (t i : Nat) (th : TestThread) (h0 : s.procs[0]? = some { point := TestPoint.newline, i := i })
    (h : s.procs[t]? = some th) : th.printed = i + 1 := by
  obtain ⟨hl, hc⟩ := calls_eq_cycle n pc s hinv t _ h
  obtain ⟨hl0, hc0⟩ := calls_eq_cycle n pc s hinv 0 _ h0
  obtain ⟨pt, i'⟩ := th
  cases pt <;>
    simp [TestThread.calls, TestThread.is_blocked, TestThread.in_loop,
      TestThread.printed] at hl hc hl0 hc0 ⊢ <;> omega

/-- A step that writes nothing and moves a thread to a point with the same numbers of
printed letters and ended lines keeps the description of the output. -/
theorem outputInv_set (n : Nat) (procs : List TestThread) (output : List Char) (t : Nat)
    (th th' : TestThread) (h : procs[t]? = some th) (hp : th'.printed = th.printed)
    (hl : t = 0 → th'.lines_ended = th.lines_ended) (hout : OutputInv n procs output) :
    OutputInv n (procs.set t th') output := by
  obtain ⟨lines, ts, h1, h2, h3, h4, h5, h6⟩ := hout
  have htl := lt_of_getElem?_eq_some _ _ _ h
  refine ⟨lines, ts, h1, h2, h3, h4, fun t' x hx => ?_, fun x hx => ?_⟩
  · rw [List.getElem?_set] at hx
    by_cases he : t = t'
    · rw [if_pos he, if_pos htl] at hx
      have hx' : x = th' := (Option.some.inj hx).symm
      subst he
      rw [hx', hp]
      exact h5 t th h
    · rw [if_neg he] at hx
      exact h5 t' x hx
  · rw [List.getElem?_set] at hx
    by_cases he : t = 0
    · rw [if_pos he, if_pos htl] at hx
      have hx' : x = th' := (Option.some.inj hx).symm
      rw [hx', hl he]
      subst he
      exact h6 th h
    · rw [if_neg he] at hx
      exact h6 x hx

/-- Printing a letter keeps the invariant. -/
theorem testInv_print_letter (n pc : Nat) (s : TestSystem) (t i : Nat) (hinv : TestInv n pc s)
    (h : s.procs[t]? = some { point := TestPoint.letter, i := i }) :
    TestInv n pc
      { s with
        output := s.output ++ [thread_letter t],
        procs := s.procs.set t { point := TestPoint.first, i := i } } := by
  have htl := lt_of_getElem?_eq_some _ _ _ h
  have htn : t < n := by rw [← hinv.length_eq]; exact htl
  refine ⟨hinv.bar_inv, by simp [hinv.length_eq], fun t' th pa hth hpa => ?_, ?_⟩
  · simp only [List.getElem?_set] at hth
    by_cases he : t = t'
    · rw [if_pos he, if_pos htl] at hth
      have hx : th = { point := TestPoint.first, i := i } := (Option.some.inj hth).symm
      subst he
      have := hinv.threads_ok t _ pa h hpa
      rw [hx]
      simpa [TestThread.in_loop, TestThread.is_blocked, TestThread.calls] using this
    · rw [if_neg he] at hth
      exact hinv.threads_ok t' th pa hth hpa
  · obtain ⟨lines, ts, h1, h2, h3, h4, h5, h6⟩ := hinv.output_ok
    have h0 : s.procs[0]? = some s.procs[0] :=
      List.getElem?_eq_getElem (by omega)
    have hL : lines.length = i := by
      rw [← h6 _ h0]
      exact lines_ended_of_letter n pc s hinv t i _ h h0
    have hnot : t ∉ ts := by
      rw [h5 t _ h]
      simp [TestThread.printed, hL]
    refine ⟨lines, ts ++ [t], ?_, h2, ?_, ?_, fun t' x hx => ?_, fun x hx => ?_⟩
    · simp only [h1, output_of, List.map_append, List.map_cons, List.map_nil, List.append_assoc]
    · exact List.Nodup.append h3 (List.nodup_singleton t) (by simpa using hnot)
    · intro x hx
      rcases List.mem_append.1 hx with hx | hx
      · exact h4 x hx
      · rw [List.mem_singleton.1 hx]; exact htn
    · simp only [List.getElem?_set] at hx
      by_cases he : t = t'
      · rw [if_pos he, if_pos htl] at hx
        have hx' : x = { point := TestPoint.first, i := i } := (Option.some.inj hx).symm
        subst he
        rw [hx']
        simp [TestThread.printed, hL]
      · rw [if_neg he] at hx
        rw [← h5 t' x hx]
        simp [Ne.symm he]
    · simp only [List.getElem?_set] at hx
      by_cases he : t = 0
      · rw [if_pos he, if_pos htl] at hx
        have hx' : x = { point := TestPoint.first, i := i } := (Option.some.inj hx).symm
        rw [hx']
        simp [TestThread.lines_ended, hL]
      · rw [if_neg he] at hx
        exact h6 x hx

theorem output_of_end_line (lines : List (List Char)) (ts : List Nat) :
    output_of lines ts ++ ['\n'] = output_of (lines ++ [ts.map thread_letter]) [] := by
  simp [output_of, List.flatten_append]

/-- A list without repetitions that holds exactly the numbers below `n` is a permutation
of `List.range n`. -/
theorem perm_range_of_nodup (n : Nat) (ts : List Nat) (hnd : ts.Nodup)
    (h : ∀ t, t ∈ ts ↔ t < n) : ts.Perm (List.range n) := by
  rw [List.perm_ext_iff_of_nodup hnd (List.nodup_range n)]
  intro a
  rw [h a, List.mem_range]

/-- Passing the output of the line end keeps the invariant. -/
theorem testInv_print_newline (n pc : Nat) (s : TestSystem) (t i : Nat) (hinv : TestInv n pc s)
    (h : s.procs[t]? = some { point := TestPoint.newline, i := i }) :
    TestInv n pc
      { s with
        output := if t = 0 then s.output ++ ['\n'] else s.output,
        procs := s.procs.set t { point := TestPoint.second, i := i } } := by
  have htl := lt_of_getElem?_eq_some _ _ _ h
  have htn : t < n := by rw [← hinv.length_eq]; exact htl
  refine ⟨hinv.bar_inv, by simp [hinv.length_eq], fun t' th pa hth hpa => ?_, ?_⟩
  · simp only [List.getElem?_set] at hth
    by_cases he : t = t'
    · rw [if_pos he, if_pos htl] at hth
      have hx : th = { point := TestPoint.second, i := i } := (Option.some.inj hth).symm
      subst he
      have := hinv.threads_ok t _ pa h hpa
      rw [hx]
      simpa [TestThread.in_loop, TestThread.is_blocked, TestThread.calls] using this
    · rw [if_neg he] at hth
      exact hinv.threads_ok t' th pa hth hpa
  · by_cases ht0 : t = 0
    · subst ht0
      simp only [if_true]
      obtain ⟨lines, ts, h1, h2, h3, h4, h5, h6⟩ := hinv.output_ok
      have hL : lines.length = i := by
        rw [← h6 _ h]
        rfl
      have hall : ∀ t', t' ∈ ts ↔ t' < n := by
        intro t'
        constructor
        · exact h4 t'
        · intro ht'
          have ht'l : t' < s.procs.length := by rw [hinv.length_eq]; exact ht'
          have hth : s.procs[t']? = some s.procs[t'] := List.getElem?_eq_getElem ht'l
          rw [h5 t' _ hth, printed_of_newline n pc s hinv t' i _ h hth, hL]
      refine ⟨lines ++ [ts.map thread_letter], [], ?_, ?_, List.nodup_nil, by simp,
        fun t' x hx => ?_, fun x hx => ?_⟩
      · rw [h1, output_of_end_line]
      · intro l hl
        rcases List.mem_append.1 hl with hl | hl
        · exact h2 l hl
        · rw [List.mem_singleton.1 hl]
          exact (perm_range_of_nodup n ts h3 hall).map thread_letter
      · simp only [List.getElem?_set] at hx
        have hpr : x.printed = i + 1 := by
          by_cases he : 0 = t'
          · rw [if_pos he, if_pos htl] at hx
            rw [← Option.some.inj hx]
            rfl
          · rw [if_neg he] at hx
            exact printed_of_newline n pc s hinv t' i _ h hx
        simp [hpr, hL]
      · simp only [List.getElem?_set, if_true, if_pos htl] at hx
        rw [← Option.some.inj hx]
        simp [TestThread.lines_ended, hL]
    · simp only [if_neg ht0]
      exact outputInv_set n s.procs s.output t _ _ h rfl (fun h0 => absurd h0 ht0)
        hinv.output_ok

/-- A call of `arrive_and_wait` by a thread that is not blocked keeps the invariant. -/
theorem testInv_call (n pc : Nat) (hn : 1 ≤ n) (s : TestSystem) (t : Nat)
    (th blocked_at returned_at : TestThread) (hinv : TestInv n pc s)
    (h : s.procs[t]? = some th) (hnb : th.is_blocked = false)
    (hb1 : blocked_at.is_blocked = true) (hb2 : blocked_at.calls = th.calls + 1)
    (hb3 : blocked_at.in_loop pc) (hb4 : blocked_at.printed = th.printed)
    (hb5 : blocked_at.lines_ended = th.lines_ended)
    (hr1 : returned_at.is_blocked = false) (hr2 : returned_at.calls = th.calls + 1)
    (hr3 : returned_at.in_loop pc) (hr4 : returned_at.printed = th.printed)
    (hr5 : returned_at.lines_ended = th.lines_ended) :
    TestInv n pc (call_barrier s t blocked_at returned_at) := by
  have htl := lt_of_getElem?_eq_some _ _ _ h
  have htn : t < n := by rw [← hinv.length_eq]; exact htl
  have htb : t < s.bar.threads.length := by rw [hinv.bar_inv.length_eq]; exact htn
  have hpa : s.bar.threads[t]? = some s.bar.threads[t] := List.getElem?_eq_getElem htb
  obtain ⟨_, hrun, _⟩ := hinv.threads_ok t th _ h hpa
  obtain ⟨hrun, hcalls⟩ := hrun hnb
  rw [hrun] at hpa
  have hbar := barrierInv_arrive n hn s.bar t hinv.bar_inv hpa
  unfold call_barrier
  rcases arrive_cases n hn s.bar t hinv.bar_inv hpa with ⟨hth, harr, hdiv, hothers⟩ |
    ⟨hth, harr, hdiv⟩
  · -- the call completes the cycle and returns
    have hret : (arrive s.bar t).threads[t]? = some Participant.running := by rw [hth]; exact hpa
    rw [if_pos hret]
    refine ⟨hbar, by simp [hinv.length_eq], fun t' x pa hx hpa' => ?_,
      outputInv_set n s.procs s.output t th returned_at h hr4 (fun _ => hr5) hinv.output_ok⟩
    simp only [List.getElem?_set] at hx
    simp only [hth, harr, hdiv] at hpa' ⊢
    by_cases he : t = t'
    · rw [if_pos he, if_pos htl] at hx
      have hx' : x = returned_at := (Option.some.inj hx).symm
      subst he
      rw [hpa] at hpa'
      rw [hx']
      refine ⟨hr3, fun _ => ⟨(Option.some.inj hpa').symm, by omega⟩, fun hb => ?_⟩
      rw [hr1] at hb
      simp at hb
    · rw [if_neg he] at hx
      have ht'n : t' < n := by
        have := lt_of_getElem?_eq_some _ _ _ hx
        rw [hinv.length_eq] at this
        exact this
      obtain ⟨p, k, hpk, _⟩ := hothers t' (Ne.symm he) ht'n
      obtain ⟨h1, h2, h3⟩ := hinv.threads_ok t' x pa hx hpa'
      refine ⟨h1, fun hb => ?_, h3⟩
      have := (h2 hb).1
      rw [hpk] at hpa'
      rw [this] at hpa'
      simp at hpa'
  · -- the call blocks
    have hblk : ¬ ((arrive s.bar t).threads[t]? = some Participant.running) := by
      rw [hth, List.getElem?_set, if_pos rfl, if_pos htb]
      simp
    rw [if_neg hblk]
    refine ⟨hbar, by simp [hinv.length_eq], fun t' x pa hx hpa' => ?_,
      outputInv_set n s.procs s.output t th blocked_at h hb4 (fun _ => hb5) hinv.output_ok⟩
    simp only [List.getElem?_set] at hx
    simp only [hth, harr, hdiv, List.getElem?_set] at hpa' ⊢
    by_cases he : t = t'
    · rw [if_pos he, if_pos htl] at hx
      rw [if_pos he, if_pos htb] at hpa'
      have hx' : x = blocked_at := (Option.some.inj hx).symm
      rw [hx']
      refine ⟨hb3, fun hb => ?_, fun _ => ⟨_, _, (Option.some.inj hpa').symm, by omega⟩⟩
      rw [hb1] at hb
      simp at hb
    · rw [if_neg he] at hx hpa'
      exact hinv.threads_ok t' x pa hx hpa'

/-- The return of a blocked thread from `arrive_and_wait` keeps the invariant. -/
theorem testInv_leave (n pc : Nat) (s : TestSystem) (t p k : Nat)
    (th returned_at : TestThread) (hinv : TestInv n pc s)
    (h : s.procs[t]? = some th) (hb : th.is_blocked = true)
    (hw : s.bar.threads[t]? = some (Participant.waiting p k))
    (hp : wait_predicate s.bar.barrier p = true)
    (hr1 : returned_at.is_blocked = false) (hr2 : returned_at.calls = th.calls)
    (hr3 : returned_at.in_loop pc) (hr4 : returned_at.printed = th.printed)
    (hr5 : returned_at.lines_ended = th.lines_ended) :
    TestInv n pc (leave_barrier s t returned_at) := by
  have htl := lt_of_getElem?_eq_some _ _ _ h
  have htb := lt_of_getElem?_eq_some _ _ _ hw
  have hbar := barrierInv_wake n s.bar t p k hinv.bar_inv hw hp
  have hcyc := cycle_of_released n s.bar t p k hinv.bar_inv hw hp
  obtain ⟨_, _, hblk⟩ := hinv.threads_ok t th _ h hw
  obtain ⟨p', k', hpk, hk⟩ := hblk hb
  simp only [Participant.waiting.injEq] at hpk
  obtain ⟨rfl, rfl⟩ := hpk
  unfold leave_barrier
  refine ⟨hbar, by simp [hinv.length_eq], fun t' x pa hx hpa' => ?_,
    outputInv_set n s.procs s.output t th returned_at h hr4 (fun _ => hr5) hinv.output_ok⟩
  simp only [List.getElem?_set] at hx
  simp only [wake, List.getElem?_set] at hpa' ⊢
  by_cases he : t = t'
  · rw [if_pos he, if_pos htl] at hx
    rw [if_pos he, if_pos htb] at hpa'
    have hx' : x = returned_at := (Option.some.inj hx).symm
    rw [hx']
    refine ⟨hr3, fun _ => ⟨(Option.some.inj hpa').symm, by omega⟩, fun hb' => ?_⟩
    rw [hr1] at hb'
    simp at hb'
  · rw [if_neg he] at hx hpa'
    exact hinv.threads_ok t' x pa hx hpa'

theorem testInv_start (n pc : Nat) : TestInv n pc (TestSystem.start n pc) := by
  refine ⟨barrierInv_start n, by simp [TestSystem.start], fun t th pa hth hpa => ?_, ?_⟩
  · simp only [TestSystem.start, BarrierSystem.start, List.getElem?_replicate] at hth hpa
    by_cases htn : t < n
    · rw [if_pos htn] at hth hpa
      have hpa' : pa = Participant.running := (Option.some.inj hpa).symm
      have hth' := (Option.some.inj hth).symm
      subst hpa'
      by_cases hpc : 0 < pc
      · rw [if_pos hpc] at hth'
        subst hth'
        simp [TestThread.in_loop, TestThread.is_blocked, TestThread.calls, TestSystem.start,
          BarrierSystem.start, hpc]
      · rw [if_neg hpc] at hth'
        subst hth'
        simp [TestThread.in_loop, TestThread.is_blocked, TestThread.calls, TestSystem.start,
          BarrierSystem.start]
        omega
    · rw [if_neg htn] at hth
      simp at hth
  · refine ⟨[], [], rfl, by simp, List.nodup_nil, by simp, fun t th hth => ?_, fun th hth => ?_⟩
    · simp only [TestSystem.start, List.getElem?_replicate] at hth
      by_cases htn : t < n
      · rw [if_pos htn] at hth
        rw [← Option.some.inj hth]
        by_cases hpc : 0 < pc
        · simp [TestThread.printed, hpc]
        · simp [TestThread.printed, hpc]
      · rw [if_neg htn] at hth
        simp at hth
    · simp only [TestSystem.start, List.getElem?_replicate] at hth
      by_cases htn : 0 < n
      · rw [if_pos htn] at hth
        rw [← Option.some.inj hth]
        by_cases hpc : 0 < pc
        · simp [TestThread.lines_ended, hpc]
        · simp [TestThread.lines_ended, hpc]
      · rw [if_neg htn] at hth
        simp at hth

theorem next_iteration_facts (pc i : Nat) (hi : i < pc) :
    (next_iteration pc i).is_blocked = false ∧ (next_iteration pc i).calls = 2 * i + 2 ∧
    (next_iteration pc i).in_loop pc ∧ (next_iteration pc i).printed = i + 1 ∧
    (next_iteration pc i).lines_ended = i + 1 := by
  unfold next_iteration
  split_ifs with h
  · simp [TestThread.is_blocked, TestThread.calls, TestThread.in_loop, TestThread.printed,
      TestThread.lines_ended, h]
    omega
  · simp [TestThread.is_blocked, TestThread.calls, TestThread.in_loop, TestThread.printed,
      TestThread.lines_ended]
    omega

/-- Every step of `barrier_test` keeps the invariant. -/
theorem testInv_step (n pc : Nat) (hn : 1 ≤ n) (s s' : TestSystem) (hinv : TestInv n pc s)
    (hstep : TestStep pc s s') : TestInv n pc s' := by
  cases hstep with
  | print_letter t i h => exact testInv_print_letter n pc s t i hinv h
  | first_call t i h =>
    have hl := (calls_eq_cycle n pc s hinv t _ h).1
    exact testInv_call n pc hn s t _ _ _ hinv h rfl rfl rfl hl rfl rfl rfl rfl hl rfl rfl
  | first_return t i p k h hw hp =>
    have hl := (calls_eq_cycle n pc s hinv t _ h).1
    exact testInv_leave n pc s t p k _ _ hinv h rfl hw hp rfl rfl hl rfl rfl
  | print_newline t i h => exact testInv_print_newline n pc s t i hinv h
  | second_call t i h =>
    have hl := (calls_eq_cycle n pc s hinv t _ h).1
    have hi : i < pc := by simpa [TestThread.in_loop] using hl
    obtain ⟨f1, f2, f3, f4, f5⟩ := next_iteration_facts pc i hi
    exact testInv_call n pc hn s t _ _ _ hinv h rfl rfl rfl hl rfl rfl f1 f2 f3 f4 f5
  | second_return t i p k h hw hp =>
    have hl := (calls_eq_cycle n pc s hinv t _ h).1
    have hi : i < pc := by simpa [TestThread.in_loop] using hl
    obtain ⟨f1, f2, f3, f4, f5⟩ := next_iteration_facts pc i hi
    exact testInv_leave n pc s t p k _ _ hinv h rfl hw hp f1 f2 f3 f4 f5

theorem testInv_of_reachable (n pc : Nat) (hn : 1 ≤ n) (s : TestSystem)
    (hs : TestReachable n pc s) : TestInv n pc s := by
  induction hs with
  | start => exact testInv_start n pc
  | step s s' _ hstep ih => exact testInv_step n pc hn s s' ih hstep

/-- In every state `barrier_test` can reach, the output is a sequence of complete lines,
each holding the letter of every thread exactly once, followed by a line in progress that
holds no letter twice; when all threads have finished, there are `phase_count` complete
lines and nothing else. -/
theorem barrier_test_output (n pc : Nat) (hn : 1 ≤ n) (s : TestSystem)
    (hs : TestReachable n pc s) :
    ∃ (lines : List (List Char)) (ts : List Nat),
      s.output = output_of lines ts ∧
      (∀ l, l ∈ lines → l.Perm ((List.range n).map thread_letter)) ∧
      ts.Nodup ∧ (∀ t, t ∈ ts → t < n) ∧
      ((∀ th, th ∈ s.procs → th.point = TestPoint.finished) →
        lines.length = pc ∧ ts = []) := by
  have hinv := testInv_of_reachable n pc hn s hs
  obtain ⟨lines, ts, h1, h2, h3, h4, h5, h6⟩ := hinv.output_ok
  refine ⟨lines, ts, h1, h2, h3, h4, fun hfin => ?_⟩
  have hfin' : ∀ (t : Nat) (th : TestThread), s.procs[t]? = some th →
      th.printed = pc ∧ th.lines_ended = pc := by
    intro t th hth
    have hp := hfin th (List.mem_iff_getElem?.2 ⟨t, hth⟩)
    have hl := (calls_eq_cycle n pc s hinv t th hth).1
    obtain ⟨pt, i⟩ := th
    simp only at hp
    subst hp
    simp only [TestThread.in_loop, if_true] at hl
    simp [TestThread.printed, TestThread.lines_ended, hl]
  have h0l : 0 < s.procs.length := by rw [hinv.length_eq]; exact hn
  have h0 : s.procs[0]? = some s.procs[0] := List.getElem?_eq_getElem h0l
  have hL : lines.length = pc := by rw [← h6 _ h0]; exact (hfin' 0 _ h0).2
  refine ⟨hL, List.eq_nil_iff_forall_not_mem.2 fun t ht => ?_⟩
  have htl : t < s.procs.length := by rw [hinv.length_eq]; exact h4 t ht
  have hth : s.procs[t]? = some s.procs[t] := List.getElem?_eq_getElem htl
  have := (h5 t _ hth).1 ht
  rw [(hfin' t _ hth).1, hL] at this
  omega

theorem thread_letters_six :
    (List.range 6).map thread_letter = ['A', 'B', 'C', 'D', 'E', 'F'] := by decide

/-- A complete run of `barrier_test_helper` with one thread and one iteration: it writes
the letter and the line end, and finishes. -/
theorem barrier_test_run_example :
    ∃ s, TestReachable 1 1 s ∧ s.output = ['A', '\n'] ∧
      ∀ th, th ∈ s.procs → th.point = TestPoint.finished := by
  refine ⟨_, TestReachable.step _ _ (TestReachable.step _ _ (TestReachable.step _ _
    (TestReachable.step _ _ TestReachable.start
      (TestStep.print_letter _ 0 0 (by decide)))
      (TestStep.first_call _ 0 0 (by decide)))
      (TestStep.print_newline _ 0 0 (by decide)))
      (TestStep.second_call _ 0 0 (by decide)), by decide, by decide⟩

/-! ## Claim about the barrier -/

/-- Claim C10. For a barrier constructed for `n ≥ 1` participants, in every state it can
reach, over any number of cycles: a participant blocked in `arrive_and_wait` made an
arrival `k` that was not the `n`-th of its cycle, and its wait predicate can hold (so that
it can return) only when the `n`-th arrival of that cycle, arrival `(k / n + 1) * n`,
has been made; a call that is not the `n`-th arrival of its cycle blocks on the phase it
captures, and the `n`-th arrival of a cycle returns at once.  In `barrier_test`, with six
threads and ten iterations, every complete line of the output holds each of the letters
`A` to `F` exactly once, the line in progress holds no letter twice, and when all threads
have finished the output consists of ten complete lines. -/
theorem barrier_no_early_release (n : Nat) (s : BarrierSystem) (hn : 1 ≤ n)
    (hs : BarrierReachable n s) :
    (∀ t p k : Nat, s.threads[t]? = some (Participant.waiting p k) →
      (k + 1) % n ≠ 0 ∧ k < s.arrivals ∧
        (wait_predicate s.barrier p = true → (k / n + 1) * n ≤ s.arrivals)) ∧
    (∀ t : Nat, s.threads[t]? = some Participant.running → (s.arrivals + 1) % n ≠ 0 →
      (arrive s t).threads[t]? = some (Participant.waiting s.barrier.phase s.arrivals) ∧
        wait_predicate (arrive s t).barrier s.barrier.phase = false) ∧
    (∀ t : Nat, s.threads[t]? = some Participant.running → (s.arrivals + 1) % n = 0 →
      (arrive s t).threads[t]? = some Participant.running) ∧
    (∀ test : TestSystem, TestReachable 6 10 test →
      ∃ (lines : List (List Char)) (ts : List Nat),
        test.output = output_of lines ts ∧
        (∀ l, l ∈ lines → l.Perm ['A', 'B', 'C', 'D', 'E', 'F']) ∧
        ts.Nodup ∧ (∀ t, t ∈ ts → t < 6) ∧
        ((∀ th, th ∈ test.procs → th.point = TestPoint.finished) →
          lines.length = 10 ∧ ts = [])) := by
  obtain ⟨hlen, hexp, hcnt, hph, hblk, hcur⟩ := barrierInv_of_reachable n hn s hs
  obtain ⟨hsucc1, hsucc2⟩ := succ_div_mod n s.arrivals (by omega)
  have hmod : s.arrivals % n < n := Nat.mod_lt _ (by omega)
  have hrel : s.barrier.current_count + 1 = s.barrier.expected_count ↔
      s.arrivals % n + 1 = n := by
    rw [hcnt, hexp]
    exact_mod_cast Iff.rfl
  refine ⟨fun t p k h => ?_, fun t h hnot => ?_, fun t h hlast => ?_, fun test htest => ?_⟩
  · obtain ⟨h1, h2, h3, h4⟩ := hblk t p k h
    refine ⟨h2, h3, fun hp => ?_⟩
    simp only [wait_predicate, bne_iff_ne, ne_eq] at hp
    have hle : k / n ≤ s.arrivals / n := Nat.div_le_div_right (le_of_lt h3)
    have hne : k / n ≠ s.arrivals / n := fun he => hp (by rw [hph, h1, he])
    have heq : k / n + 1 = s.arrivals / n := by omega
    rw [heq]
    exact Nat.div_mul_le_self _ _
  · have htlt : t < s.threads.length := by
      by_contra hge
      rw [List.getElem?_eq_none (by omega)] at h
      simp at h
    have hne : ¬ (s.barrier.current_count + 1 = s.barrier.expected_count) := by
      rw [hrel]
      intro he
      exact hnot (hsucc2 he).2
    unfold arrive
    simp only []
    rw [if_neg hne]
    refine ⟨by simp [List.getElem?_set, htlt], by simp [wait_predicate]⟩
  · have heq : s.barrier.current_count + 1 = s.barrier.expected_count := by
      rw [hrel]
      by_contra hne
      have := (hsucc1 (by omega)).2
      omega
    unfold arrive
    simp only []
    rw [if_pos heq]
    exact h
  · have hout := barrier_test_output 6 10 (by norm_num) test htest
    rw [thread_letters_six] at hout
    exact hout

theorem barrier_no_early_release_witness :
    (1 ≤ 4 ∧ BarrierReachable 4 three_of_four_arrived) ∧
    (three_of_four_arrived.threads = [Participant.waiting 0 0, Participant.waiting 0 1,
        Participant.waiting 0 2, Participant.running] ∧
      wait_predicate three_of_four_arrived.barrier 0 = false ∧
      wait_predicate (arrive three_of_four_arrived 3).barrier 0 = true) ∧
    ((∀ t p k : Nat, three_of_four_arrived.threads[t]?
        = some (Participant.waiting p k) →
      (k + 1) % 4 ≠ 0 ∧ k < three_of_four_arrived.arrivals ∧
        (wait_predicate three_of_four_arrived.barrier p = true →
          (k / 4 + 1) * 4 ≤ three_of_four_arrived.arrivals)) ∧
    (∀ t : Nat, three_of_four_arrived.threads[t]?
        = some Participant.running →
      (three_of_four_arrived.arrivals + 1) % 4 ≠ 0 →
      (arrive three_of_four_arrived t).threads[t]?
          = some (Participant.waiting
            three_of_four_arrived.barrier.phase
            three_of_four_arrived.arrivals) ∧
        wait_predicate (arrive three_of_four_arrived t).barrier
          three_of_four_arrived.barrier.phase = false) ∧
    (∀ t : Nat, three_of_four_arrived.threads[t]?
        = some Participant.running →
      (three_of_four_arrived.arrivals + 1) % 4 = 0 →
      (arrive three_of_four_arrived t).threads[t]?
        = some Participant.running) ∧
    (∀ test : TestSystem, TestReachable 6 10 test →
      ∃ (lines : List (List Char)) (ts : List Nat),
        test.output = output_of lines ts ∧
        (∀ l, l ∈ lines → l.Perm ['A', 'B', 'C', 'D', 'E', 'F']) ∧
        ts.Nodup ∧ (∀ t, t ∈ ts → t < 6) ∧
        ((∀ th, th ∈ test.procs → th.point = TestPoint.finished) →
          lines.length = 10 ∧ ts = []))) :=
  have hr : BarrierReachable 4 three_of_four_arrived :=
    BarrierReachable.step _ _
      (BarrierReachable.step _ _
        (BarrierReachable.step _ _ BarrierReachable.start (BarrierStep.arrive _ 0 (by decide)))
        (BarrierStep.arrive _ 1 (by decide)))
      (BarrierStep.arrive _ 2 (by decide))
  ⟨⟨by norm_num, hr⟩, by decide, barrier_no_early_release 4 _ (by norm_num) hr⟩

/-! ## Claims about the counters of the barrier -/

theorem arrive_barrier (s : BarrierSystem) (t : Nat) :
    (arrive s t).barrier = critical_section s.barrier := by
  unfold arrive critical_section
  simp only []
  split_ifs <;> rfl

theorem arrive_arrivals (s : BarrierSystem) (t : Nat) :
    (arrive s t).arrivals = s.arrivals + 1 := by
  unfold arrive
  simp only []
  split_ifs <;> rfl

theorem critical_section_release (b : Barrier)
    (h : b.current_count + 1 = b.expected_count) :
    critical_section b = { b with current_count := 0, phase := (b.phase + 1) % 2 ^ 64 } := by
  unfold critical_section
  simp only []
  rw [if_pos h]

theorem critical_section_block (b : Barrier)
    (h : ¬ (b.current_count + 1 = b.expected_count)) :
    critical_section b = { b with current_count := b.current_count + 1 } := by
  unfold critical_section
  simp only []
  rw [if_neg h]

/-- The data members of the barrier after `k` critical sections. -/
theorem critical_section_iterate (n : Nat) (hn : 1 ≤ n) (k : Nat) :
    (critical_section^[k] (Barrier.create n)).expected_count = n ∧
    (critical_section^[k] (Barrier.create n)).current_count = ((k % n : Nat) : Int) ∧
    (critical_section^[k] (Barrier.create n)).phase = (k / n) % 2 ^ 64 := by
  induction k with
  | zero => simp [Barrier.create]
  | succ k ih =>
    obtain ⟨h1, h2, h3⟩ := ih
    rw [Function.iterate_succ_apply']
    obtain ⟨hs1, hs2⟩ := succ_div_mod n k (by omega)
    have hmod : k % n < n := Nat.mod_lt _ (by omega)
    generalize critical_section^[k] (Barrier.create n) = b at h1 h2 h3 ⊢
    by_cases hrel : b.current_count + 1 = b.expected_count
    · rw [critical_section_release b hrel]
      have hr : k % n + 1 = n := by
        rw [h1, h2] at hrel
        exact_mod_cast hrel
      obtain ⟨hq, hm⟩ := hs2 hr
      refine ⟨h1, ?_, ?_⟩
      · simp only [hm]; rfl
      · simp only [hq, h3]; omega
    · rw [critical_section_block b hrel]
      have hr : k % n + 1 < n := by
        rw [h1, h2] at hrel
        have : ¬ (k % n + 1 = n) := fun h => hrel (by exact_mod_cast h)
        omega
      obtain ⟨hq, hm⟩ := hs1 hr
      refine ⟨h1, ?_, ?_⟩
      · simp only [hm, h2]; push_cast; rfl
      · simp only [hq, h3]

/-- Claim C11. For a barrier constructed for `n ≥ 1` participants: after `k` critical
sections of `arrive_and_wait`, whoever runs them, the counter is `k mod n` and the phase
is `k div n` modulo `2 ^ 64`; in every state the barrier can reach (the lock is free
between two steps) the counter is at least `0` and below `n`, so that the incremented
counter never exceeds `n`, and the barrier is the one that `arrivals` critical sections
produce; a step leaves the phase as it is unless it is a release, that is an arrival that
finds the counter at `n - 1`, and a release increases the phase by exactly one (as a
`size_t`) and resets the counter. -/
theorem barrier_counters (n : Nat) (s : BarrierSystem) (hn : 1 ≤ n)
    (hs : BarrierReachable n s) :
    (∀ k : Nat, (critical_section^[k] (Barrier.create n)).current_count = ((k % n : Nat) : Int) ∧
      (critical_section^[k] (Barrier.create n)).phase = (k / n) % 2 ^ 64) ∧
    s.barrier = critical_section^[s.arrivals] (Barrier.create n) ∧
    0 ≤ s.barrier.current_count ∧ s.barrier.current_count < n ∧
    s.barrier.current_count + 1 ≤ s.barrier.expected_count ∧
    s.barrier.current_count = ((s.arrivals % n : Nat) : Int) ∧
    s.barrier.phase = (s.arrivals / n) % 2 ^ 64 ∧
    (s.barrier.phase + 1) % 2 ^ 64 ≠ s.barrier.phase ∧
    (∀ s' : BarrierSystem, BarrierStep s s' →
      s'.barrier.phase = s.barrier.phase ∨
      (s'.barrier.phase = (s.barrier.phase + 1) % 2 ^ 64 ∧ s'.barrier.current_count = 0 ∧
        s.barrier.current_count + 1 = s.barrier.expected_count ∧
        s'.arrivals = s.arrivals + 1)) ∧
    (∀ t : Nat, s.barrier.current_count + 1 = s.barrier.expected_count →
      (arrive s t).barrier.phase = (s.barrier.phase + 1) % 2 ^ 64 ∧
        (arrive s t).barrier.current_count = 0) := by
  have hinv := barrierInv_of_reachable n hn s hs
  have hmod : s.arrivals % n < n := Nat.mod_lt _ (by omega)
  have hiter : s.barrier = critical_section^[s.arrivals] (Barrier.create n) := by
    clear hinv hmod
    induction hs with
    | start => rfl
    | step s s' _ hstep ih =>
      cases hstep with
      | arrive t h =>
        rw [arrive_barrier, arrive_arrivals, Function.iterate_succ_apply', ← ih]
      | wake t p k h hp => exact ih
  refine ⟨fun k => (critical_section_iterate n hn k).2, hiter, ?_, ?_, ?_, hinv.count_eq,
    hinv.phase_eq, ?_, fun s' hstep => ?_, fun t hrel => ?_⟩
  · rw [hinv.count_eq]; exact_mod_cast Nat.zero_le _
  · rw [hinv.count_eq]; exact_mod_cast hmod
  · rw [hinv.count_eq, hinv.expected_eq]; exact_mod_cast hmod
  · rw [hinv.phase_eq]; omega
  · cases hstep with
    | arrive t h =>
      rw [arrive_barrier, arrive_arrivals]
      by_cases hrel : s.barrier.current_count + 1 = s.barrier.expected_count
      · rw [critical_section_release _ hrel]
        exact Or.inr ⟨rfl, rfl, hrel, rfl⟩
      · rw [critical_section_block _ hrel]
        exact Or.inl rfl
    | wake t p k h hp => exact Or.inl rfl
  · rw [arrive_barrier, critical_section_release _ hrel]
    exact ⟨rfl, rfl⟩

theorem barrier_counters_witness :
    (1 ≤ 4 ∧ BarrierReachable 4 three_of_four_arrived) ∧
    (three_of_four_arrived.barrier.current_count = 3 ∧
      three_of_four_arrived.barrier.phase = 0 ∧
      (arrive three_of_four_arrived 3).barrier.current_count = 0 ∧
      (arrive three_of_four_arrived 3).barrier.phase = 1) ∧
    ((∀ k : Nat, (critical_section^[k] (Barrier.create (4 : Nat))).current_count
        = ((k % 4 : Nat) : Int) ∧
      (critical_section^[k] (Barrier.create (4 : Nat))).phase = (k / 4) % 2 ^ 64) ∧
    three_of_four_arrived.barrier
      = critical_section^[three_of_four_arrived.arrivals] (Barrier.create (4 : Nat)) ∧
    0 ≤ three_of_four_arrived.barrier.current_count ∧
    three_of_four_arrived.barrier.current_count < (4 : Nat) ∧
    three_of_four_arrived.barrier.current_count + 1
      ≤ three_of_four_arrived.barrier.expected_count ∧
    three_of_four_arrived.barrier.current_count
      = ((three_of_four_arrived.arrivals % 4 : Nat) : Int) ∧
    three_of_four_arrived.barrier.phase = (three_of_four_arrived.arrivals / 4) % 2 ^ 64 ∧
    (three_of_four_arrived.barrier.phase + 1) % 2 ^ 64 ≠ three_of_four_arrived.barrier.phase ∧
    (∀ s' : BarrierSystem, BarrierStep three_of_four_arrived s' →
      s'.barrier.phase = three_of_four_arrived.barrier.phase ∨
      (s'.barrier.phase = (three_of_four_arrived.barrier.phase + 1) % 2 ^ 64 ∧
        s'.barrier.current_count = 0 ∧
        three_of_four_arrived.barrier.current_count + 1
          = three_of_four_arrived.barrier.expected_count ∧
        s'.arrivals = three_of_four_arrived.arrivals + 1)) ∧
    (∀ t : Nat, three_of_four_arrived.barrier.current_count + 1
        = three_of_four_arrived.barrier.expected_count →
      (arrive three_of_four_arrived t).barrier.phase
          = (three_of_four_arrived.barrier.phase + 1) % 2 ^ 64 ∧
        (arrive three_of_four_arrived t).barrier.current_count = 0)) :=
  have hr : BarrierReachable 4 three_of_four_arrived :=
    BarrierReachable.step _ _
      (BarrierReachable.step _ _
        (BarrierReachable.step _ _ BarrierReachable.start (BarrierStep.arrive _ 0 (by decide)))
        (BarrierStep.arrive _ 1 (by decide)))
      (BarrierStep.arrive _ 2 (by decide))
  ⟨⟨by norm_num, hr⟩, by decide, barrier_counters 4 _ (by norm_num) hr⟩

/-! ## Claim about the order of returns and next calls -/

/-- Claim C12, as stated, fails: with two participants, thread `0` arrives and blocks,
thread `1` makes the second arrival of the cycle and returns, and thread `1` calls
`arrive_and_wait` again, for the next cycle, while thread `0` has not yet returned from its
call of the first cycle. -/
theorem next_call_before_all_returned :
    BarrierReachable 2 second_call_before_return ∧
    second_call_before_return.threads
      = [Participant.waiting 0 0, Participant.waiting 1 2] ∧
    second_call_before_return.arrivals = 3 ∧
    wait_predicate second_call_before_return.barrier 0 = true ∧
    wait_predicate second_call_before_return.barrier 1 = false :=
  ⟨BarrierReachable.step _ _
      (BarrierReachable.step _ _
        (BarrierReachable.step _ _ BarrierReachable.start (BarrierStep.arrive _ 0 (by decide)))
        (BarrierStep.arrive _ 1 (by decide)))
      (BarrierStep.arrive _ 1 (by decide)),
    by decide, by decide, by decide, by decide⟩

/-- Claim C12, amended. For a barrier for `n ≥ 1` participants used by `n` threads, in
every state it can reach: a thread blocked on an arrival `k` is released (its wait
predicate holds, so it can return) as soon as the `n`-th arrival of its cycle has been
made, and the `n`-th arrival of the next cycle has not been made while it is blocked;
that arrival can only be made when every other thread is blocked on an arrival of the
next cycle, that is after every thread has returned from its call of the cycle before and
has called again. -/
theorem all_return_before_next_release (n : Nat) (s : BarrierSystem) (hn : 1 ≤ n)
    (hs : BarrierReachable n s) :
    (∀ t p k : Nat, s.threads[t]? = some (Participant.waiting p k) →
      ((k / n + 1) * n ≤ s.arrivals → wait_predicate s.barrier p = true) ∧
      s.arrivals < (k / n + 2) * n) ∧
    (∀ t : Nat, s.threads[t]? = some Participant.running → (s.arrivals + 1) % n = 0 →
      ∀ t' : Nat, t' ≠ t → t' < n →
        ∃ p k, s.threads[t']? = some (Participant.waiting p k) ∧ k / n = s.arrivals / n) := by
  have hinv := barrierInv_of_reachable n hn s hs
  obtain ⟨hsucc1, hsucc2⟩ := succ_div_mod n s.arrivals (by omega)
  have hmod : s.arrivals % n < n := Nat.mod_lt _ (by omega)
  refine ⟨fun t p k h => ?_, fun t h hlast t' hne ht' => ?_⟩
  · obtain ⟨h1, _, h3, h4⟩ := hinv.blocked t p k h
    constructor
    · intro hle
      have hq : k / n + 1 ≤ s.arrivals / n := (Nat.le_div_iff_mul_le (by omega)).2 hle
      simp only [wait_predicate, bne_iff_ne, ne_eq]
      rw [hinv.phase_eq, h1]
      have heq : s.arrivals / n = k / n + 1 := by omega
      rw [heq]
      omega
    · rw [← Nat.div_lt_iff_lt_mul (by omega)]
      omega
  · rcases arrive_cases n hn s t hinv h with ⟨_, _, _, hothers⟩ | ⟨_, _, hdiv⟩
    · exact hothers t' hne ht'
    · exfalso
      have hr : s.arrivals % n + 1 = n := by
        by_contra hnot
        have := (hsucc1 (by omega)).2
        omega
      have := (hsucc2 hr).1
      omega

theorem all_return_before_next_release_witness :
    (1 ≤ 2 ∧ BarrierReachable 2 second_call_before_return) ∧
    ((∀ t p k : Nat, second_call_before_return.threads[t]? = some (Participant.waiting p k) →
      ((k / 2 + 1) * 2 ≤ second_call_before_return.arrivals →
        wait_predicate second_call_before_return.barrier p = true) ∧
      second_call_before_return.arrivals < (k / 2 + 2) * 2) ∧
    (∀ t : Nat, second_call_before_return.threads[t]? = some Participant.running →
      (second_call_before_return.arrivals + 1) % 2 = 0 →
      ∀ t' : Nat, t' ≠ t → t' < 2 →
        ∃ p k, second_call_before_return.threads[t']? = some (Participant.waiting p k) ∧
          k / 2 = second_call_before_return.arrivals / 2)) :=
  have hr : BarrierReachable 2 second_call_before_return :=
    BarrierReachable.step _ _
      (BarrierReachable.step _ _
        (BarrierReachable.step _ _ BarrierReachable.start (BarrierStep.arrive _ 0 (by decide)))
        (BarrierStep.arrive _ 1 (by decide)))
      (BarrierStep.arrive _ 1 (by decide))
  ⟨⟨by norm_num, hr⟩, all_return_before_next_release 2 _ (by norm_num) hr⟩

/-! ## The rounds a worker goes through -/

theorem stage_rounds_succ (m e : Nat) :
    (stage_distances (e + 1)).map (fun d => (m, d)) =
      (m, 2 ^ e) :: (stage_distances e).map (fun d => (m, d)) := by
  simp [stage_distances, List.range_succ]

theorem worker_distance_loop_log (size merge_size : Nat) (r : Nat × Nat) :
    ∀ (e fuel : Nat) (st : List Int × List (Nat × Nat)), e < fuel →
      (worker_distance_loop size merge_size r fuel (2 ^ e) st).2 =
        st.2 ++ (stage_distances (e + 1)).map (fun d => (merge_size, d)) := by
  intro e
  induction e with
  | zero =>
    intro fuel st h
    obtain ⟨fuel, rfl⟩ : ∃ f, fuel = f + 1 := ⟨fuel - 1, by omega⟩
    cases fuel with
    | zero => simp [worker_distance_loop, stage_distances, List.range_succ]
    | succ fuel => simp [worker_distance_loop, stage_distances, List.range_succ]
  | succ e ih =>
    intro fuel st h
    obtain ⟨fuel, rfl⟩ : ∃ f, fuel = f + 1 := ⟨fuel - 1, by omega⟩
    have hpos : 0 < 2 ^ (e + 1) := Nat.two_pow_pos _
    have hhalf : 2 ^ (e + 1) >>> 1 = 2 ^ e := by
      rw [Nat.shiftRight_eq_div_pow, pow_one, pow_succ]; omega
    rw [worker_distance_loop, if_pos hpos, hhalf, ih fuel _ (by omega),
      stage_rounds_succ merge_size (e + 1)]
    simp

theorem worker_distance_loop_log_zero (size merge_size : Nat) (r : Nat × Nat) (fuel : Nat)
    (st : List Int × List (Nat × Nat)) :
    (worker_distance_loop size merge_size r fuel 0 st).2 = st.2 := by
  cases fuel <;> simp [worker_distance_loop]

theorem worker_stage_log (size : Nat) (r : Nat × Nat) (f : Nat)
    (st : List Int × List (Nat × Nat)) :
    (worker_distance_loop size (2 ^ f) r (2 ^ f) (2 ^ f >>> 1) st).2 =
      st.2 ++ stage_rounds f := by
  cases f with
  | zero =>
    have h : (2 ^ 0 >>> 1 : Nat) = 0 := by decide
    rw [h, worker_distance_loop_log_zero]
    simp [stage_rounds, stage_distances]
  | succ f =>
    have hhalf : 2 ^ (f + 1) >>> 1 = 2 ^ f := by
      rw [Nat.shiftRight_eq_div_pow, pow_one, pow_succ]; omega
    have hlt : f < 2 ^ (f + 1) := by
      have := Nat.lt_two_pow f
      have := Nat.pow_lt_pow_right (show 1 < 2 by decide) (Nat.lt_succ_self f)
      omega
    rw [hhalf, worker_distance_loop_log _ _ _ f _ _ hlt]
    rfl

theorem worker_stage_loop_log (size g : Nat) (r : Nat × Nat) (hg : 2 ^ g ≤ size)
    (hlt : size < 2 ^ (g + 1)) (h63 : size < 2 ^ 63) :
    ∀ (k f fuel : Nat) (st : List Int × List (Nat × Nat)), f + k = g + 1 → k < fuel →
      ∃ out, worker_stage_loop size r fuel (2 ^ f) st =
        some (out, st.2 ++ (List.range' f k).flatMap stage_rounds) := by
  have hg63 : g < 63 := by
    by_contra hcon
    have := Nat.pow_le_pow_right (show 0 < 2 by decide) (show 63 ≤ g by omega)
    omega
  intro k
  induction k with
  | zero =>
    intro f fuel st hf hfuel
    obtain ⟨fuel, rfl⟩ : ∃ x, fuel = x + 1 := ⟨fuel - 1, by omega⟩
    have hf1 : f = g + 1 := by omega
    subst hf1
    rw [worker_stage_loop, if_neg (by omega)]
    exact ⟨st.1, by simp⟩
  | succ k ih =>
    intro f fuel st hf hfuel
    obtain ⟨fuel, rfl⟩ : ∃ x, fuel = x + 1 := ⟨fuel - 1, by omega⟩
    have hle : 2 ^ f ≤ size :=
      le_trans (Nat.pow_le_pow_right (by decide) (by omega)) hg
    have hshift : (2 ^ f <<< 1) % SIZE_T_RANGE = 2 ^ (f + 1) := by
      rw [Nat.shiftLeft_eq, pow_one, ← pow_succ]
      apply Nat.mod_eq_of_lt
      unfold SIZE_T_RANGE
      exact Nat.pow_lt_pow_right (by decide) (by omega)
    rw [worker_stage_loop, if_pos hle, hshift]
    obtain ⟨out, hout⟩ := ih (f + 1) fuel
      (worker_distance_loop size (2 ^ f) r (2 ^ f) (2 ^ f >>> 1) st) (by omega) (by omega)
    refine ⟨out, ?_⟩
    rw [hout, worker_stage_log, List.range'_succ, List.flatMap_cons, List.append_assoc]

theorem round_sequence_eq (size g : Nat) (hg : 2 ^ g ≤ size) (hlt : size < 2 ^ (g + 1)) :
    round_sequence size = (List.range' 0 (g + 1)).flatMap stage_rounds := by
  have hpos : 0 < 2 ^ g := Nat.two_pow_pos g
  rw [round_sequence, if_neg (by omega), Nat.log_eq_of_pow_le_of_lt_pow hg hlt,
    List.range_eq_range']

theorem length_stage_rounds (f : Nat) : (stage_rounds f).length = f := by
  simp [stage_rounds, stage_distances]

theorem length_flatMap_stage_rounds (n : Nat) :
    2 * ((List.range n).flatMap stage_rounds).length = n * (n - 1) := by
  induction n with
  | zero => simp
  | succ n ih =>
    rw [List.range_succ, List.flatMap_append, List.length_append, Nat.mul_add, ih]
    simp only [List.flatMap_cons, List.flatMap_nil, List.append_nil, length_stage_rounds,
      Nat.add_sub_cancel]
    cases n with
    | zero => rfl
    | succ n => simp only [Nat.add_sub_cancel]; ring

theorem worker_full_range (size : Nat) :
    ∀ (fuel : Nat) (merge_size : Nat) (st : List Int × List (Nat × Nat)),
      (worker_stage_loop size (0, size) fuel merge_size st).map Prod.fst =
        stage_loop size 1 fuel merge_size st.1 := by
  have hround : ∀ m j data, round size 1 m j data = worker_round size m j data (0, size) := by
    intro m j data
    have h1 : List.range 1 = [0] := rfl
    simp [round, thread_ranges, thread_range, h1]
  have hdist : ∀ (m fuel j : Nat) (st : List Int × List (Nat × Nat)),
      (worker_distance_loop size m (0, size) fuel j st).1 =
        distance_loop size 1 m fuel j st.1 := by
    intro m fuel
    induction fuel with
    | zero => intro j st; rfl
    | succ fuel ih =>
      intro j st
      rw [worker_distance_loop, distance_loop]
      by_cases hj : 0 < j
      · rw [if_pos hj, if_pos hj, ih, hround]
      · rw [if_neg hj, if_neg hj]
  intro fuel
  induction fuel with
  | zero => intro m st; rfl
  | succ fuel ih =>
    intro m st
    rw [worker_stage_loop, stage_loop]
    by_cases hm : m ≤ size
    · rw [if_pos hm, if_pos hm, ih, hdist]
    · rw [if_neg hm, if_neg hm]; rfl

/-! ## Claim about the round sequence -/

/-- Claim C13.  For `2 ^ m ≤ size < 2 ^ (m + 1)` with `size < 2 ^ 63`, a worker run on
any array and any range returns, and the rounds it has gone through, one call of
`arrive_and_wait` each, are the sequence `round_sequence size` (merge sizes `1, 2, 4, ...`
up to `size`, each with the distances `merge_size / 2, ..., 1`), which has
`m * (m + 1) / 2` entries; so two workers on arrays of the same size go through the
same rounds whatever their arrays and ranges are.  With the range `(0, size)` the array
the worker leaves is that of `parallel_bitonic_sort` with one thread. -/
theorem worker_rounds (size m fuel : Nat) (hm : 2 ^ m ≤ size) (hlt : size < 2 ^ (m + 1))
    (h63 : size < 2 ^ 63) (hfuel : 64 ≤ fuel) :
    (∀ (data : List Int) (r : Nat × Nat),
      ∃ out, worker fuel data size r = some (out, round_sequence size)) ∧
    (∀ (data data' : List Int) (r r' : Nat × Nat),
      (worker fuel data size r).map Prod.snd = (worker fuel data' size r').map Prod.snd) ∧
    (round_sequence size).length = m * (m + 1) / 2 ∧
    (∀ f d, (f, d) ∈ round_sequence size ↔
      ∃ a b, a ≤ m ∧ b < a ∧ f = 2 ^ a ∧ d = 2 ^ b) ∧
    (∀ data : List Int, (worker fuel data size (0, size)).map Prod.fst =
      parallel_bitonic_sort fuel data size 1) := by
  have hm63 : m < 63 := by
    by_contra hcon
    have := Nat.pow_le_pow_right (show 0 < 2 by decide) (show 63 ≤ m by omega)
    omega
  have hrun : ∀ (data : List Int) (r : Nat × Nat),
      ∃ out, worker fuel data size r = some (out, round_sequence size) := by
    intro data r
    obtain ⟨out, hout⟩ := worker_stage_loop_log size m r hm hlt h63 (m + 1) 0 fuel (data, [])
      (by omega) (by omega)
    refine ⟨out, ?_⟩
    rw [worker, pow_zero] at *
    rw [hout, round_sequence_eq size m hm hlt]
    rfl
  refine ⟨hrun, ?_, ?_, ?_, ?_⟩
  · intro data data' r r'
    obtain ⟨out, hout⟩ := hrun data r
    obtain ⟨out', hout'⟩ := hrun data' r'
    rw [hout, hout']
    rfl
  · rw [round_sequence_eq size m hm hlt, ← List.range_eq_range']
    have h := length_flatMap_stage_rounds (m + 1)
    rw [Nat.add_sub_cancel, Nat.mul_comm (m + 1) m] at h
    omega
  · intro f d
    rw [round_sequence_eq size m hm hlt, ← List.range_eq_range']
    simp only [List.mem_flatMap, List.mem_range, stage_rounds, stage_distances, List.mem_map,
      List.mem_reverse, Prod.mk.injEq]
    constructor
    · rintro ⟨a, ha, d', ⟨b, hb, rfl⟩, rfl, rfl⟩
      exact ⟨a, b, by omega, hb, rfl, rfl⟩
    · rintro ⟨a, b, ha, hb, rfl, rfl⟩
      exact ⟨a, by omega, 2 ^ b, ⟨b, hb, rfl⟩, rfl, rfl⟩
  · intro data
    rw [worker, worker_full_range, parallel_bitonic_sort, if_neg (by decide)]

/-- Claim C13 at size 5 (`m = 2`): three rounds, `(2, 1)`, `(4, 2)`, `(4, 1)`. -/
theorem worker_rounds_witness :
    ((∀ (data : List Int) (r : Nat × Nat),
      ∃ out, worker 64 data 5 r = some (out, round_sequence 5)) ∧
    (∀ (data data' : List Int) (r r' : Nat × Nat),
      (worker 64 data 5 r).map Prod.snd = (worker 64 data' 5 r').map Prod.snd) ∧
    (round_sequence 5).length = 2 * (2 + 1) / 2 ∧
    (∀ f d, (f, d) ∈ round_sequence 5 ↔
      ∃ a b, a ≤ 2 ∧ b < a ∧ f = 2 ^ a ∧ d = 2 ^ b) ∧
    (∀ data : List Int, (worker 64 data 5 (0, 5)).map Prod.fst =
      parallel_bitonic_sort 64 data 5 1)) ∧
    worker 64 [5, 4, 3, 2, 1] 5 (0, 5) = some ([2, 3, 4, 5, 1], [(2, 1), (4, 2), (4, 1)]) :=
  ⟨worker_rounds 5 2 64 (by decide) (by decide) (by decide) (by decide), by decide⟩

/-! ## Loop bodies of one round commute -/

theorem getD_swap_of_ne (data : List Int) (i k x : Nat) (h1 : x ≠ i) (h2 : x ≠ k) :
    (swap data i k).getD x 0 = data.getD x 0 := by
  simp only [swap, List.getD_eq_getElem?_getD]
  rw [List.getElem?_set_ne (Ne.symm h2), List.getElem?_set_ne (Ne.symm h1)]

theorem swap_comm (data : List Int) (i k i' k' : Nat) (h1 : i ≠ i') (h2 : i ≠ k')
    (h3 : k ≠ i') (h4 : k ≠ k') :
    swap (swap data i k) i' k' = swap (swap data i' k') i k := by
  have e1 := getD_swap_of_ne data i k k' (Ne.symm h2) (Ne.symm h4)
  have e2 := getD_swap_of_ne data i k i' (Ne.symm h1) (Ne.symm h3)
  have e3 := getD_swap_of_ne data i' k' k h3 h4
  have e4 := getD_swap_of_ne data i' k' i h1 h2
  show ((swap data i k).set i' ((swap data i k).getD k' 0)).set k' ((swap data i k).getD i' 0)
    = ((swap data i' k').set i ((swap data i' k').getD k 0)).set k ((swap data i' k').getD i 0)
  rw [e1, e2, e3, e4]
  simp only [swap]
  rw [List.set_comm _ _ _ h3, List.set_comm _ _ _ h1, List.set_comm _ _ _ h4,
    List.set_comm _ _ _ h2]

theorem compare_swap_eq (size m j : Nat) (data : List Int) (i : Nat) :
    compare_swap size m j data i =
      if swap_condition size m j data i then swap data i (i ^^^ j) else data := rfl

theorem swap_condition_guard (size m j : Nat) (data : List Int) (i : Nat)
    (h : swap_condition size m j data i = true) : i ^^^ j < size ∧ i &&& j = 0 := by
  simp only [swap_condition, Bool.and_eq_true, decide_eq_true_eq, beq_iff_eq] at h
  exact ⟨h.1.1, h.1.2⟩

theorem swap_condition_congr (size m j : Nat) (data data' : List Int) (i : Nat)
    (h1 : data'.getD i 0 = data.getD i 0) (h2 : data'.getD (i ^^^ j) 0 = data.getD (i ^^^ j) 0) :
    swap_condition size m j data' i = swap_condition size m j data i := by
  simp only [swap_condition, h1, h2]

theorem getD_compare_swap_of_ne (size m j : Nat) (data : List Int) (i x : Nat) (h1 : x ≠ i)
    (h2 : x ≠ i ^^^ j) : (compare_swap size m j data i).getD x 0 = data.getD x 0 := by
  rw [compare_swap_eq]
  split_ifs
  · exact getD_swap_of_ne data i (i ^^^ j) x h1 h2
  · rfl

theorem and_eq_zero_of_xor (i j : Nat) (h1 : i &&& j = 0) (h2 : (i ^^^ j) &&& j = 0) : j = 0 := by
  apply Nat.eq_of_testBit_eq
  intro b
  have e1 := congrArg (fun n => n.testBit b) h1
  have e2 := congrArg (fun n => n.testBit b) h2
  simp only [Nat.testBit_and, Nat.testBit_xor, Nat.zero_testBit] at e1 e2 ⊢
  cases hj : j.testBit b <;> cases hi : i.testBit b <;> simp_all

theorem pairs_disjoint (i i' j : Nat) (hne : i ≠ i') (h1 : i &&& j = 0) (h2 : i' &&& j = 0) :
    i ≠ i' ^^^ j ∧ i ^^^ j ≠ i' ∧ i ^^^ j ≠ i' ^^^ j := by
  refine ⟨?_, ?_, ?_⟩
  · intro h
    have hj : j = 0 := and_eq_zero_of_xor i' j h2 (h ▸ h1)
    subst hj
    exact hne (by simpa using h)
  · intro h
    have hj : j = 0 := and_eq_zero_of_xor i j h1 (h ▸ h2)
    subst hj
    exact hne (by simpa using h)
  · intro h
    exact hne (Nat.xor_left_inj.mp h)

theorem compare_swap_comm (size m j : Nat) (data : List Int) (i i' : Nat) :
    compare_swap size m j (compare_swap size m j data i) i' =
      compare_swap size m j (compare_swap size m j data i') i := by
  by_cases hne : i = i'
  · rw [hne]
  by_cases hg : i ^^^ j < size ∧ i &&& j = 0
  · by_cases hg' : i' ^^^ j < size ∧ i' &&& j = 0
    · obtain ⟨d1, d2, d3⟩ := pairs_disjoint i i' j hne hg.2 hg'.2
      have c1 : swap_condition size m j (compare_swap size m j data i) i' =
          swap_condition size m j data i' :=
        swap_condition_congr size m j _ _ i'
          (getD_compare_swap_of_ne size m j data i i' (Ne.symm hne) (Ne.symm d2))
          (getD_compare_swap_of_ne size m j data i (i' ^^^ j) (Ne.symm d1) (Ne.symm d3))
      have c2 : swap_condition size m j (compare_swap size m j data i') i =
          swap_condition size m j data i :=
        swap_condition_congr size m j _ _ i
          (getD_compare_swap_of_ne size m j data i' i hne d1)
          (getD_compare_swap_of_ne size m j data i' (i ^^^ j) d2 d3)
      rw [compare_swap_eq size m j (compare_swap size m j data i) i', c1,
        compare_swap_eq size m j (compare_swap size m j data i') i, c2,
        compare_swap_eq size m j data i, compare_swap_eq size m j data i']
      by_cases hc : swap_condition size m j data i = true
      · by_cases hc' : swap_condition size m j data i' = true
        · simp only [hc, hc', if_true]
          exact swap_comm data i (i ^^^ j) i' (i' ^^^ j) hne d1 d2 d3
        · simp [hc, hc']
      · by_cases hc' : swap_condition size m j data i' = true
        · simp [hc, hc']
        · simp [hc, hc']
    · have h0 : ∀ d, swap_condition size m j d i' = false := by
        intro d
        by_contra hcon
        exact hg' (swap_condition_guard size m j d i' (by simpa using hcon))
      have e : ∀ d, compare_swap size m j d i' = d := by
        intro d
        rw [compare_swap_eq, h0]
        simp
      rw [e, e]
  · have h0 : ∀ d, swap_condition size m j d i = false := by
      intro d
      by_contra hcon
      exact hg (swap_condition_guard size m j d i (by simpa using hcon))
    have e : ∀ d, compare_swap size m j d i = d := by
      intro d
      rw [compare_swap_eq, h0]
      simp
    rw [e, e]

theorem flatten_perm_of_getElem? : ∀ (queues : List (List Nat)) (t i : Nat) (rest : List Nat),
    queues[t]? = some (i :: rest) → queues.flatten.Perm (i :: (queues.set t rest).flatten) := by
  intro queues
  induction queues with
  | nil => intro t i rest h; simp at h
  | cons q qs ih =>
    intro t i rest h
    cases t with
    | zero =>
      simp only [List.getElem?_cons_zero, Option.some.injEq] at h
      subst h
      simp
    | succ t =>
      simp only [List.getElem?_cons_succ] at h
      simp only [List.set_cons_succ, List.flatten_cons]
      exact (List.Perm.append_left q (ih t i rest h)).trans List.perm_middle

theorem interleaving_perm (queues : List (List Nat)) (sched : List Nat)
    (h : Interleaving queues sched) : sched.Perm queues.flatten := by
  induction h with
  | done queues hq =>
    have : queues.flatten = [] := by
      simp only [List.flatten_eq_nil_iff]
      exact hq
    rw [this]
  | step queues t i rest sched hget _ ih =>
    exact (List.Perm.cons i ih).trans (flatten_perm_of_getElem? queues t i rest hget).symm

theorem foldl_thread_queues (size m j : Nat) (ranges : List (Nat × Nat)) : ∀ data : List Int,
    (ranges.map fun r => List.range' r.1 (r.2 - r.1)).flatten.foldl (compare_swap size m j) data
      = ranges.foldl (worker_round size m j) data := by
  induction ranges with
  | nil => intro data; rfl
  | cons r rs ih =>
    intro data
    simp only [List.map_cons, List.flatten_cons, List.foldl_append, List.foldl_cons]
    rw [ih]
    rfl

theorem scheduled_round_eq (size tc m j : Nat) (data : List Int) (sched : List Nat)
    (h : Interleaving (thread_queues size tc) sched) :
    scheduled_round size m j data sched = round size tc m j data := by
  rw [scheduled_round, round, ← foldl_thread_queues]
  exact List.Perm.foldl_eq' (interleaving_perm _ _ h)
    (fun x _ y _ z => compare_swap_comm size m j z x y) data

theorem scheduled_distance_loop_eq (size tc m : Nat) (order : Nat → Nat → List Nat)
    (h : ∀ m j, Interleaving (thread_queues size tc) (order m j)) :
    ∀ (fuel j : Nat) (data : List Int),
      scheduled_distance_loop size order m fuel j data = distance_loop size tc m fuel j data := by
  intro fuel
  induction fuel with
  | zero => intro j data; rfl
  | succ fuel ih =>
    intro j data
    rw [scheduled_distance_loop, distance_loop, ih, scheduled_round_eq size tc m j data _ (h m j)]

theorem scheduled_stage_loop_eq (size tc : Nat) (order : Nat → Nat → List Nat)
    (h : ∀ m j, Interleaving (thread_queues size tc) (order m j)) :
    ∀ (fuel m : Nat) (data : List Int),
      scheduled_stage_loop size order fuel m data = stage_loop size tc fuel m data := by
  intro fuel
  induction fuel with
  | zero => intro m data; rfl
  | succ fuel ih =>
    intro m data
    rw [scheduled_stage_loop, stage_loop, ih, scheduled_distance_loop_eq size tc m order h]

theorem interleaving_cons_nil (queues : List (List Nat)) (sched : List Nat)
    (h : Interleaving queues sched) : Interleaving ([] :: queues) sched := by
  induction h with
  | done queues hq =>
    apply Interleaving.done
    intro q hmem
    rcases List.mem_cons.mp hmem with h1 | h1
    · exact h1
    · exact hq q h1
  | step queues t i rest sched hget _ ih =>
    exact Interleaving.step ([] :: queues) (t + 1) i rest sched (by simpa using hget)
      (by simpa using ih)

theorem interleaving_in_order : ∀ queues : List (List Nat), Interleaving queues queues.flatten := by
  intro queues
  induction queues with
  | nil => exact Interleaving.done [] (by simp)
  | cons q qs ih =>
    induction q with
    | nil => simpa using interleaving_cons_nil qs _ ih
    | cons i rest ihq =>
      exact Interleaving.step ((i :: rest) :: qs) 0 i rest _ (by simp) (by simpa using ihq)

/-! ## Claim that the result does not depend on the schedule of a round -/

/-- Claim C14.  Let every round be run in an order that is an interleaving of the loop
iterations of the `thread_count ≥ 1` threads (each thread runs the indices of its range
in order, the threads in any order and interleaved in any way, possibly differently in
every round).  Then the outcome is that of `parallel_bitonic_sort` with one thread,
which runs the indices `0, ..., size - 1` of every round in order; in particular the
outcome of `parallel_bitonic_sort` with `thread_count` threads is that of one thread.
Running the threads one after another is such an interleaving, and for `size < 2 ^ 63`
the outcome is an array. -/
theorem scheduled_bitonic_sort_eq (size thread_count fuel : Nat) (data : List Int)
    (order : Nat → Nat → List Nat) (htc : 1 ≤ thread_count)
    (horder : ∀ m j, Interleaving (thread_queues size thread_count) (order m j)) :
    scheduled_bitonic_sort order fuel data size thread_count =
      parallel_bitonic_sort fuel data size 1 ∧
    parallel_bitonic_sort fuel data size thread_count = parallel_bitonic_sort fuel data size 1 ∧
    parallel_bitonic_sort fuel data size 1 =
      scheduled_bitonic_sort (fun _ _ => List.range size) fuel data size 1 ∧
    Interleaving (thread_queues size thread_count) (thread_queues size thread_count).flatten ∧
    (size < 2 ^ 63 → 64 ≤ fuel → data.length = size →
      ∃ out, parallel_bitonic_sort fuel data size 1 = some out) := by
  have h1 : scheduled_bitonic_sort order fuel data size thread_count =
      parallel_bitonic_sort fuel data size thread_count := by
    rw [scheduled_bitonic_sort, parallel_bitonic_sort,
      scheduled_stage_loop_eq size thread_count order horder]
  have h2 := parallel_bitonic_sort_thread_count fuel data size thread_count htc
  refine ⟨h1.trans h2, h2, ?_, interleaving_in_order _, ?_⟩
  · have hq : thread_queues size 1 = [List.range size] := by
      have h1 : List.range 1 = [0] := rfl
      simp [thread_queues, thread_ranges, thread_range, h1, List.range_eq_range']
    have hi : ∀ m j : Nat, Interleaving (thread_queues size 1)
        ((fun _ _ => List.range size) m j) := by
      intro m j
      have := interleaving_in_order (thread_queues size 1)
      rw [hq] at this ⊢
      simpa using this
    rw [scheduled_bitonic_sort, parallel_bitonic_sort,
      scheduled_stage_loop_eq size 1 _ hi]
  · intro h63 hfuel hlen
    by_cases h0 : size = 0
    · subst h0
      obtain ⟨fuel, rfl⟩ : ∃ x, fuel = x + 1 := ⟨fuel - 1, by omega⟩
      exact ⟨data, by simp [parallel_bitonic_sort, stage_loop]⟩
    · have hpos : 0 < size := Nat.pos_of_ne_zero h0
      have hg := Nat.pow_log_le_self 2 h0
      have hg1 := Nat.lt_pow_succ_log_self (show 1 < 2 by decide) size
      obtain ⟨out, hout, _⟩ := parallel_bitonic_sort_blockSorted fuel data size 1
        (Nat.log 2 size) (by decide) hg hg1 h63 hlen hfuel
      exact ⟨out, hout⟩

/-- Claim C14 on four elements and two threads, whose queues are `[0, 1]` and `[2, 3]`:
every round is run in the order `2, 0, 3, 1`. -/
theorem scheduled_bitonic_sort_eq_witness :
    (scheduled_bitonic_sort (fun _ _ => [2, 0, 3, 1]) 64 [4, 3, 2, 1] 4 2 =
      parallel_bitonic_sort 64 [4, 3, 2, 1] 4 1 ∧
    parallel_bitonic_sort 64 [4, 3, 2, 1] 4 2 = parallel_bitonic_sort 64 [4, 3, 2, 1] 4 1 ∧
    parallel_bitonic_sort 64 [4, 3, 2, 1] 4 1 =
      scheduled_bitonic_sort (fun _ _ => List.range 4) 64 [4, 3, 2, 1] 4 1 ∧
    Interleaving (thread_queues 4 2) (thread_queues 4 2).flatten ∧
    (4 < 2 ^ 63 → 64 ≤ 64 → [4, 3, 2, 1].length = 4 →
      ∃ out, parallel_bitonic_sort 64 ([4, 3, 2, 1] : List Int) 4 1 = some out)) ∧
    scheduled_bitonic_sort (fun _ _ => [2, 0, 3, 1]) 64 [4, 3, 2, 1] 4 2 = some [1, 2, 3, 4] :=
  ⟨scheduled_bitonic_sort_eq 4 2 64 [4, 3, 2, 1] (fun _ _ => [2, 0, 3, 1]) (by decide)
    (fun _ _ =>
      Interleaving.step [[0, 1], [2, 3]] 1 2 [3] [0, 3, 1] rfl
        (Interleaving.step [[0, 1], [3]] 0 0 [1] [3, 1] rfl
          (Interleaving.step [[1], [3]] 1 3 [] [1] rfl
            (Interleaving.step [[1], []] 0 1 [] [] rfl
              (Interleaving.done [[], []] (by decide)))))),
    by decide⟩

/-! ## The guard of the loop body -/

theorem index_guard_iff (size j i : Nat) :
    index_guard size j i = true ↔ i ^^^ j < size ∧ i &&& j = 0 := by
  simp [index_guard]

theorem swap_condition_index_guard (size m j : Nat) (data : List Int) (i : Nat)
    (h : swap_condition size m j data i = true) : index_guard size j i = true :=
  (index_guard_iff size j i).mpr (swap_condition_guard size m j data i h)

theorem compare_swap_of_not_guard (size m j : Nat) (data : List Int) (i : Nat)
    (h : index_guard size j i = false) : compare_swap size m j data i = data := by
  rw [compare_swap_eq]
  have h0 : swap_condition size m j data i = false := by
    by_contra hcon
    rw [swap_condition_index_guard size m j data i (by simpa using hcon)] at h
    exact Bool.noConfusion h
  rw [h0]
  simp

theorem two_pow_le_of_bit (e i : Nat) (h : ¬ (i / 2 ^ e) % 2 = 0) : 2 ^ e ≤ i := by
  by_contra hcon
  rw [Nat.div_eq_of_lt (by omega)] at h
  exact h rfl

theorem xor_two_pow_lt_iff (e i : Nat) : i &&& 2 ^ e = 0 ↔ i < i ^^^ 2 ^ e := by
  have hpos : 0 < 2 ^ e := Nat.two_pow_pos e
  rw [and_two_pow_eq_zero, xor_two_pow]
  by_cases h : (i / 2 ^ e) % 2 = 0
  · rw [if_pos h]
    constructor
    · intro _; omega
    · intro _; exact h
  · rw [if_neg h]
    have := two_pow_le_of_bit e i h
    constructor
    · intro h'; exact absurd h' h
    · intro h'; omega

theorem xor_two_pow_and (e i : Nat) : (i ^^^ 2 ^ e) &&& 2 ^ e = 0 ↔ ¬ i &&& 2 ^ e = 0 := by
  have hpos : 0 < 2 ^ e := Nat.two_pow_pos e
  constructor
  · intro h h'
    have := and_eq_zero_of_xor i (2 ^ e) h' h
    omega
  · intro h
    rw [and_two_pow_eq_zero] at h ⊢
    have hle := two_pow_le_of_bit e i h
    rw [xor_two_pow, if_neg h]
    have hdiv : (i - 2 ^ e) / 2 ^ e = i / 2 ^ e - 1 := by
      have := Nat.sub_mul_div i (2 ^ e) 1 (by omega)
      rw [Nat.mul_one] at this
      exact this
    have hq : 0 < i / 2 ^ e := Nat.div_pos hle hpos
    rw [hdiv]
    omega

theorem xor_xor_self (i j : Nat) : (i ^^^ j) ^^^ j = i := by
  rw [Nat.xor_assoc, Nat.xor_self, Nat.xor_zero]

/-! ## Claim about the guard and the index pairs of a round -/

/-- Claim C15.  For an index `i` and a distance `2 ^ e`, with `k = i ^ 2 ^ e`:
`(i & 2 ^ e) == 0` holds exactly when `i < k`, and then `k = i + 2 ^ e`; the partner of
`k` is `i` again.  So when `i` and `k` both lie in `[0, size)`, the guard of the loop
body passes at `i` exactly when `i` is the lower index of the pair, at `k` exactly when
`k` is, and at exactly one of the two; a loop body whose guard fails leaves the array
as it is, one whose guard passes has both indices in `[0, size)` and leaves every other
element as it is; and the pairs of two different indices that pass the guard have no
index in common. -/
theorem index_guard_lower (size e i : Nat) :
    (i &&& 2 ^ e = 0 ↔ i < i ^^^ 2 ^ e) ∧
    (i &&& 2 ^ e = 0 → i ^^^ 2 ^ e = i + 2 ^ e) ∧
    (i ^^^ 2 ^ e) ^^^ 2 ^ e = i ∧
    (i < size → i ^^^ 2 ^ e < size →
      (index_guard size (2 ^ e) i = true ↔ i < i ^^^ 2 ^ e) ∧
      (index_guard size (2 ^ e) (i ^^^ 2 ^ e) = true ↔ i ^^^ 2 ^ e < i) ∧
      (index_guard size (2 ^ e) i = true ↔ index_guard size (2 ^ e) (i ^^^ 2 ^ e) = false)) ∧
    (index_guard size (2 ^ e) i = true → i < i ^^^ 2 ^ e ∧ i ^^^ 2 ^ e < size) ∧
    (∀ (m : Nat) (data : List Int),
      (swap_condition size m (2 ^ e) data i = true → index_guard size (2 ^ e) i = true) ∧
      (index_guard size (2 ^ e) i = false → compare_swap size m (2 ^ e) data i = data) ∧
      ∀ x, x ≠ i → x ≠ i ^^^ 2 ^ e →
        (compare_swap size m (2 ^ e) data i).getD x 0 = data.getD x 0) ∧
    (∀ i', i ≠ i' → index_guard size (2 ^ e) i = true → index_guard size (2 ^ e) i' = true →
      i ≠ i' ^^^ 2 ^ e ∧ i ^^^ 2 ^ e ≠ i' ∧ i ^^^ 2 ^ e ≠ i' ^^^ 2 ^ e) := by
  have hpos : 0 < 2 ^ e := Nat.two_pow_pos e
  refine ⟨xor_two_pow_lt_iff e i, ?_, xor_xor_self i (2 ^ e), ?_, ?_, ?_, ?_⟩
  · intro h
    rw [xor_two_pow, if_pos ((and_two_pow_eq_zero e i).mp h)]
  · intro hi hk
    have hne : i ^^^ 2 ^ e ≠ i := by
      intro h
      have h1 := xor_two_pow_lt_iff e i
      have h2 := xor_two_pow_and e i
      rw [h] at h1 h2
      have : ¬ i &&& 2 ^ e = 0 := fun h0 => absurd (h1.mp h0) (lt_irrefl i)
      exact this (by
        by_contra h3
        exact h3 (h2.mpr h3))
    have g1 : index_guard size (2 ^ e) i = true ↔ i < i ^^^ 2 ^ e := by
      rw [index_guard_iff, ← xor_two_pow_lt_iff]
      exact ⟨fun h => h.2, fun h => ⟨hk, h⟩⟩
    have g2 : index_guard size (2 ^ e) (i ^^^ 2 ^ e) = true ↔ i ^^^ 2 ^ e < i := by
      rw [index_guard_iff, xor_xor_self, xor_two_pow_and, xor_two_pow_lt_iff]
      constructor
      · intro h; omega
      · intro h; exact ⟨hi, by omega⟩
    refine ⟨g1, g2, ?_⟩
    rw [← Bool.not_eq_true, g1, g2]
    omega
  · intro h
    rw [index_guard_iff] at h
    exact ⟨(xor_two_pow_lt_iff e i).mp h.2, h.1⟩
  · intro m data
    exact ⟨swap_condition_index_guard size m (2 ^ e) data i,
      compare_swap_of_not_guard size m (2 ^ e) data i,
      fun x h1 h2 => getD_compare_swap_of_ne size m (2 ^ e) data i x h1 h2⟩
  · intro i' hne h h'
    rw [index_guard_iff] at h h'
    exact pairs_disjoint i i' (2 ^ e) hne h.2 h'.2

/-! ## Array accesses -/

theorem compare_swap_checked_eq (size m j : Nat) (data : List Int) (i : Nat)
    (hlen : data.length = size) (hi : i < size) :
    compare_swap_checked size m j data i = some (compare_swap size m j data i) := by
  unfold compare_swap_checked compare_swap
  simp only []
  by_cases hg : (decide (i ^^^ j < size) && (i &&& j) == 0) = true
  · have hk : i ^^^ j < size := by
      simp only [Bool.and_eq_true, decide_eq_true_eq] at hg
      exact hg.1
    have hi' : i < data.length := by omega
    have hk' : i ^^^ j < data.length := by omega
    rw [if_pos hg, List.getElem?_eq_getElem hi', List.getElem?_eq_getElem hk']
    simp only [Bool.and_eq_true] at hg
    simp only [hg.1, hg.2, Bool.true_and, List.getD_eq_getElem?_getD,
      List.getElem?_eq_getElem hi', List.getElem?_eq_getElem hk', Option.getD_some,
      swap_checked, hi', hk', and_self, if_true]
    split_ifs <;> rfl
  · rw [if_neg hg]
    have : ¬ ((decide (i ^^^ j < size) && (i &&& j) == 0 &&
        (decide (data.getD i 0 > data.getD (i ^^^ j) 0) == decide (i / m % 2 = 0))) = true) := by
      intro h
      rw [Bool.and_eq_true] at h
      exact hg h.1
    rw [if_neg this]

theorem foldlM_compare_swap_checked (size m j : Nat) (l : List Nat) (hl : ∀ i ∈ l, i < size) :
    ∀ data : List Int, data.length = size →
      l.foldlM (compare_swap_checked size m j) data =
        some (l.foldl (compare_swap size m j) data) := by
  induction l with
  | nil => intro data _; rfl
  | cons i l ih =>
    intro data hlen
    rw [List.foldlM_cons, compare_swap_checked_eq size m j data i hlen
      (hl i (List.mem_cons_self i l))]
    simp only [Option.some_bind, List.foldl_cons]
    exact ih (fun x hx => hl x (List.mem_cons_of_mem i hx)) _
      (by rw [length_compare_swap]; exact hlen)

theorem thread_range_le (size tc t : Nat) (htc : 1 ≤ tc) (ht : t < tc) :
    (thread_range size tc t).1 ≤ size ∧ (thread_range size tc t).2 ≤ size := by
  have hlast := last_start_le size tc htc
  have hmul : t * (size / tc) ≤ (tc - 1) * (size / tc) :=
    Nat.mul_le_mul_right _ (by omega)
  refine ⟨by rw [thread_range_fst]; omega, ?_⟩
  by_cases h : t + 1 < tc
  · rw [thread_range_snd_of_lt size tc t h]
    have hmul' : (t + 1) * (size / tc) ≤ (tc - 1) * (size / tc) :=
      Nat.mul_le_mul_right _ (by omega)
    rw [Nat.add_mul, Nat.one_mul] at hmul'
    omega
  · have : t = tc - 1 := by omega
    rw [this, thread_range_snd_last]

theorem mem_thread_ranges_le (size tc : Nat) (htc : 1 ≤ tc) (r : Nat × Nat)
    (hr : r ∈ thread_ranges size tc) : r.1 ≤ size ∧ r.2 ≤ size := by
  simp only [thread_ranges, List.mem_map, List.mem_range] at hr
  obtain ⟨t, ht, rfl⟩ := hr
  exact thread_range_le size tc t htc ht

theorem worker_round_checked_eq (size m j : Nat) (data : List Int) (r : Nat × Nat)
    (hr : r.2 ≤ size) (hlen : data.length = size) :
    worker_round_checked size m j data r = some (worker_round size m j data r) ∧
      (worker_round size m j data r).length = size := by
  have hl : ∀ i ∈ List.range' r.1 (r.2 - r.1), i < size := by
    intro i hi
    rw [List.mem_range'_1] at hi
    omega
  exact ⟨foldlM_compare_swap_checked size m j _ hl data hlen,
    (foldl_compare_swap_perm size m j _ hl data hlen).2⟩

theorem foldlM_worker_round_checked (size m j : Nat) (ranges : List (Nat × Nat))
    (hr : ∀ r ∈ ranges, r.2 ≤ size) : ∀ data : List Int, data.length = size →
      ranges.foldlM (worker_round_checked size m j) data =
        some (ranges.foldl (worker_round size m j) data) := by
  induction ranges with
  | nil => intro data _; rfl
  | cons r rs ih =>
    intro data hlen
    obtain ⟨h1, h2⟩ := worker_round_checked_eq size m j data r
      (hr r (List.mem_cons_self r rs)) hlen
    rw [List.foldlM_cons, h1]
    simp only [Option.some_bind, List.foldl_cons]
    exact ih (fun x hx => hr x (List.mem_cons_of_mem r hx)) _ h2

theorem round_checked_eq (size tc m j : Nat) (data : List Int) (htc : 1 ≤ tc)
    (hlen : data.length = size) :
    round_checked size tc m j data = some (round size tc m j data) :=
  foldlM_worker_round_checked size m j _
    (fun r hr => (mem_thread_ranges_le size tc htc r hr).2) data hlen

theorem distance_loop_checked_eq (size tc m : Nat) (htc : 1 ≤ tc) :
    ∀ (fuel j : Nat) (data : List Int), data.length = size →
      distance_loop_checked size tc m fuel j data = some (distance_loop size tc m fuel j data) := by
  intro fuel
  induction fuel with
  | zero => intro j data _; rfl
  | succ fuel ih =>
    intro j data hlen
    rw [distance_loop_checked, distance_loop]
    by_cases hj : 0 < j
    · rw [if_pos hj, if_pos hj, round_checked_eq size tc m j data htc hlen]
      exact ih _ _ (round_perm size tc m j data htc hlen).2
    · rw [if_neg hj, if_neg hj]

theorem stage_loop_checked_eq (size tc : Nat) (htc : 1 ≤ tc) :
    ∀ (fuel m : Nat) (data : List Int), data.length = size →
      stage_loop_checked size tc fuel m data = (stage_loop size tc fuel m data).map some := by
  intro fuel
  induction fuel with
  | zero => intro m data _; rfl
  | succ fuel ih =>
    intro m data hlen
    rw [stage_loop_checked, stage_loop]
    by_cases hm : m ≤ size
    · rw [if_pos hm, if_pos hm, distance_loop_checked_eq size tc m htc _ _ data hlen]
      exact ih _ _ (distance_loop_perm size tc m htc _ _ data hlen).2
    · rw [if_neg hm, if_neg hm]
      rfl

/-! ## Claim that every access is inside the array -/

/-- Claim C16.  For an array of `size` elements (any `size`, a power of two or not) and
`thread_count ≥ 1`: every index a thread processes lies in `[0, size)`; at such an index
the loop body with checked accesses does what the unchecked one does, so it never
reaches an access outside the array, `data[k]` being touched only after `k < size` was
found true; hence the whole sort with checked accesses has the outcome of the
unchecked one and never that of an access out of bounds, and for `size < 2 ^ 63` it
returns an array. -/
theorem accesses_in_bounds (size thread_count fuel : Nat) (data : List Int)
    (htc : 1 ≤ thread_count) (hlen : data.length = size) :
    (∀ r ∈ thread_ranges size thread_count, ∀ i, r.1 ≤ i → i < r.2 → i < size) ∧
    (∀ (m j : Nat) (d : List Int) (i : Nat), d.length = size → i < size →
      compare_swap_checked size m j d i = some (compare_swap size m j d i)) ∧
    (∀ (m j : Nat) (d : List Int) (i : Nat), d.length = size →
      compare_swap_checked size m j d i = none → size ≤ i ∧ i ^^^ j < size) ∧
    parallel_bitonic_sort_checked fuel data size thread_count =
      (parallel_bitonic_sort fuel data size thread_count).map some ∧
    parallel_bitonic_sort_checked fuel data size thread_count ≠ some none ∧
    (size < 2 ^ 63 → 64 ≤ fuel →
      ∃ out, parallel_bitonic_sort_checked fuel data size thread_count = some (some out)) := by
  have hmain : parallel_bitonic_sort_checked fuel data size thread_count =
      (parallel_bitonic_sort fuel data size thread_count).map some := by
    rw [parallel_bitonic_sort_checked, parallel_bitonic_sort, if_neg (by omega),
      if_neg (by omega)]
    exact stage_loop_checked_eq size thread_count htc fuel 1 data hlen
  refine ⟨?_, ?_, ?_, hmain, ?_, ?_⟩
  · intro r hr i _ hi
    have := (mem_thread_ranges_le size thread_count htc r hr).2
    omega
  · intro m j d i hd hi
    exact compare_swap_checked_eq size m j d i hd hi
  · intro m j d i hd hnone
    have hi : size ≤ i := by
      by_contra hcon
      rw [compare_swap_checked_eq size m j d i hd (by omega)] at hnone
      exact Option.noConfusion hnone
    refine ⟨hi, ?_⟩
    by_contra hk
    unfold compare_swap_checked at hnone
    simp only [] at hnone
    rw [if_neg (by simp [hk])] at hnone
    exact Option.noConfusion hnone
  · rw [hmain]
    cases parallel_bitonic_sort fuel data size thread_count <;> simp
  · intro h63 hfuel
    rw [hmain]
    by_cases h0 : size = 0
    · subst h0
      obtain ⟨fuel, rfl⟩ : ∃ x, fuel = x + 1 := ⟨fuel - 1, by omega⟩
      exact ⟨data, by simp [parallel_bitonic_sort, stage_loop, show thread_count ≠ 0 by omega]⟩
    · have hg := Nat.pow_log_le_self 2 h0
      have hg1 := Nat.lt_pow_succ_log_self (show 1 < 2 by decide) size
      obtain ⟨out, hout, _⟩ := parallel_bitonic_sort_blockSorted fuel data size thread_count
        (Nat.log 2 size) (by omega) hg hg1 h63 hlen hfuel
      exact ⟨out, by rw [hout]; rfl⟩

/-- Claim C16 on five elements and two threads; on an array shorter than `size`
the loop body does reach an access outside the array. -/
theorem accesses_in_bounds_witness :
    ((∀ r ∈ thread_ranges 5 2, ∀ i, r.1 ≤ i → i < r.2 → i < 5) ∧
    (∀ (m j : Nat) (d : List Int) (i : Nat), d.length = 5 → i < 5 →
      compare_swap_checked 5 m j d i = some (compare_swap 5 m j d i)) ∧
    (∀ (m j : Nat) (d : List Int) (i : Nat), d.length = 5 →
      compare_swap_checked 5 m j d i = none → 5 ≤ i ∧ i ^^^ j < 5) ∧
    parallel_bitonic_sort_checked 64 [5, 4, 3, 2, 1] 5 2 =
      (parallel_bitonic_sort 64 [5, 4, 3, 2, 1] 5 2).map some ∧
    parallel_bitonic_sort_checked 64 [5, 4, 3, 2, 1] 5 2 ≠ some none ∧
    (5 < 2 ^ 63 → 64 ≤ 64 →
      ∃ out, parallel_bitonic_sort_checked 64 [5, 4, 3, 2, 1] 5 2 = some (some out))) ∧
    parallel_bitonic_sort_checked 64 [5, 4, 3, 2, 1] 5 2 = some (some [2, 3, 4, 5, 1]) ∧
    compare_swap_checked 5 2 1 [5, 4, 3] 2 = none :=
  ⟨accesses_in_bounds 5 2 64 [5, 4, 3, 2, 1] (by decide) rfl, by decide, by decide⟩

/-! ## The array at the end of every stage -/

theorem stage_loop_states_blockSorted (size tc g : Nat) (htc : 0 < tc) (hg : 2 ^ g ≤ size)
    (hg1 : size < 2 ^ (g + 1)) (h63 : size < 2 ^ 63) :
    ∀ (k f fuel : Nat) (data : List Int), f + k = g + 1 → k < fuel → data.length = size →
      (∀ f0, f = f0 + 1 → BlockSorted size (2 ^ f0) (values data)) →
      ∃ states, stage_loop_states size tc fuel (2 ^ f) data = some states ∧
        states.map Prod.fst = (List.range' f k).map (fun e => 2 ^ e) ∧
        (∀ m d, (m, d) ∈ states → d.length = size ∧ BlockSorted size m (values d)) ∧
        stage_loop size tc fuel (2 ^ f) data =
          some ((states.getLast?.map Prod.snd).getD data) := by
  intro k
  induction k with
  | zero =>
    intro f fuel data hf hfuel hlen hpre
    obtain ⟨fuel, rfl⟩ : ∃ n, fuel = n + 1 := ⟨fuel - 1, by omega⟩
    have hfg : f = g + 1 := by omega
    subst hfg
    refine ⟨[], ?_, rfl, ?_, ?_⟩
    · rw [stage_loop_states, if_neg (by omega)]
    · intro m d hmem
      simp at hmem
    · rw [stage_loop, if_neg (by omega)]
      rfl
  | succ k ih =>
    intro f fuel data hf hfuel hlen hpre
    obtain ⟨fuel, rfl⟩ : ∃ n, fuel = n + 1 := ⟨fuel - 1, by omega⟩
    have hfg : f ≤ g := by omega
    have hle : 2 ^ f ≤ size := le_trans (Nat.pow_le_pow_right (by norm_num) hfg) hg
    obtain ⟨h1, h2⟩ := stage_blockSorted size tc f htc data hlen hpre
    have hnext : (2 ^ f <<< 1) % SIZE_T_RANGE = 2 ^ (f + 1) := by
      have : 2 ^ f <<< 1 = 2 ^ (f + 1) := by
        rw [Nat.shiftLeft_eq, pow_one, pow_succ]
      rw [this]
      apply Nat.mod_eq_of_lt
      unfold SIZE_T_RANGE
      have : 2 ^ (f + 1) = 2 * 2 ^ f := by rw [pow_succ, Nat.mul_comm]
      omega
    obtain ⟨states, hs1, hs2, hs3, hs4⟩ := ih (f + 1) fuel _ (by omega) (by omega) h1
      (fun f0 hf0 => by
        have : f0 = f := by omega
        subst this
        exact h2)
    refine ⟨(2 ^ f, distance_loop size tc (2 ^ f) (2 ^ f) (2 ^ f >>> 1) data) :: states,
      ?_, ?_, ?_, ?_⟩
    · rw [stage_loop_states, if_pos hle, hnext, hs1]
      rfl
    · rw [List.map_cons, hs2, List.range'_succ, List.map_cons]
    · intro m d hmem
      rcases List.mem_cons.mp hmem with h | h
      · simp only [Prod.mk.injEq] at h
        obtain ⟨rfl, rfl⟩ := h
        exact ⟨h1, h2⟩
      · exact hs3 m d h
    · rw [stage_loop, if_pos hle, hnext, hs4]
      cases states with
      | nil => rfl
      | cons s rest =>
        rw [List.getLast?_cons_cons, List.getLast?_eq_getLast (s :: rest) (by simp)]
        rfl

theorem block_inside_pow_two (g e y : Nat) (heg : e ≤ g) (hy : y < 2 ^ g) :
    (y / 2 ^ e + 1) * 2 ^ e ≤ 2 ^ g := by
  have hsplit : 2 ^ g = 2 ^ (g - e) * 2 ^ e := by
    rw [← pow_add]
    congr 1
    omega
  have hq : y / 2 ^ e < 2 ^ (g - e) := by
    apply Nat.div_lt_of_lt_mul
    rw [Nat.mul_comm, ← hsplit]
    exact hy
  rw [hsplit]
  exact Nat.mul_le_mul_right _ hq

/-! ## Claim about the blocks at the end of a stage -/

/-- Claim C17.  For `size = 2 ^ g < 2 ^ 63`, an array of `size` elements and
`thread_count ≥ 1`, the stage loop goes through the merge sizes `1, 2, ..., 2 ^ g`, and
in the array it has reached when the rounds of a merge size `m` have completed every
aligned block `[b * m, (b + 1) * m)` of the array is sorted, non-decreasing when `b` is
even and non-increasing when `b` is odd; the array at the end of the last stage is the
result of `parallel_bitonic_sort`. -/
theorem blocks_sorted_after_stage (size g thread_count fuel : Nat) (data : List Int)
    (htc : 1 ≤ thread_count) (hsize : size = 2 ^ g) (h63 : size < 2 ^ 63)
    (hlen : data.length = size) (hfuel : 64 ≤ fuel) :
    ∃ states, stage_loop_states size thread_count fuel 1 data = some states ∧
      states.map Prod.fst = (List.range (g + 1)).map (fun e => 2 ^ e) ∧
      (∀ m d, (m, d) ∈ states → d.length = size ∧
        ∀ b x y, b * m ≤ x → x < y → y < (b + 1) * m → y < size →
          if b % 2 = 0 then values d x ≤ values d y else values d y ≤ values d x) ∧
      parallel_bitonic_sort fuel data size thread_count =
        some ((states.getLast?.map Prod.snd).getD data) := by
  have hg63 : g < 63 := by
    by_contra hcon
    have := Nat.pow_le_pow_right (show 0 < 2 by decide) (show 63 ≤ g by omega)
    omega
  have hg1 : size < 2 ^ (g + 1) := by
    rw [hsize]
    exact Nat.pow_lt_pow_right (by decide) (Nat.lt_succ_self g)
  obtain ⟨states, hs1, hs2, hs3, hs4⟩ := stage_loop_states_blockSorted size thread_count g
    (by omega) (le_of_eq hsize.symm) hg1 h63 (g + 1) 0 fuel data (by omega) (by omega) hlen
    (fun f0 hf0 => by omega)
  rw [pow_zero] at hs1 hs4
  refine ⟨states, hs1, ?_, ?_, ?_⟩
  · rw [hs2, List.range_eq_range']
  · intro m d hmem
    obtain ⟨hd, hb⟩ := hs3 m d hmem
    refine ⟨hd, ?_⟩
    intro b x y hbx hxy hy hys
    have hm : m ∈ states.map Prod.fst := List.mem_map.mpr ⟨(m, d), hmem, rfl⟩
    rw [hs2] at hm
    simp only [List.mem_map, List.mem_range'_1] at hm
    obtain ⟨e, he, rfl⟩ := hm
    have hpos : 0 < 2 ^ e := Nat.two_pow_pos e
    have hxb : x / 2 ^ e = b := div_eq_of_mem_block (2 ^ e) b x hbx (by
      rw [Nat.add_mul, Nat.one_mul] at hy
      omega)
    have hyb : y / 2 ^ e = b := div_eq_of_mem_block (2 ^ e) b y (by omega) (by
      rw [Nat.add_mul, Nat.one_mul] at hy
      omega)
    have hin : (x / 2 ^ e + 1) * 2 ^ e ≤ size := by
      rw [hxb, ← hyb, hsize]
      exact block_inside_pow_two g e y (by omega) (by omega)
    have := hb x y (by rw [hxb, hyb]) hin hxy
    rw [hxb] at this
    exact this
  · rw [parallel_bitonic_sort, if_neg (by omega)]
    exact hs4

/-- Claim C17 on eight elements and two threads: the arrays at the end of the four
stages. -/
theorem blocks_sorted_after_stage_witness :
    (∃ states, stage_loop_states 8 2 64 1 [5, 3, 8, 1, 6, 2, 7, 4] = some states ∧
      states.map Prod.fst = (List.range (3 + 1)).map (fun e => 2 ^ e) ∧
      (∀ m d, (m, d) ∈ states → d.length = 8 ∧
        ∀ b x y, b * m ≤ x → x < y → y < (b + 1) * m → y < 8 →
          if b % 2 = 0 then values d x ≤ values d y else values d y ≤ values d x) ∧
      parallel_bitonic_sort 64 [5, 3, 8, 1, 6, 2, 7, 4] 8 2 =
        some ((states.getLast?.map Prod.snd).getD [5, 3, 8, 1, 6, 2, 7, 4])) ∧
    stage_loop_states 8 2 64 1 [5, 3, 8, 1, 6, 2, 7, 4] =
      some [(1, [5, 3, 8, 1, 6, 2, 7, 4]), (2, [3, 5, 8, 1, 2, 6, 7, 4]),
        (4, [1, 3, 5, 8, 7, 6, 4, 2]), (8, [1, 2, 3, 4, 5, 6, 7, 8])] :=
  ⟨blocks_sorted_after_stage 8 3 2 64 [5, 3, 8, 1, 6, 2, 7, 4] (by decide) (by decide)
    (by decide) rfl (by decide), by decide!⟩

/-! ## Exchanges stay on one side of the largest power of two -/

theorem getD_take (data : List Int) (M x : Nat) (hx : x < M) :
    (data.take M).getD x 0 = data.getD x 0 := by
  simp only [List.getD_eq_getElem?_getD, List.getElem?_take_of_lt hx]

theorem getD_drop (data : List Int) (M x : Nat) :
    (data.drop M).getD x 0 = data.getD (M + x) 0 := by
  simp only [List.getD_eq_getElem?_getD, List.getElem?_drop]

theorem swap_below (data : List Int) (M i k : Nat) (hM : M ≤ data.length) (hi : i < M)
    (hk : k < M) :
    ((swap data i k).take M).Perm (data.take M) ∧ (swap data i k).drop M = data.drop M := by
  constructor
  · have h : (swap data i k).take M = swap (data.take M) i k := by
      unfold swap
      rw [List.set_take, List.set_take, getD_take data M k hk, getD_take data M i hi]
    rw [h]
    have hl : (data.take M).length = M := by rw [List.length_take]; omega
    exact swap_perm _ i k (by omega) (by omega)
  · unfold swap
    rw [List.drop_set_of_lt _ _ hk, List.drop_set_of_lt _ _ hi]

theorem swap_above (data : List Int) (M i k : Nat) (hi : M ≤ i) (hk : M ≤ k)
    (hil : i < data.length) (hkl : k < data.length) :
    (swap data i k).take M = data.take M ∧ ((swap data i k).drop M).Perm (data.drop M) := by
  constructor
  · unfold swap
    rw [List.set_take, List.set_take, List.set_eq_of_length_le, List.set_eq_of_length_le]
    · rw [List.length_take]; omega
    · rw [List.length_set, List.length_take]; omega
  · have h : (swap data i k).drop M = swap (data.drop M) (i - M) (k - M) := by
      unfold swap
      have e1 : M + (k - M) = k := by omega
      have e2 : M + (i - M) = i := by omega
      rw [List.drop_set, if_neg (by omega), List.drop_set, if_neg (by omega), getD_drop,
        getD_drop, e1, e2]
    rw [h]
    have hl : (data.drop M).length = data.length - M := List.length_drop _ _
    exact swap_perm _ _ _ (by omega) (by omega)

theorem same_side_of_guard (e g i : Nat) (heg : e < g) (h : i &&& 2 ^ e = 0) :
    i < 2 ^ g ↔ i ^^^ 2 ^ e < 2 ^ g := by
  have hpos : 0 < 2 ^ e := Nat.two_pow_pos e
  have hposg : 0 < 2 ^ g := Nat.two_pow_pos g
  have hbit := (and_two_pow_eq_zero e i).mp h
  rw [xor_two_pow, if_pos hbit]
  have hdiv : (i + 2 ^ e) / 2 ^ e = i / 2 ^ e + 1 := Nat.add_div_right i hpos
  have hblock : i / 2 ^ g = (i + 2 ^ e) / 2 ^ g :=
    same_block_of_same_half e g heg i (i + 2 ^ e) (by rw [hdiv]; omega)
  rw [← Nat.div_eq_zero_iff hposg, ← Nat.div_eq_zero_iff hposg, hblock]

theorem compare_swap_sides (size m e g : Nat) (heg : e < g) (hg : 2 ^ g ≤ size)
    (data0 d : List Int) (i : Nat)
    (h : d.length = size ∧ (d.take (2 ^ g)).Perm (data0.take (2 ^ g)) ∧
      (d.drop (2 ^ g)).Perm (data0.drop (2 ^ g))) :
    (compare_swap size m (2 ^ e) d i).length = size ∧
      ((compare_swap size m (2 ^ e) d i).take (2 ^ g)).Perm (data0.take (2 ^ g)) ∧
      ((compare_swap size m (2 ^ e) d i).drop (2 ^ g)).Perm (data0.drop (2 ^ g)) := by
  obtain ⟨hlen, htake, hdrop⟩ := h
  refine ⟨by rw [length_compare_swap]; exact hlen, ?_⟩
  rw [compare_swap_eq]
  by_cases hc : swap_condition size m (2 ^ e) d i = true
  · rw [if_pos hc]
    obtain ⟨hk, hand⟩ := swap_condition_guard size m (2 ^ e) d i hc
    have hik := (xor_two_pow_lt_iff e i).mp hand
    have hside := same_side_of_guard e g i heg hand
    by_cases hi : i < 2 ^ g
    · obtain ⟨h1, h2⟩ := swap_below d (2 ^ g) i (i ^^^ 2 ^ e) (by omega) hi (hside.mp hi)
      exact ⟨h1.trans htake, by rw [h2]; exact hdrop⟩
    · have hk' : ¬ i ^^^ 2 ^ e < 2 ^ g := fun h => hi (hside.mpr h)
      obtain ⟨h1, h2⟩ := swap_above d (2 ^ g) i (i ^^^ 2 ^ e) (by omega) (by omega)
        (by omega) (by omega)
      exact ⟨by rw [h1]; exact htake, h2.trans hdrop⟩
  · rw [if_neg hc]
    exact ⟨htake, hdrop⟩

/-! ## Properties of the array kept by every loop body -/

theorem round_list_invariant (size tc m j : Nat) (htc : 0 < tc) (P : List Int → Prop)
    (hstep : ∀ (d : List Int) (i : Nat), P d → P (compare_swap size m j d i))
    (data : List Int) (h : P data) : P (round size tc m j data) := by
  rw [round_eq_foldl_range size tc m j data htc]
  generalize List.range size = l
  induction l generalizing data with
  | nil => exact h
  | cons i l ih => exact ih _ (hstep data i h)

theorem distance_loop_list_invariant (size tc m f : Nat) (htc : 0 < tc) (P : List Int → Prop)
    (hstep : ∀ e, e < f → ∀ (d : List Int) (i : Nat), P d → P (compare_swap size m (2 ^ e) d i)) :
    ∀ (fuel e : Nat) (data : List Int), e < f → P data →
      P (distance_loop size tc m fuel (2 ^ e) data) := by
  intro fuel
  induction fuel with
  | zero => intro e data _ h; exact h
  | succ fuel ih =>
    intro e data hef h
    have hround := round_list_invariant size tc m (2 ^ e) htc P (hstep e hef) data h
    unfold distance_loop
    rw [if_pos (Nat.two_pow_pos e)]
    cases e with
    | zero =>
      have h0 : 2 ^ 0 >>> 1 = 0 := rfl
      rw [h0, distance_loop_zero]
      exact hround
    | succ e =>
      have hshift : 2 ^ (e + 1) >>> 1 = 2 ^ e := by
        rw [Nat.shiftRight_eq_div_pow, pow_succ]; simp
      rw [hshift]
      exact ih e _ (by omega) hround

theorem stage_loop_list_invariant (size tc g : Nat) (htc : 0 < tc) (hg1 : size < 2 ^ (g + 1))
    (h63 : size < 2 ^ 63) (P : List Int → Prop)
    (hstep : ∀ e f, e < f → f ≤ g → ∀ (d : List Int) (i : Nat), P d →
      P (compare_swap size (2 ^ f) (2 ^ e) d i)) :
    ∀ (fuel f : Nat) (data out : List Int),
      stage_loop size tc fuel (2 ^ f) data = some out → P data → P out := by
  intro fuel
  induction fuel with
  | zero => intro f data out h; simp [stage_loop] at h
  | succ fuel ih =>
    intro f data out h hP
    unfold stage_loop at h
    split_ifs at h with hle
    · have hfg : f ≤ g := by
        have : 2 ^ f < 2 ^ (g + 1) := lt_of_le_of_lt hle hg1
        have := (Nat.pow_lt_pow_iff_right (by norm_num)).1 this
        omega
      have hnext : (2 ^ f <<< 1) % SIZE_T_RANGE = 2 ^ (f + 1) := by
        have : 2 ^ f <<< 1 = 2 ^ (f + 1) := by
          rw [Nat.shiftLeft_eq, pow_one, pow_succ]
        rw [this]
        apply Nat.mod_eq_of_lt
        unfold SIZE_T_RANGE
        have : 2 ^ (f + 1) = 2 * 2 ^ f := by rw [pow_succ, Nat.mul_comm]
        omega
      rw [hnext] at h
      refine ih (f + 1) _ out h ?_
      cases f with
      | zero =>
        have h0 : 2 ^ 0 >>> 1 = 0 := rfl
        rw [h0, distance_loop_zero]
        exact hP
      | succ f0 =>
        have hshift : 2 ^ (f0 + 1) >>> 1 = 2 ^ f0 := by
          rw [Nat.shiftRight_eq_div_pow, pow_succ]; simp
        rw [hshift]
        exact distance_loop_list_invariant size tc (2 ^ (f0 + 1)) (f0 + 1) htc P
          (fun e he d i hd => hstep e (f0 + 1) he hfg d i hd) _ f0 data (Nat.lt_succ_self _) hP
    · simp only [Option.some.injEq] at h
      subst h
      exact hP

theorem mem_round_sequence (size g : Nat) (hg : 2 ^ g ≤ size) (hg1 : size < 2 ^ (g + 1))
    (m j : Nat) :
    (m, j) ∈ round_sequence size ↔ ∃ f e, f ≤ g ∧ e < f ∧ m = 2 ^ f ∧ j = 2 ^ e := by
  rw [round_sequence_eq size g hg hg1, ← List.range_eq_range']
  simp only [List.mem_flatMap, List.mem_range, stage_rounds, stage_distances, List.mem_map,
    List.mem_reverse, Prod.mk.injEq]
  constructor
  · rintro ⟨a, ha, d', ⟨b, hb, rfl⟩, rfl, rfl⟩
    exact ⟨a, b, by omega, hb, rfl, rfl⟩
  · rintro ⟨a, b, ha, hb, rfl, rfl⟩
    exact ⟨a, by omega, 2 ^ b, ⟨b, hb, rfl⟩, rfl, rfl⟩

/-! ## Claim about the largest power of two below the size -/

/-- Claim C18.  Let `2 ^ g` be the largest power of two that is at most `size`, for an
array of `size < 2 ^ 63` elements and `thread_count ≥ 1`.  The rounds every worker goes
through are those of `round_sequence size`, and in none of them a loop body that
exchanges `data[i]` and `data[k]` has one of `i`, `k` below `2 ^ g` and the other one
not.  The sort returns an array whose first `2 ^ g` elements are the ascending sort of
the first `2 ^ g` elements of the input and whose other elements are a permutation of
the other elements of the input. -/
theorem sorts_largest_power_of_two (size g thread_count fuel : Nat) (data : List Int)
    (htc : 1 ≤ thread_count) (hg : 2 ^ g ≤ size) (hg1 : size < 2 ^ (g + 1))
    (h63 : size < 2 ^ 63) (hlen : data.length = size) (hfuel : 64 ≤ fuel) :
    (∀ (d : List Int) (r : Nat × Nat),
      ∃ out, worker fuel d size r = some (out, round_sequence size)) ∧
    (∀ m j, (m, j) ∈ round_sequence size → ∀ (d : List Int) (i : Nat),
      swap_condition size m j d i = true → (i < 2 ^ g ↔ i ^^^ j < 2 ^ g)) ∧
    ∃ out, parallel_bitonic_sort fuel data size thread_count = some out ∧
      out.take (2 ^ g) = (data.take (2 ^ g)).insertionSort (· ≤ ·) ∧
      (out.drop (2 ^ g)).Perm (data.drop (2 ^ g)) := by
  have hg63 : g < 63 := by
    by_contra hcon
    have := Nat.pow_le_pow_right (show 0 < 2 by decide) (show 63 ≤ g by omega)
    omega
  refine ⟨?_, ?_, ?_⟩
  · intro d r
    obtain ⟨out, hout⟩ := worker_stage_loop_log size g r hg hg1 h63 (g + 1) 0 fuel (d, [])
      (by omega) (by omega)
    refine ⟨out, ?_⟩
    rw [worker, pow_zero] at *
    rw [hout, round_sequence_eq size g hg hg1]
    rfl
  · intro m j hmem d i hc
    obtain ⟨f, e, hf, he, rfl, rfl⟩ := (mem_round_sequence size g hg hg1 m j).mp hmem
    exact same_side_of_guard e g i (by omega)
      (swap_condition_guard size (2 ^ f) (2 ^ e) d i hc).2
  · obtain ⟨out, hout, holen, _, hsorted⟩ := parallel_bitonic_sort_blockSorted fuel data size
      thread_count g (by omega) hg hg1 h63 hlen hfuel
    have hinv : out.length = size ∧ (out.take (2 ^ g)).Perm (data.take (2 ^ g)) ∧
        (out.drop (2 ^ g)).Perm (data.drop (2 ^ g)) := by
      have hrun : stage_loop size thread_count fuel (2 ^ 0) data = some out := by
        rw [parallel_bitonic_sort, if_neg (by omega)] at hout
        exact hout
      exact stage_loop_list_invariant size thread_count g (by omega) hg1 h63
        (fun d => d.length = size ∧ (d.take (2 ^ g)).Perm (data.take (2 ^ g)) ∧
          (d.drop (2 ^ g)).Perm (data.drop (2 ^ g)))
        (fun e f hef hfg d i hd =>
          compare_swap_sides size (2 ^ f) e g (by omega) hg data d i hd)
        fuel 0 data out hrun ⟨hlen, List.Perm.refl _, List.Perm.refl _⟩
    refine ⟨out, hout, ?_, hinv.2.2⟩
    have hs : (out.take (2 ^ g)).Sorted (· ≤ ·) :=
      sorted_take_of_values out (2 ^ g) (by omega)
        (blockSorted_first size (2 ^ g) (values out) hg hsorted)
    exact List.eq_of_perm_of_sorted
      (hinv.2.1.trans (List.perm_insertionSort (· ≤ ·) (data.take (2 ^ g))).symm) hs
      (List.sorted_insertionSort (· ≤ ·) (data.take (2 ^ g)))

/-- Claim C18 on five elements and two threads: the first four are sorted, the fifth
stays where it is. -/
theorem sorts_largest_power_of_two_witness :
    ((∀ (d : List Int) (r : Nat × Nat),
      ∃ out, worker 64 d 5 r = some (out, round_sequence 5)) ∧
    (∀ m j, (m, j) ∈ round_sequence 5 → ∀ (d : List Int) (i : Nat),
      swap_condition 5 m j d i = true → (i < 2 ^ 2 ↔ i ^^^ j < 2 ^ 2)) ∧
    ∃ out, parallel_bitonic_sort 64 [5, 4, 3, 2, 1] 5 2 = some out ∧
      out.take (2 ^ 2) = (([5, 4, 3, 2, 1] : List Int).take (2 ^ 2)).insertionSort (· ≤ ·) ∧
      (out.drop (2 ^ 2)).Perm (([5, 4, 3, 2, 1] : List Int).drop (2 ^ 2))) ∧
    parallel_bitonic_sort 64 [5, 4, 3, 2, 1] 5 2 = some [2, 3, 4, 5, 1] :=
  ⟨sorts_largest_power_of_two 5 2 2 64 [5, 4, 3, 2, 1] (by decide) (by decide) (by decide)
    (by decide) rfl (by decide), by decide⟩

/-! ## The recursive formulation: one exchange and the loop of a merge -/

theorem length_compare_exchange (data : List Int) (i k : Nat) (dir : Bool) :
    (compare_exchange data i k dir).length = data.length := by
  unfold compare_exchange
  split_ifs
  · exact length_swap data i k
  · rfl

theorem compare_exchange_perm (data : List Int) (i k : Nat) (dir : Bool)
    (hi : i < data.length) (hk : k < data.length) : (compare_exchange data i k dir).Perm data := by
  unfold compare_exchange
  split_ifs
  · exact swap_perm data i k hi hk
  · exact List.Perm.refl _

/-- The value an exchange in direction `dir` leaves at the lower index of a pair. -/
theorem values_compare_exchange (data : List Int) (i k x : Nat) (dir : Bool)
    (hik : i ≠ k) (hi : i < data.length) (hk : k < data.length) :
    values (compare_exchange data i k dir) x =
      if x = i then
        (if dir = true then min (values data i) (values data k)
          else max (values data i) (values data k))
      else if x = k then
        (if dir = true then max (values data i) (values data k)
          else min (values data i) (values data k))
      else values data x := by
  unfold compare_exchange values
  by_cases hc : (decide (data.getD i 0 > data.getD k 0) == dir) = true
  · rw [if_pos hc, getD_swap data i k x hi hk]
    generalize data.getD i 0 = A at hc ⊢
    generalize data.getD k 0 = B at hc ⊢
    generalize data.getD x 0 = X at hc ⊢
    cases dir
    · simp only [beq_false, Bool.not_eq_true', decide_eq_false_iff_not, not_lt] at hc
      simp only [Bool.false_eq_true, if_false]
      split_ifs <;> omega
    · simp only [beq_true, decide_eq_true_eq] at hc
      simp only [if_true]
      split_ifs <;> omega
  · rw [if_neg hc]
    by_cases h1 : x = i
    · rw [if_pos h1, h1]
      generalize data.getD i 0 = A at hc ⊢
      generalize data.getD k 0 = B at hc ⊢
      cases dir
      · simp only [beq_false, Bool.not_eq_true', decide_eq_false_iff_not, not_lt,
          not_le] at hc
        simp only [Bool.false_eq_true, if_false]
        omega
      · simp only [beq_true, decide_eq_true_eq, not_lt] at hc
        simp only [if_true]
        omega
    · rw [if_neg h1]
      by_cases h2 : x = k
      · rw [if_pos h2, h2]
        generalize data.getD i 0 = A at hc ⊢
        generalize data.getD k 0 = B at hc ⊢
        cases dir
        · simp only [beq_false, Bool.not_eq_true', decide_eq_false_iff_not, not_lt,
            not_le] at hc
          simp only [Bool.false_eq_true, if_false]
          omega
        · simp only [beq_true, decide_eq_true_eq, not_lt] at hc
          simp only [if_true]
          omega
      · rw [if_neg h2]

theorem merge_loop_prefix (data : List Int) (s h : Nat) (dir : Bool)
    (hlen : s + 2 * h ≤ data.length) : ∀ n, n ≤ h →
      ((List.range' s n).foldl (fun d i => compare_exchange d i (i + h) dir) data).length
        = data.length ∧
      ((List.range' s n).foldl (fun d i => compare_exchange d i (i + h) dir) data).Perm data ∧
      ∀ x, values ((List.range' s n).foldl (fun d i => compare_exchange d i (i + h) dir) data) x =
        if s ≤ x ∧ x < s + n then
          (if dir = true then min (values data x) (values data (x + h))
            else max (values data x) (values data (x + h)))
        else if s + h ≤ x ∧ x < s + h + n then
          (if dir = true then max (values data (x - h)) (values data x)
            else min (values data (x - h)) (values data x))
        else values data x := by
  intro n
  induction n with
  | zero =>
    intro _
    refine ⟨rfl, List.Perm.refl _, fun x => ?_⟩
    rw [if_neg (by omega), if_neg (by omega)]
    rfl
  | succ n ih =>
    intro hn
    obtain ⟨hl, hp, hv⟩ := ih (by omega)
    rw [List.range'_1_concat, List.foldl_append]
    simp only [List.foldl_cons, List.foldl_nil]
    generalize (List.range' s n).foldl (fun d i => compare_exchange d i (i + h) dir) data = L
      at hl hp hv ⊢
    refine ⟨by rw [length_compare_exchange]; exact hl,
      (compare_exchange_perm L _ _ dir (by omega) (by omega)).trans hp, fun x => ?_⟩
    have e1 : values L (s + n) = values data (s + n) := by
      rw [hv, if_neg (by omega), if_neg (by omega)]
    have e2 : values L (s + n + h) = values data (s + n + h) := by
      rw [hv, if_neg (by omega), if_neg (by omega)]
    rw [values_compare_exchange L (s + n) (s + n + h) x dir (by omega) (by omega) (by omega),
      e1, e2, hv x]
    by_cases h1 : x = s + n
    · have c1 : s ≤ x ∧ x < s + (n + 1) := by omega
      rw [if_pos h1, if_pos c1, h1]
    · rw [if_neg h1]
      by_cases h2 : x = s + n + h
      · have c1 : ¬ (s ≤ x ∧ x < s + (n + 1)) := by omega
        have c2 : s + h ≤ x ∧ x < s + h + (n + 1) := by omega
        have e3 : s + n + h - h = s + n := by omega
        rw [if_pos h2, if_neg c1, if_pos c2, h2, e3]
      · rw [if_neg h2]
        by_cases h3 : s ≤ x ∧ x < s + n
        · have c1 : s ≤ x ∧ x < s + (n + 1) := by omega
          rw [if_pos h3, if_pos c1]
        · have c1 : ¬ (s ≤ x ∧ x < s + (n + 1)) := by omega
          rw [if_neg h3, if_neg c1]
          by_cases h4 : s + h ≤ x ∧ x < s + h + n
          · have c2 : s + h ≤ x ∧ x < s + h + (n + 1) := by omega
            rw [if_pos h4, if_pos c2]
          · have c2 : ¬ (s + h ≤ x ∧ x < s + h + (n + 1)) := by omega
            rw [if_neg h4, if_neg c2]

/-- The loop of a merge is a half-cleaner on the segment `[s, s + 2 * h)`: in direction
`dir = true` the lower half receives the minima of the pairs and the upper half the
maxima, in direction `dir = false` the other way round. -/
theorem values_merge_loop (data : List Int) (s h : Nat) (dir : Bool)
    (hlen : s + 2 * h ≤ data.length) :
    (merge_loop data s h dir).length = data.length ∧
    (merge_loop data s h dir).Perm data ∧
    ∀ x, values (merge_loop data s h dir) x =
      if s ≤ x ∧ x < s + h then
        (if dir = true then min (values data x) (values data (x + h))
          else max (values data x) (values data (x + h)))
      else if s + h ≤ x ∧ x < s + h + h then
        (if dir = true then max (values data (x - h)) (values data x)
          else min (values data (x - h)) (values data x))
      else values data x :=
  merge_loop_prefix data s h dir hlen h (le_refl h)

theorem bitonic_congr (a b : Nat → Int) (s n : Nat)
    (h : ∀ x, s ≤ x → x < s + n → a x = b x) (ha : Bitonic a s n) : Bitonic b s n := by
  intro t
  exact cyclicInterval_congr (fun i h1 h2 => by rw [h i h1 h2]) (ha t)

/-- After the loop of a merge on a bitonic segment both halves are bitonic, and the
halves are in the order of the direction. -/
theorem merge_loop_halves (data : List Int) (s h : Nat) (dir : Bool)
    (hlen : s + 2 * h ≤ data.length) (hb : Bitonic (values data) s (2 * h)) :
    Bitonic (values (merge_loop data s h dir)) s h ∧
    Bitonic (values (merge_loop data s h dir)) (s + h) h ∧
    ∀ i j, s ≤ i → i < s + h → s + h ≤ j → j < s + 2 * h →
      if dir = true then
        values (merge_loop data s h dir) i ≤ values (merge_loop data s h dir) j
      else values (merge_loop data s h dir) j ≤ values (merge_loop data s h dir) i := by
  obtain ⟨_, _, hv⟩ := values_merge_loop data s h dir hlen
  have hlow : ∀ i, s ≤ i → i < s + h → values (merge_loop data s h dir) i =
      if dir = true then min (values data i) (values data (i + h))
        else max (values data i) (values data (i + h)) := by
    intro i h1 h2
    rw [hv i, if_pos ⟨h1, h2⟩]
  have hhigh : ∀ j, s + h ≤ j → j < s + 2 * h → values (merge_loop data s h dir) j =
      if dir = true then max (values data (j - h)) (values data j)
        else min (values data (j - h)) (values data j) := by
    intro j h1 h2
    have c1 : ¬ (s ≤ j ∧ j < s + h) := by omega
    have c2 : s + h ≤ j ∧ j < s + h + h := by omega
    rw [hv j, if_neg c1, if_pos c2]
  cases dir
  · simp only [Bool.false_eq_true, if_false] at hlow hhigh ⊢
    refine ⟨?_, ?_, ?_⟩
    · intro t
      exact cyclicInterval_congr (fun i h1 h2 => by rw [hlow i h1 h2, lt_max_iff])
        (cyclicInterval_either_low (hb t))
    · intro t
      exact cyclicInterval_congr
        (fun j h1 h2 => by rw [hhigh j h1 (by omega), lt_min_iff])
        (cyclicInterval_both_high (hb t))
    · intro i j hi1 hi2 hj1 hj2
      by_contra hcon
      rw [not_le] at hcon
      rw [hhigh j hj1 hj2, lt_min_iff] at hcon
      have := cyclicInterval_both_high_imp_either_low
        (hb (values (merge_loop data s h false) i)) i j hi1 hi2 hj1 hj2 hcon
      rw [← lt_max_iff, ← hlow i hi1 hi2] at this
      exact lt_irrefl _ this
  · simp only [if_true] at hlow hhigh ⊢
    refine ⟨?_, ?_, ?_⟩
    · intro t
      exact cyclicInterval_congr (fun i h1 h2 => by rw [hlow i h1 h2, lt_min_iff])
        (cyclicInterval_both_low (hb t))
    · intro t
      exact cyclicInterval_congr
        (fun j h1 h2 => by rw [hhigh j h1 (by omega), lt_max_iff])
        (cyclicInterval_either_high (hb t))
    · intro i j hi1 hi2 hj1 hj2
      by_contra hcon
      rw [not_le] at hcon
      rw [hlow i hi1 hi2, lt_min_iff] at hcon
      have := cyclicInterval_both_imp_either
        (hb (values (merge_loop data s h true) j)) i j hi1 hi2 hj1 hj2 hcon
      rw [← lt_max_iff, ← hhigh j hj1 hj2] at this
      exact lt_irrefl _ this

/-- The loop of a merge leaves no value in the segment that was not there before. -/
theorem merge_loop_keeps (data : List Int) (s h : Nat) (dir : Bool)
    (hlen : s + 2 * h ≤ data.length) (S : Int → Prop)
    (hS : ∀ x, s ≤ x → x < s + 2 * h → S (values data x)) :
    ∀ x, s ≤ x → x < s + 2 * h → S (values (merge_loop data s h dir) x) := by
  obtain ⟨_, _, hv⟩ := values_merge_loop data s h dir hlen
  intro x h1 h2
  rw [hv x]
  by_cases c1 : s ≤ x ∧ x < s + h
  · rw [if_pos c1]
    have e1 := hS x h1 h2
    have e2 := hS (x + h) (by omega) (by omega)
    split_ifs
    · rcases min_choice (values data x) (values data (x + h)) with e | e <;> rw [e] <;> assumption
    · rcases max_choice (values data x) (values data (x + h)) with e | e <;> rw [e] <;> assumption
  · have c2 : s + h ≤ x ∧ x < s + h + h := by omega
    rw [if_neg c1, if_pos c2]
    have e1 := hS x h1 h2
    have e2 := hS (x - h) (by omega) (by omega)
    split_ifs
    · rcases max_choice (values data (x - h)) (values data x) with e | e <;> rw [e] <;> assumption
    · rcases min_choice (values data (x - h)) (values data x) with e | e <;> rw [e] <;> assumption

/-- A segment whose lower half is sorted against the direction and whose upper half is
sorted in the direction is bitonic. -/
theorem bitonic_of_halves (a : Nat → Int) (s h : Nat) (dir : Bool)
    (hlow : ∀ x y, s ≤ x → x < y → y < s + h →
      if (!dir) = true then a x ≤ a y else a y ≤ a x)
    (hhigh : ∀ x y, s + h ≤ x → x < y → y < s + h + h →
      if dir = true then a x ≤ a y else a y ≤ a x) :
    Bitonic a s (2 * h) := by
  intro t
  cases dir
  · simp only [Bool.not_false, if_true] at hlow
    simp only [Bool.false_eq_true, if_false] at hhigh
    obtain ⟨p, hp1, hp2, hp⟩ := exists_up_threshold (fun i => t < a i) s h
      (fun x y h1 h2 h3 hx => lt_of_lt_of_le hx (hlow x y h1 h2 h3))
    obtain ⟨q, hq1, hq2, hq⟩ := exists_down_threshold (fun i => t < a i) (s + h) h
      (fun x y h1 h2 h3 hy => lt_of_lt_of_le hy (hhigh x y h1 h2 h3))
    refine ⟨p, q, Or.inl fun i h1 h2 => ?_⟩
    beta_reduce
    by_cases hi : i < s + h
    · rw [hp i h1 hi]
      constructor
      · intro h'; exact ⟨h', by omega⟩
      · intro h'; exact h'.1
    · rw [hq i (by omega) (by omega)]
      constructor
      · intro h'; exact ⟨by omega, h'⟩
      · intro h'; exact h'.2
  · simp only [Bool.not_true, Bool.false_eq_true, if_false] at hlow
    simp only [if_true] at hhigh
    obtain ⟨q, hq1, hq2, hq⟩ := exists_down_threshold (fun i => t < a i) s h
      (fun x y h1 h2 h3 hy => lt_of_lt_of_le hy (hlow x y h1 h2 h3))
    obtain ⟨p, hp1, hp2, hp⟩ := exists_up_threshold (fun i => t < a i) (s + h) h
      (fun x y h1 h2 h3 hx => lt_of_lt_of_le hx (hhigh x y h1 h2 h3))
    refine ⟨q, p, Or.inr fun i h1 h2 => ?_⟩
    beta_reduce
    by_cases hi : i < s + h
    · rw [hq i h1 hi]
      constructor
      · intro h' hcon; omega
      · intro h'
        by_contra hcon
        exact h' ⟨by omega, by omega⟩
    · rw [hp i (by omega) (by omega)]
      constructor
      · intro h' hcon; omega
      · intro h'
        by_contra hcon
        exact h' ⟨by omega, by omega⟩

theorem arrive_and_wait_alone_returns (b : Barrier) (h1 : b.expected_count = 1)
    (h2 : b.current_count = 0) :
    ∃ b', arrive_and_wait_alone b = some b' ∧ b'.expected_count = 1 ∧ b'.current_count = 0 := by
  refine ⟨critical_section b, ?_, ?_, ?_⟩
  · rw [arrive_and_wait_alone, if_pos (by rw [h1, h2]; rfl)]
  · simp [critical_section, h1, h2]
  · simp [critical_section, h1, h2]

/-! ## The recursive formulation: merge and sort -/

/-- A merge of a bitonic segment of `2 ^ k` elements returns, with the segment sorted
in the direction `dir`, the elements outside of it untouched and the barrier released
again. -/
theorem bitonic_merge_sorts (size : Nat) (dir : Bool) :
    ∀ (k fuel : Nat) (data : List Int) (start : Nat) (b : Barrier), k < fuel →
      start + 2 ^ k ≤ data.length → Bitonic (values data) start (2 ^ k) →
      b.expected_count = 1 → b.current_count = 0 →
      ∃ out b', bitonic_merge fuel data size start (2 ^ k) dir b = some (out, b') ∧
        b'.expected_count = 1 ∧ b'.current_count = 0 ∧
        out.length = data.length ∧ out.Perm data ∧
        (∀ x, ¬ (start ≤ x ∧ x < start + 2 ^ k) → values out x = values data x) ∧
        (∀ x y, start ≤ x → x < y → y < start + 2 ^ k →
          if dir = true then values out x ≤ values out y else values out y ≤ values out x) ∧
        (∀ S : Int → Prop, (∀ x, start ≤ x → x < start + 2 ^ k → S (values data x)) →
          ∀ x, start ≤ x → x < start + 2 ^ k → S (values out x)) := by
  intro k
  induction k with
  | zero =>
    intro fuel data start b hfuel hlen hbit hb1 hb2
    obtain ⟨fuel, rfl⟩ : ∃ n, fuel = n + 1 := ⟨fuel - 1, by omega⟩
    obtain ⟨b', hb', h1', h2'⟩ := arrive_and_wait_alone_returns b hb1 hb2
    refine ⟨data, b', ?_, h1', h2', rfl, List.Perm.refl _, fun x _ => rfl, ?_, fun S hS => hS⟩
    · rw [bitonic_merge, if_neg (by simp), hb']
      rfl
    · intro x y h1 h2 h3
      rw [pow_zero] at h3
      omega
  | succ k ih =>
    intro fuel data start b hfuel hlen hbit hb1 hb2
    obtain ⟨fuel, rfl⟩ : ∃ n, fuel = n + 1 := ⟨fuel - 1, by omega⟩
    have hpos : 0 < 2 ^ k := Nat.two_pow_pos k
    have hpow : 2 ^ (k + 1) = 2 * 2 ^ k := by rw [pow_succ, Nat.mul_comm]
    have hhalf : 2 ^ (k + 1) / 2 = 2 ^ k := by omega
    rw [hpow] at hbit
    obtain ⟨hl1, hp1, hv1⟩ := values_merge_loop data start (2 ^ k) dir (by omega)
    obtain ⟨hbl, hbh, hord⟩ := merge_loop_halves data start (2 ^ k) dir (by omega) hbit
    have hkeep1 := merge_loop_keeps data start (2 ^ k) dir (by omega)
    generalize hd1 : merge_loop data start (2 ^ k) dir = d1 at hl1 hp1 hv1 hbl hbh hord hkeep1
    obtain ⟨d2, b2, hrun2, hb21, hb22, hl2, hp2, hout2, hs2, hk2⟩ :=
      ih fuel d1 start b (by omega) (by omega) hbl hb1 hb2
    have hbh2 : Bitonic (values d2) (start + 2 ^ k) (2 ^ k) :=
      bitonic_congr _ _ _ _ (fun x h1 h2 => (hout2 x (by omega)).symm) hbh
    obtain ⟨d3, b3, hrun3, hb31, hb32, hl3, hp3, hout3, hs3, hk3⟩ :=
      ih fuel d2 (start + 2 ^ k) b2 (by omega) (by omega) hbh2 hb21 hb22
    obtain ⟨b4, hb4, hb41, hb42⟩ := arrive_and_wait_alone_returns b3 hb31 hb32
    refine ⟨d3, b4, ?_, hb41, hb42, by omega, hp3.trans (hp2.trans hp1), ?_, ?_, ?_⟩
    · rw [bitonic_merge, if_pos (by omega)]
      simp only [hhalf, hd1, hrun2, hrun3, hb4, Option.map_some']
    · intro x hx
      have c1 : ¬ (start ≤ x ∧ x < start + 2 ^ k) := by omega
      have c2 : ¬ (start + 2 ^ k ≤ x ∧ x < start + 2 ^ k + 2 ^ k) := by omega
      rw [hout3 x (by omega), hout2 x (by omega), hv1 x, if_neg c1, if_neg c2]
    · intro x y hx hxy hy
      by_cases hylow : y < start + 2 ^ k
      · rw [hout3 x (by omega), hout3 y (by omega)]
        exact hs2 x y hx hxy hylow
      · by_cases hxhigh : start + 2 ^ k ≤ x
        · exact hs3 x y hxhigh hxy (by omega)
        · rw [hout3 x (by omega)]
          have hA : ∀ j, start + 2 ^ k ≤ j → j < start + 2 * 2 ^ k →
              if dir = true then values d2 x ≤ values d1 j else values d1 j ≤ values d2 x :=
            hk2 (fun v => ∀ j, start + 2 ^ k ≤ j → j < start + 2 * 2 ^ k →
                if dir = true then v ≤ values d1 j else values d1 j ≤ v)
              (fun i hi1 hi2 j hj1 hj2 => hord i j hi1 hi2 hj1 hj2) x hx (by omega)
          exact hk3 (fun w => if dir = true then values d2 x ≤ w else w ≤ values d2 x)
            (fun j hj1 hj2 => by
              rw [hout2 j (by omega)]
              exact hA j hj1 (by omega)) y (by omega) (by omega)
    · intro S hS x h1 h2
      have hS1 : ∀ x, start ≤ x → x < start + 2 * 2 ^ k → S (values d1 x) :=
        hkeep1 S (fun x h1 h2 => hS x h1 (by omega))
      have hS2 : ∀ x, start ≤ x → x < start + 2 * 2 ^ k → S (values d2 x) := by
        intro x h1 h2
        by_cases hlow : x < start + 2 ^ k
        · exact hk2 S (fun x h1 h2 => hS1 x h1 (by omega)) x h1 hlow
        · rw [hout2 x (by omega)]
          exact hS1 x h1 h2
      by_cases hlow : x < start + 2 ^ k
      · rw [hout3 x (by omega)]
        exact hS2 x h1 (by omega)
      · exact hk3 S (fun x h1 h2 => hS2 x (by omega) (by omega)) x (by omega) (by omega)

/-- The recursive sort of a segment of `2 ^ k` elements returns, with the segment sorted
in the direction `dir` and the elements outside of it untouched. -/
theorem bitonic_sort_recursive_segment (size : Nat) :
    ∀ (k fuel : Nat) (data : List Int) (start : Nat) (dir : Bool) (b : Barrier), k + 1 < fuel →
      start + 2 ^ k ≤ data.length → b.expected_count = 1 → b.current_count = 0 →
      ∃ out b', bitonic_sort_recursive fuel data size start (2 ^ k) dir b = some (out, b') ∧
        b'.expected_count = 1 ∧ b'.current_count = 0 ∧
        out.length = data.length ∧ out.Perm data ∧
        (∀ x, ¬ (start ≤ x ∧ x < start + 2 ^ k) → values out x = values data x) ∧
        (∀ x y, start ≤ x → x < y → y < start + 2 ^ k →
          if dir = true then values out x ≤ values out y
          else values out y ≤ values out x) := by
  intro k
  induction k with
  | zero =>
    intro fuel data start dir b hfuel hlen hb1 hb2
    obtain ⟨fuel, rfl⟩ : ∃ n, fuel = n + 1 := ⟨fuel - 1, by omega⟩
    refine ⟨data, b, ?_, hb1, hb2, rfl, List.Perm.refl _, fun x _ => rfl, ?_⟩
    · rw [bitonic_sort_recursive, if_neg (by simp)]
    · intro x y h1 h2 h3
      rw [pow_zero] at h3
      omega
  | succ k ih =>
    intro fuel data start dir b hfuel hlen hb1 hb2
    obtain ⟨fuel, rfl⟩ : ∃ n, fuel = n + 1 := ⟨fuel - 1, by omega⟩
    have hpos : 0 < 2 ^ k := Nat.two_pow_pos k
    have hpow : 2 ^ (k + 1) = 2 * 2 ^ k := by rw [pow_succ, Nat.mul_comm]
    have hhalf : 2 ^ (k + 1) / 2 = 2 ^ k := by omega
    obtain ⟨d1, b1, hrun1, hb11, hb12, hl1, hp1, hout1, hs1⟩ :=
      ih fuel data start (!dir) b (by omega) (by omega) hb1 hb2
    obtain ⟨d2, b2, hrun2, hb21, hb22, hl2, hp2, hout2, hs2⟩ :=
      ih fuel d1 (start + 2 ^ k) dir b1 (by omega) (by omega) hb11 hb12
    have hbit : Bitonic (values d2) start (2 ^ (k + 1)) := by
      rw [hpow]
      apply bitonic_of_halves (values d2) start (2 ^ k) dir
      · intro x y h1 h2 h3
        rw [hout2 x (by omega), hout2 y (by omega)]
        exact hs1 x y h1 h2 h3
      · intro x y h1 h2 h3
        exact hs2 x y h1 h2 h3
    obtain ⟨d3, b3, hrun3, hb31, hb32, hl3, hp3, hout3, hs3, _⟩ :=
      bitonic_merge_sorts size dir (k + 1) fuel d2 start b2 (by omega) (by omega) hbit hb21 hb22
    refine ⟨d3, b3, ?_, hb31, hb32, by omega, hp3.trans (hp2.trans hp1), ?_, hs3⟩
    · rw [bitonic_sort_recursive, if_pos (by omega)]
      simp only [hhalf, hrun1, hrun2, hrun3]
    · intro x hx
      rw [hout3 x hx, hout2 x (by omega), hout1 x (by omega)]

theorem sorted_ge_of_values (l : List Int)
    (h : ∀ x y, x < y → y < l.length → values l y ≤ values l x) : l.Sorted (· ≥ ·) := by
  unfold List.Sorted
  rw [List.pairwise_iff_getElem]
  intro i j hi hj hij
  have := h i j hij hj
  unfold values at this
  rw [List.getD_eq_getElem _ _ hi, List.getD_eq_getElem _ _ hj] at this
  exact this

/-! ## Claim about the recursive formulation -/

/-- Claim C19.  For an array of `size = 2 ^ g` elements, `bitonic_sort_recursive(data,
size, 0, size, dir, barrier)` run by one thread on a barrier of one participant returns
(a recursion depth of `g + 2` is enough, and no call of `arrive_and_wait` blocks); the
array it leaves is a permutation of the input, non-decreasing when `dir` is true and
non-increasing when `dir` is false; and for `dir = true` (and `size < 2 ^ 63`, so that
the stage loop returns) it is the array `parallel_bitonic_sort` leaves. -/
theorem bitonic_sort_recursive_sorts (g fuel size : Nat) (data : List Int) (dir : Bool)
    (hsize : size = 2 ^ g) (hlen : data.length = size) (hfuel : g + 1 < fuel) :
    ∃ out barrier,
      bitonic_sort_recursive fuel data size 0 size dir (Barrier.create 1) = some (out, barrier) ∧
      out.Perm data ∧
      (if dir = true then out.Sorted (· ≤ ·) else out.Sorted (· ≥ ·)) ∧
      (dir = true → size < 2 ^ 63 → ∀ thread_count fuel', 1 ≤ thread_count → 64 ≤ fuel' →
        parallel_bitonic_sort fuel' data size thread_count = some out) := by
  obtain ⟨out, b, hrun, _, _, hl, hp, _, hs⟩ := bitonic_sort_recursive_segment size g fuel data 0
    dir (Barrier.create 1) hfuel (by omega) rfl rfl
  rw [← hsize] at hrun
  have hsorted : if dir = true then out.Sorted (· ≤ ·) else out.Sorted (· ≥ ·) := by
    cases dir
    · simp only [Bool.false_eq_true, if_false] at hs ⊢
      exact sorted_ge_of_values out (fun x y hxy hy => hs x y (Nat.zero_le x) hxy (by omega))
    · simp only [if_true] at hs ⊢
      have := sorted_take_of_values out out.length (le_refl _)
        (fun x y hxy hy => hs x y (Nat.zero_le x) hxy (by omega))
      rwa [List.take_length] at this
  refine ⟨out, b, hrun, hp, hsorted, ?_⟩
  intro hdir h63 tc fuel' htc hfuel'
  subst hdir
  simp only [if_true] at hsorted
  rw [parallel_bitonic_sort_pow_two fuel' data size tc g (by omega) hsize h63 hlen hfuel']
  congr 1
  exact (List.eq_of_perm_of_sorted
    (hp.trans (List.perm_insertionSort (· ≤ ·) data).symm) hsorted
    (List.sorted_insertionSort (· ≤ ·) data)).symm

/-- Claim C19 on four elements, in both directions; on a barrier that expects two
participants the single thread does not return from its first call of
`arrive_and_wait`. -/
theorem bitonic_sort_recursive_sorts_witness :
    (∃ out barrier,
      bitonic_sort_recursive 4 [3, 1, 4, 2] 4 0 4 true (Barrier.create 1) = some (out, barrier) ∧
      out.Perm [3, 1, 4, 2] ∧
      (if true = true then out.Sorted (· ≤ ·) else out.Sorted (· ≥ ·)) ∧
      (true = true → 4 < 2 ^ 63 → ∀ thread_count fuel', 1 ≤ thread_count → 64 ≤ fuel' →
        parallel_bitonic_sort fuel' [3, 1, 4, 2] 4 thread_count = some out)) ∧
    (bitonic_sort_recursive 4 [3, 1, 4, 2] 4 0 4 true (Barrier.create 1)).map Prod.fst =
      some [1, 2, 3, 4] ∧
    (bitonic_sort_recursive 4 [3, 1, 4, 2] 4 0 4 false (Barrier.create 1)).map Prod.fst =
      some [4, 3, 2, 1] ∧
    bitonic_sort_recursive 4 [3, 1, 4, 2] 4 0 4 true (Barrier.create 2) = none :=
  ⟨bitonic_sort_recursive_sorts 2 4 4 [3, 1, 4, 2] true (by decide) rfl (by decide),
    by decide, by decide, by decide⟩

end BitonicSort
